import Mathlib

/-!
Verification development for the orgbot repository: a shallow embedding of
the organisation-reconciliation engine (pkg/orgbot) together with proofs of
the specified properties.

Go strings are modelled by Lean strings; the byte-wise ordering used by
sort.Strings and ioutil.ReadDir is modelled by a code-point lexicographic
order on the character list (UTF-8 byte order coincides with code-point
order).  Sets from github.com/deckarep/golang-set are modelled by
duplicate-free lists; since every enumeration of such a set in the source
is either order-irrelevant or immediately sorted, enumeration is modelled
canonically by sorting.
-/

/-- Code-point lexicographic order on character lists; this is exactly the
byte-wise ordering Go uses to compare strings, restricted to valid UTF-8. -/
def clLe : List Char → List Char → Bool
  | [], _ => true
  | _ :: _, [] => false
  | a :: as, b :: bs =>
    if a.toNat < b.toNat then true
    else if b.toNat < a.toNat then false
    else clLe as bs

/-- Go string comparison (s1 less-or-equal s2), byte-wise. -/
def strLe (a b : String) : Bool := clLe a.data b.data

/-- Propositional form of strLe, used for sortedness statements. -/
def strLeP (a b : String) : Prop := strLe a b = true

instance : DecidableRel strLeP := fun a b => by unfold strLeP; infer_instance

/-- Strict form of the Go string order. -/
def strLtP (a b : String) : Prop := strLe a b = true ∧ a ≠ b

instance : DecidableRel strLtP := fun a b => by unfold strLtP; infer_instance

theorem clLe_total : ∀ a b, clLe a b = true ∨ clLe b a = true
  | [], _ => Or.inl rfl
  | _ :: _, [] => Or.inr rfl
  | a :: as, b :: bs => by
    simp only [clLe]
    rcases Nat.lt_trichotomy a.toNat b.toNat with h | h | h
    · simp [h]
    · simp [h, Nat.lt_irrefl]
      exact clLe_total as bs
    · simp [h, Nat.lt_asymm h]

theorem clLe_refl : ∀ a, clLe a a = true
  | [] => rfl
  | _ :: as => by simp [clLe, clLe_refl as]

theorem clLe_trans : ∀ a b c, clLe a b = true → clLe b c = true → clLe a c = true
  | [], _, _ => by intro _ _; rfl
  | a :: as, [], c => by simp [clLe]
  | a :: as, b :: bs, [] => by simp [clLe]
  | a :: as, b :: bs, c :: cs => by
    simp only [clLe]
    by_cases hab : a.toNat < b.toNat <;> by_cases hbc : b.toNat < c.toNat <;>
      by_cases hba : b.toNat < a.toNat <;> by_cases hcb : c.toNat < b.toNat <;>
      simp [hab, hbc, hba, hcb] <;>
      first
        | omega
        | (have hac : a.toNat < c.toNat := by omega
           simp [hac])
        | (have hac : ¬ a.toNat < c.toNat := by omega
           have hca : ¬ c.toNat < a.toNat := by omega
           simp [hac, hca]
           first
             | exact clLe_trans as bs cs
             | exact fun h1 h2 => ⟨by omega, clLe_trans as bs cs h1 h2⟩)

theorem char_toNat_inj {a b : Char} (h : a.toNat = b.toNat) : a = b := by
  have hv : a.val = b.val := UInt32.ext h
  cases a; cases b; simp_all

theorem clLe_antisymm : ∀ a b, clLe a b = true → clLe b a = true → a = b
  | [], [] => by intro _ _; rfl
  | [], _ :: _ => by simp [clLe]
  | _ :: _, [] => by simp [clLe]
  | a :: as, b :: bs => by
    simp only [clLe]
    rcases Nat.lt_trichotomy a.toNat b.toNat with h | h | h
    · simp [h, Nat.lt_asymm h]
    · simp [h, Nat.lt_irrefl]
      intro h1 h2
      exact ⟨char_toNat_inj h, clLe_antisymm as bs h1 h2⟩
    · simp [h, Nat.lt_asymm h]

theorem strLeP_total : ∀ a b : String, strLeP a b ∨ strLeP b a := by
  intro a b
  exact clLe_total a.data b.data

theorem strLeP_trans : ∀ a b c : String, strLeP a b → strLeP b c → strLeP a c := by
  intro a b c h1 h2
  exact clLe_trans a.data b.data c.data h1 h2

theorem strLeP_antisymm : ∀ a b : String, strLeP a b → strLeP b a → a = b := by
  intro a b h1 h2
  have := clLe_antisymm a.data b.data h1 h2
  cases a; cases b; simp_all

instance : IsTotal String strLeP := ⟨strLeP_total⟩

instance : IsTrans String strLeP := ⟨strLeP_trans⟩

instance : IsAntisymm String strLeP := ⟨strLeP_antisymm⟩

instance : IsRefl String strLeP := ⟨fun a => clLe_refl a.data⟩

/-- Sorting a list of strings in the Go byte-wise order (sort.Strings). -/
def sortStrings (l : List String) : List String := List.insertionSort strLeP l

/-- Go len() of a string is its byte count; on ASCII names this equals the
character count, which is how lengths are modelled here. -/
def strLen (s : String) : Nat := s.data.length

/-- Truncation s[:n] of a Go string, modelled on the character list. -/
def strTake (s : String) (n : Nat) : String := ⟨s.data.take n⟩

/-- Model of strings.HasPrefix (and of String.startsWith in the source). -/
def strHasPref (s pre : String) : Bool := pre.data.isPrefixOf s.data

/-- Characters allowed by the goodCharRegexp of normaliseName. -/
def goodChar (c : Char) : Bool :=
  ('a' ≤ c ∧ c ≤ 'z' : Bool) || ('0' ≤ c ∧ c ≤ '9' : Bool) || c = '-' || c = '_'

/-- Worker for collapseRuns: inRun records whether the previous character
was part of a run being replaced. -/
def collapseRunsAux (p : Char → Bool) (rep : Char) : Bool → List Char → List Char
  | _, [] => []
  | inRun, c :: cs =>
    if p c then
      if inRun then collapseRunsAux p rep true cs
      else rep :: collapseRunsAux p rep true cs
    else c :: collapseRunsAux p rep false cs

/-- Collapse every maximal run of characters satisfying p into the single
replacement character rep (the shape of both run-replacing regexes in
normaliseName). -/
def collapseRuns (p : Char → Bool) (rep : Char) (l : List Char) : List Char :=
  collapseRunsAux p rep false l

/-- Drop leading and trailing hyphens/underscores (the startAndEndRegexp
replacement in normaliseName). -/
def trimHyphUnd (l : List Char) : List Char :=
  ((l.dropWhile fun c => c = '-' ∨ c = '_').reverse.dropWhile fun c => c = '-' ∨ c = '_').reverse

/-- normaliseName from the source: lowercase, replace runs of space and
underscore with a hyphen, drop characters outside the allowed class,
collapse runs of hyphens, and trim leading/trailing hyphens/underscores. -/
def normaliseName (name : String) : String :=
  let lowered := name.data.map Char.toLower
  let noSpaces := collapseRuns (fun c => c = ' ' ∨ c = '_') '-' lowered
  let goodOnly := noSpaces.filter goodChar
  let singleHyph := collapseRuns (fun c => c = '-') '-' goodOnly
  ⟨trimHyphUnd singleHyph⟩

/-- GitHubTeamID is int64 in the source; team ids fit comfortably, so plain
integers model them. -/
abbrev GitHubTeamID := Int

/-- GitHubTeam from github.go: a team as observed on the forge. -/
structure GitHubTeam where
  id : GitHubTeamID
  parentId : GitHubTeamID
  name : String
  description : String
deriving DecidableEq, Repr

/-- GitHubUser from github.go. -/
structure GitHubUser where
  login : String
  email : String
deriving DecidableEq, Repr

/-- GitHubTeamRole from github.go. -/
inductive GitHubTeamRole where
  | maintainer
  | member
deriving DecidableEq, Repr

/-- Team from org.go: the desired state for a team, a tree node. -/
inductive Team where
  | mk :
    (name : String) → (description : String) → (previously : List String) →
    (maintainers : List String) → (members : List String) →
    (restrictMembers : List String) → (children : List Team) → Team

def Team.name : Team → String
  | .mk n _ _ _ _ _ _ => n

def Team.description : Team → String
  | .mk _ d _ _ _ _ _ => d

def Team.previously : Team → List String
  | .mk _ _ p _ _ _ _ => p

def Team.maintainers : Team → List String
  | .mk _ _ _ mt _ _ _ => mt

def Team.members : Team → List String
  | .mk _ _ _ _ mb _ _ => mb

def Team.restrictMembers : Team → List String
  | .mk _ _ _ _ _ r _ => r

def Team.children : Team → List Team
  | .mk _ _ _ _ _ _ c => c

mutual

def teamBEq : Team → Team → Bool
  | .mk n1 d1 p1 mt1 mb1 r1 c1, .mk n2 d2 p2 mt2 mb2 r2 c2 =>
    (n1 = n2 : Bool) && (d1 = d2 : Bool) && (p1 = p2 : Bool) &&
    (mt1 = mt2 : Bool) && (mb1 = mb2 : Bool) && (r1 = r2 : Bool) && teamsBEq c1 c2

def teamsBEq : List Team → List Team → Bool
  | [], [] => true
  | [], _ :: _ => false
  | _ :: _, [] => false
  | t :: ts, u :: us => teamBEq t u && teamsBEq ts us

end

mutual

theorem teamBEq_iff : ∀ a b : Team, teamBEq a b = true ↔ a = b
  | .mk n1 d1 p1 mt1 mb1 r1 c1, .mk n2 d2 p2 mt2 mb2 r2 c2 => by
    simp only [teamBEq, Bool.and_eq_true, decide_eq_true_eq, Team.mk.injEq]
    rw [teamsBEq_iff c1 c2]
    tauto

theorem teamsBEq_iff : ∀ a b : List Team, teamsBEq a b = true ↔ a = b
  | [], [] => by simp [teamsBEq]
  | [], _ :: _ => by simp [teamsBEq]
  | _ :: _, [] => by simp [teamsBEq]
  | t :: ts, u :: us => by
    simp only [teamsBEq, Bool.and_eq_true, List.cons.injEq]
    rw [teamBEq_iff t u, teamsBEq_iff ts us]

end

instance : DecidableEq Team := fun a b => decidable_of_iff _ (teamBEq_iff a b)

/-- Org from org.go: the desired state for an org. -/
structure Org where
  name : String
  teams : List Team
deriving DecidableEq

/-- RepoPermission from org.go. -/
inductive RepoPermission where
  | read
  | write
  | admin
deriving DecidableEq, Repr

/-- TeamPermission from org.go: a team's access permissions to a repository. -/
structure TeamPermission where
  teamName : String
  permission : RepoPermission
deriving DecidableEq, Repr

/-- Repo from org.go: a GitHub repository as observed on the forge. -/
structure Repo where
  name : String
  topics : List String
  teams : List TeamPermission
deriving DecidableEq, Repr

mutual

/-- Preorder flattening of a desired team tree (the traversal order used by
every recursive walk in the source). -/
def flattenTeam : Team → List Team
  | .mk n d p mt mb r cs => .mk n d p mt mb r cs :: flattenTeams cs

def flattenTeams : List Team → List Team
  | [] => []
  | t :: ts => flattenTeam t ++ flattenTeams ts

end

theorem flattenTeam_eq (t : Team) : flattenTeam t = t :: flattenTeams t.children := by
  cases t; rfl

theorem flattenTeams_cons (t : Team) (ts : List Team) :
    flattenTeams (t :: ts) = flattenTeam t ++ flattenTeams ts := rfl

theorem self_mem_flattenTeam (t : Team) : t ∈ flattenTeam t := by
  rw [flattenTeam_eq]; exact List.mem_cons_self _ _

theorem mem_flattenTeams_of_mem {t : Team} {ts : List Team} (h : t ∈ ts) :
    t ∈ flattenTeams ts := by
  induction ts with
  | nil => cases h
  | cons u us ih =>
    rw [flattenTeams_cons]
    rcases List.mem_cons.mp h with h | h
    · subst h; exact List.mem_append_left _ (self_mem_flattenTeam t)
    · exact List.mem_append_right _ (ih h)

/-- Forge: the observable and mutable state behind the GitHubService
interface, for one organisation.  Team memberships are (team id, role,
email) triples; teamRepos records which repositories are directly
accessible to which teams (WalkReposByTeam); nextId is the forge's fresh
team-id source for CreateTeam. -/
structure Forge where
  teams : List GitHubTeam
  mems : List (GitHubTeamID × GitHubTeamRole × String)
  admins : List GitHubUser
  users : List GitHubUser
  teamRepos : List (GitHubTeamID × String)
  nextId : GitHubTeamID
deriving DecidableEq

/-- Inner loop of findGitHubTeamFromDesired: try each candidate name in
order against the whole team list. -/
def findByNames (teams : List GitHubTeam) : List String → Option GitHubTeam
  | [] => none
  | n :: ns =>
    match teams.find? (fun t => t.name = n) with
    | some t => some t
    | none => findByNames teams ns

/-- findGitHubTeamFromDesired from the source: first hit among the desired
name followed by the previous names wins. -/
def findGitHubTeamFromDesired (teams : List GitHubTeam) (want : Team) : Option GitHubTeam :=
  findByNames teams (want.name :: want.previously)

/-- Append a violation to a Go map of team name to offending strings
(insertion-ordered association list). -/
def addViolation (m : List (String × List String)) (k v : String) : List (String × List String) :=
  if m.any (fun p => p.1 = k) then
    m.map (fun p => if p.1 = k then (p.1, p.2 ++ [v]) else p)
  else m ++ [(k, [v])]

/-- The structured payloads of the six RuleError variants. -/
inductive RErr where
  | unknownUsers (violations : List (String × List String))
  | teamNamesUnique (violations : List String)
  | usersUniqueWithinTeam (violations : List (String × List String))
  | teamNameLength (violations : List String) (maxNameLength : Nat)
  | activeTeamDeletions (violations : List (String × List String))
  | crossOrgMemberships (violations : List (String × List String))
deriving DecidableEq, Repr

/-- Result of running one rule: nil, a RuleError, or a non-RuleError
failure (for example a regexp compile error). -/
inductive RuleRes where
  | ok
  | ruleErr (e : RErr)
  | fatal (msg : String)
deriving DecidableEq, Repr

/-- Result of RuleEngine.Run: nil, a CompositeRuleError, or a non-RuleError
failure returned verbatim. -/
inductive RunOut where
  | ok
  | composite (orgName : String) (errs : List RErr)
  | fatal (msg : String)
deriving DecidableEq, Repr

/-- Loop body of ruleEngine.Run: accumulate RuleErrors, short-circuit on
anything else, and aggregate at the end. -/
def runRulesAux (org : Org) : List (Org → RuleRes) → List RErr → RunOut
  | [], acc => if acc.isEmpty then .ok else .composite org.name acc
  | r :: rs, acc =>
    match r org with
    | .ok => runRulesAux org rs acc
    | .ruleErr e => runRulesAux org rs (acc ++ [e])
    | .fatal msg => .fatal msg

/-- ruleEngine.Run from the source. -/
def runRules (rules : List (Org → RuleRes)) (org : Org) : RunOut := runRulesAux org rules []

/-- UserByEmail against the forge's user directory (GitHubUserNotFoundError
is modelled by none). -/
def userByEmail (users : List GitHubUser) (email : String) : Option GitHubUser :=
  users.find? (fun u => u.email = email)

mutual

def unknownUsersTeam (users : List GitHubUser) (vio : List (String × List String)) :
    Team → List (String × List String)
  | .mk n _ _ mt mb _ cs =>
    let vio1 := (mt ++ mb).foldl
      (fun acc email =>
        match userByEmail users email with
        | some _ => acc
        | none => addViolation acc n email) vio
    unknownUsersTeams users vio1 cs

def unknownUsersTeams (users : List GitHubUser) (vio : List (String × List String)) :
    List Team → List (String × List String)
  | [] => vio
  | t :: ts => unknownUsersTeams users (unknownUsersTeam users vio t) ts

end

/-- unknownUsersRule from the source: every maintainer or member email must
resolve via UserByEmail. -/
def unknownUsersRule (users : List GitHubUser) (org : Org) : RuleRes :=
  let vio := unknownUsersTeams users [] org.teams
  if vio.isEmpty then .ok else .ruleErr (.unknownUsers vio)

mutual

def tnuTeam (acc : List String × List String) : Team → List String × List String
  | .mk n _ _ _ _ _ cs =>
    let acc1 := if acc.1.contains n then (acc.1, acc.2 ++ [n]) else (acc.1 ++ [n], acc.2)
    tnuTeams acc1 cs

def tnuTeams (acc : List String × List String) : List Team → List String × List String
  | [] => acc
  | t :: ts => tnuTeams (tnuTeam acc t) ts

end

/-- teamNamesUniqueRule from the source: team names must be unique across
the entire tree. -/
def teamNamesUniqueRule (org : Org) : RuleRes :=
  let vio := (tnuTeams ([], []) org.teams).2
  if vio.isEmpty then .ok else .ruleErr (.teamNamesUnique vio)

/-- Emails that are added to a per-team set more than once, in encounter
order (the duplicate detection of usersUniqueWithinTeamRule). -/
def dupEmails (emails : List String) : List String :=
  (emails.foldl
    (fun (acc : List String × List String) e =>
      if acc.1.contains e then (acc.1, acc.2 ++ [e]) else (acc.1 ++ [e], acc.2))
    ([], [])).2

mutual

def uuTeam (vio : List (String × List String)) : Team → List (String × List String)
  | .mk n _ _ mt mb _ cs =>
    let vio1 := (dupEmails (mt ++ mb)).foldl (fun acc e => addViolation acc n e) vio
    uuTeams vio1 cs

def uuTeams (vio : List (String × List String)) : List Team → List (String × List String)
  | [] => vio
  | t :: ts => uuTeams (uuTeam vio t) ts

end

/-- usersUniqueWithinTeamRule from the source: no email may appear twice
within one team's maintainers and members. -/
def usersUniqueWithinTeamRule (org : Org) : RuleRes :=
  let vio := uuTeams [] org.teams
  if vio.isEmpty then .ok else .ruleErr (.usersUniqueWithinTeam vio)

mutual

def tnlTeam (maxLength : Nat) (vio : List String) : Team → List String
  | .mk n _ _ _ _ _ cs =>
    let vio1 := if maxLength < strLen n then vio ++ [n] else vio
    tnlTeams maxLength vio1 cs

def tnlTeams (maxLength : Nat) (vio : List String) : List Team → List String
  | [] => vio
  | t :: ts => tnlTeams maxLength (tnlTeam maxLength vio t) ts

end

/-- teamNameLengthRule from the source. -/
def teamNameLengthRule (maxLength : Nat) (org : Org) : RuleRes :=
  let vio := tnlTeams maxLength [] org.teams
  if vio.isEmpty then .ok else .ruleErr (.teamNameLength vio maxLength)

/-- maxTeamNameLength from the source. -/
def maxTeamNameLength : Nat := 35

/-- listTeamRepoNames from the source, against the forge's team-repo
access relation. -/
def listTeamRepoNames (teamRepos : List (GitHubTeamID × String)) (teamID : GitHubTeamID) :
    List String :=
  (teamRepos.filter (fun p => p.1 = teamID)).map (fun p => p.2)

mutual

def matchedIdsTeam (haveTeams : List GitHubTeam) : Team → List GitHubTeamID
  | .mk n d p mt mb r cs =>
    let here :=
      match findGitHubTeamFromDesired haveTeams (.mk n d p mt mb r cs) with
      | some g => [g.id]
      | none => []
    here ++ matchedIdsTeams haveTeams cs

def matchedIdsTeams (haveTeams : List GitHubTeam) : List Team → List GitHubTeamID
  | [] => []
  | t :: ts => matchedIdsTeam haveTeams t ++ matchedIdsTeams haveTeams ts

end

/-- activeTeamDeletionsRule from the source: observed teams with no match
in the desired tree may not still be listed on any repository. -/
def activeTeamDeletionsRule (f : Forge) (org : Org) : RuleRes :=
  let matched := matchedIdsTeams f.teams org.teams
  let remaining := f.teams.filter (fun t => ¬ matched.contains t.id)
  let vio := remaining.foldl
    (fun acc t =>
      let repoNames := listTeamRepoNames f.teamRepos t.id
      if repoNames.isEmpty then acc else acc ++ [(t.name, repoNames)])
    []
  if vio.isEmpty then .ok else .ruleErr (.activeTeamDeletions vio)

/-- CompilePat abstracts regexp.Compile followed by MatchString: none is a
compile failure, otherwise the compiled matcher. -/
abbrev CompilePat := String → Option (String → Bool)

/-- One restrictMembers block: a member is valid for the block if at least
one pattern matches; a compile failure is returned as the offending
pattern. -/
def matchLayer (cp : CompilePat) (email : String) : List String → Except String Bool
  | [] => .ok false
  | pat :: pats =>
    match cp pat with
    | none => .error pat
    | some f => if f email then .ok true else matchLayer cp email pats

/-- Walk the whole restrictMembers stack for one email, appending one
violation per layer that fails to match. -/
def crossEmailLayers (cp : CompilePat) (teamName email : String) :
    List (List String) → List (String × List String) → Except String (List (String × List String))
  | [], vio => .ok vio
  | layer :: rest, vio =>
    match matchLayer cp email layer with
    | .error pat => .error pat
    | .ok matched =>
      crossEmailLayers cp teamName email rest (if matched then vio else addViolation vio teamName email)

/-- Sequential fold of crossEmailLayers over a team's maintainer and member
emails. -/
def crossEmails (cp : CompilePat) (teamName : String) (stack : List (List String)) :
    List String → List (String × List String) → Except String (List (String × List String))
  | [], vio => .ok vio
  | email :: rest, vio =>
    match crossEmailLayers cp teamName email stack vio with
    | .error pat => .error pat
    | .ok vio1 => crossEmails cp teamName stack rest vio1

mutual

def crossTeam (cp : CompilePat) (stack : List (List String)) (isTop : Bool)
    (vio : List (String × List String)) : Team → Except String (List (String × List String))
  | .mk n _ _ mt mb r cs =>
    let restrict := if ¬ isTop ∧ r.isEmpty then [".*"] else r
    let childStack := stack ++ [restrict]
    match crossEmails cp n childStack (mt ++ mb) vio with
    | .error pat => .error pat
    | .ok vio1 => crossTeams cp childStack false vio1 cs

def crossTeams (cp : CompilePat) (stack : List (List String)) (isTop : Bool)
    (vio : List (String × List String)) : List Team → Except String (List (String × List String))
  | [] => .ok vio
  | t :: ts =>
    match crossTeam cp stack isTop vio t with
    | .error pat => .error pat
    | .ok vio1 => crossTeams cp stack isTop vio1 ts

end

/-- crossOrgMembershipsRule from the source: restrictMembers stacks cascade
downwards; a compile failure is a non-RuleError failure. -/
def crossOrgMembershipsRule (cp : CompilePat) (org : Org) : RuleRes :=
  match crossTeams cp [] true [] org.teams with
  | .error pat => .fatal ("error parsing regexp " ++ pat)
  | .ok vio => if vio.isEmpty then .ok else .ruleErr (.crossOrgMemberships vio)

/-- NewRuleEngine from the source: the six built-in rules in registration
order. -/
def orgRules (cp : CompilePat) (f : Forge) : List (Org → RuleRes) :=
  [unknownUsersRule f.users, teamNamesUniqueRule, usersUniqueWithinTeamRule,
   teamNameLengthRule maxTeamNameLength, activeTeamDeletionsRule f,
   crossOrgMembershipsRule cp]

/-- Run of the fully-assembled rule engine against a desired org. -/
def ruleEngineRun (cp : CompilePat) (f : Forge) (org : Org) : RunOut :=
  runRules (orgRules cp f) org

/-- One write operation submitted to the GitHubService; the five kinds the
stats adapter counts. -/
inductive WriteOp where
  | createTeam (t : GitHubTeam)
  | updateTeam (t : GitHubTeam)
  | deleteTeam (id : GitHubTeamID)
  | addTeamMembership (teamId : GitHubTeamID) (email : String) (role : GitHubTeamRole)
  | deleteTeamMembership (teamId : GitHubTeamID) (email : String) (role : GitHubTeamRole)
deriving DecidableEq, Repr

/-- Forge state paired with the trace of write operations issued so far
(the view a stats adapter has of one apply). -/
structure St where
  forge : Forge
  log : List WriteOp
deriving DecidableEq

/-- CreateTeam against the forge: the forge assigns the next fresh id. -/
def svcCreateTeam (t : GitHubTeam) (s : St) : GitHubTeam × St :=
  let created := { t with id := s.forge.nextId }
  (created,
   { forge := { s.forge with teams := s.forge.teams ++ [created], nextId := s.forge.nextId + 1 },
     log := s.log ++ [.createTeam created] })

/-- UpdateTeam against the forge: the team with the same id is replaced. -/
def svcUpdateTeam (t : GitHubTeam) (s : St) : GitHubTeam × St :=
  (t,
   { forge := { s.forge with teams := s.forge.teams.map (fun u => if u.id = t.id then t else u) },
     log := s.log ++ [.updateTeam t] })

/-- DeleteTeam against the forge. -/
def svcDeleteTeam (id : GitHubTeamID) (s : St) : St :=
  { forge := { s.forge with teams := s.forge.teams.filter (fun u => ¬ u.id = id) },
    log := s.log ++ [.deleteTeam id] }

/-- AddTeamMembership against the forge. -/
def svcAddTeamMembership (id : GitHubTeamID) (email : String) (role : GitHubTeamRole) (s : St) : St :=
  { forge := { s.forge with mems := s.forge.mems ++ [(id, role, email)] },
    log := s.log ++ [.addTeamMembership id email role] }

/-- DeleteTeamMembership against the forge. -/
def svcDeleteTeamMembership (id : GitHubTeamID) (email : String) (role : GitHubTeamRole) (s : St) : St :=
  { forge := { s.forge with
      mems := s.forge.mems.filter (fun m => ¬ (m.1 = id ∧ m.2.1 = role ∧ m.2.2 = email)) },
    log := s.log ++ [.deleteTeamMembership id email role] }

/-- ListTeamMembers against the forge, already projected to emails (the
source immediately projects the returned users with gitHubUserEmails). -/
def listTeamMembers (f : Forge) (id : GitHubTeamID) (role : GitHubTeamRole) : List String :=
  (f.mems.filter (fun m => m.1 = id ∧ m.2.1 = role)).map (fun m => m.2.2)

/-- keptGitHubTeam from the source: a retained team plus a freshly-created
flag. -/
structure KeptGitHubTeam where
  team : GitHubTeam
  created : Bool
deriving DecidableEq, Repr

/-- Parent id wanted for a team: the parent's id, or 0 for a top-level
team. -/
def wantParentID : Option GitHubTeam → GitHubTeamID
  | some p => p.id
  | none => 0

/-- updateTeam from platform.go: diff parentId, description and name
against the desired team; write only when something differs. -/
def updateTeam (parent : Option GitHubTeam) (have0 : GitHubTeam) (want : Team) (s : St) :
    GitHubTeam × St :=
  let pid := wantParentID parent
  let modified : Bool :=
    (¬ have0.parentId = pid : Bool) || (¬ have0.description = want.description : Bool) ||
    (¬ have0.name = want.name : Bool)
  if modified then
    svcUpdateTeam { have0 with name := want.name, description := want.description, parentId := pid } s
  else (have0, s)

/-- createTeam from platform.go. -/
def createTeam (parent : Option GitHubTeam) (want : Team) (s : St) : GitHubTeam × St :=
  svcCreateTeam
    { id := 0, parentId := wantParentID parent, name := want.name, description := want.description } s

mutual

/-- The recursive process closure of configureTeams, for one desired
team. -/
def processTeam (have0 : List GitHubTeam) (parent : Option GitHubTeam) :
    Team → St → List KeptGitHubTeam × St
  | .mk n d p mt mb r cs, s =>
    match findGitHubTeamFromDesired have0 (.mk n d p mt mb r cs) with
    | some h =>
      let ts1 := updateTeam parent h (.mk n d p mt mb r cs) s
      let ks2 := processTeams have0 (some ts1.1) cs ts1.2
      (⟨ts1.1, false⟩ :: ks2.1, ks2.2)
    | none =>
      let ts1 := createTeam parent (.mk n d p mt mb r cs) s
      let ks2 := processTeams have0 (some ts1.1) cs ts1.2
      (⟨ts1.1, true⟩ :: ks2.1, ks2.2)

/-- The recursive process closure of configureTeams, for a list of sibling
desired teams. -/
def processTeams (have0 : List GitHubTeam) (parent : Option GitHubTeam) :
    List Team → St → List KeptGitHubTeam × St
  | [], s => ([], s)
  | w :: ws, s =>
    let ks1 := processTeam have0 parent w s
    let ks2 := processTeams have0 parent ws ks1.2
    (ks1.1 ++ ks2.1, ks2.2)

end

/-- configureTeams from platform.go: create/update along the desired tree,
then delete every observed team whose id was not retained. -/
def configureTeams (org : Org) (haveTeams : List GitHubTeam) (s : St) :
    List KeptGitHubTeam × St :=
  let ks := processTeams haveTeams none org.teams s
  let keptIDs := ks.1.map (fun k => k.team.id)
  let s2 := haveTeams.foldl
    (fun acc t => if keptIDs.contains t.id then acc else svcDeleteTeam t.id acc) ks.2
  (ks.1, s2)

/-- isAdmin closure of promoteAdmins. -/
def isAdminEmail (admins : List GitHubUser) (email : String) : Bool :=
  admins.any (fun a => a.email = email)

/-- shuffleAdmins from platform.go: move admin emails from the member list
to the maintainer list, preserving encounter order. -/
def shuffleAdmins (admins : List GitHubUser) (mt mb : List String) : List String × List String :=
  (mt ++ mb.filter (isAdminEmail admins), mb.filter (fun e => ¬ isAdminEmail admins e))

mutual

def promoteTeam (admins : List GitHubUser) : Team → Team
  | .mk n d p mt mb r cs =>
    let sh := shuffleAdmins admins mt mb
    .mk n d p sh.1 sh.2 r (promoteTeams admins cs)

def promoteTeams (admins : List GitHubUser) : List Team → List Team
  | [] => []
  | t :: ts => promoteTeam admins t :: promoteTeams admins ts

end

/-- promoteAdmins from platform.go, as the pure transformation it performs
on the desired org. -/
def promoteAdmins (admins : List GitHubUser) (org : Org) : Org :=
  { org with teams := promoteTeams admins org.teams }

mutual

def teamsByNameTeam (acc : List (String × Team)) : Team → List (String × Team)
  | .mk n d p mt mb r cs => teamsByNameTeams (acc ++ [(n, .mk n d p mt mb r cs)]) cs

def teamsByNameTeams (acc : List (String × Team)) : List Team → List (String × Team)
  | [] => acc
  | t :: ts => teamsByNameTeams (teamsByNameTeam acc t) ts

end

/-- teamsByName from platform.go, as the insertion-ordered association list
underlying the Go map. -/
def teamsByName (teams : List Team) : List (String × Team) := teamsByNameTeams [] teams

/-- Lookup in a Go map modelled as an insertion-ordered association list:
the last insert for a key wins. -/
def mapLookup (m : List (String × Team)) (n : String) : Option Team :=
  (m.reverse.find? (fun p => p.1 = n)).map (fun p => p.2)

/-- Difference of two email sets, enumerated canonically in sorted order
(golang-set enumeration order is unspecified and every use in the source is
order-insensitive). -/
def setDiffSorted (a b : List String) : List String :=
  sortStrings (a.dedup.filter (fun e => ¬ b.contains e))

/-- updateTeamMemberships from platform.go: add want minus have, then
delete have minus want, one call per user. -/
def updateTeamMemberships (t : GitHubTeam) (haveEmails wantEmails : List String)
    (role : GitHubTeamRole) (s : St) : St :=
  let added := setDiffSorted wantEmails haveEmails
  let s1 := added.foldl (fun acc u => svcAddTeamMembership t.id u role acc) s
  let deleted := setDiffSorted haveEmails wantEmails
  deleted.foldl (fun acc u => svcDeleteTeamMembership t.id u role acc) s1

/-- Loop body of configureTeamMemberships over the kept teams. -/
def configureTeamMembershipsAux (wantTeamsByName : List (String × Team)) :
    List KeptGitHubTeam → St → Option String × St
  | [], s => (none, s)
  | k :: ks, s =>
    match mapLookup wantTeamsByName k.team.name with
    | none => (some ("expected team " ++ k.team.name ++ " to be in desired state"), s)
    | some want =>
      let haveMaintainers := if k.created then [] else listTeamMembers s.forge k.team.id .maintainer
      let haveMembers := if k.created then [] else listTeamMembers s.forge k.team.id .member
      let s1 := updateTeamMemberships k.team haveMaintainers want.maintainers .maintainer s
      let s2 := updateTeamMemberships k.team haveMembers want.members .member s1
      configureTeamMembershipsAux wantTeamsByName ks s2

/-- configureTeamMemberships from platform.go. -/
def configureTeamMemberships (org : Org) (kept : List KeptGitHubTeam) (s : St) :
    Option String × St :=
  configureTeamMembershipsAux (teamsByName org.teams) kept s

/-- GitHubStats from github.go. -/
structure GitHubStats where
  teamsCreated : Nat
  teamsUpdated : Nat
  teamsDeleted : Nat
  teamMembershipsAdded : Nat
  teamMembershipsDeleted : Nat
deriving DecidableEq, Repr

/-- Zero value of GitHubStats. -/
def GitHubStats.zero : GitHubStats := ⟨0, 0, 0, 0, 0⟩

/-- One counter increment of the stats adapter. -/
def bumpStats (st : GitHubStats) : WriteOp → GitHubStats
  | .createTeam _ => { st with teamsCreated := st.teamsCreated + 1 }
  | .updateTeam _ => { st with teamsUpdated := st.teamsUpdated + 1 }
  | .deleteTeam _ => { st with teamsDeleted := st.teamsDeleted + 1 }
  | .addTeamMembership _ _ _ => { st with teamMembershipsAdded := st.teamMembershipsAdded + 1 }
  | .deleteTeamMembership _ _ _ =>
    { st with teamMembershipsDeleted := st.teamMembershipsDeleted + 1 }

/-- Counters of a stats adapter that has witnessed the given trace of
successful writes. -/
def statsOfLog (log : List WriteOp) : GitHubStats := log.foldl bumpStats GitHubStats.zero

/-- ApplyOrgResult from platform.go. -/
structure ApplyOrgResult where
  teamsCreated : Nat
  teamsUpdated : Nat
  teamsDeleted : Nat
  membershipsAdded : Nat
  membershipsDeleted : Nat
deriving DecidableEq, Repr

/-- Zero value of ApplyOrgResult (HasChanges returns false exactly here). -/
def ApplyOrgResult.zero : ApplyOrgResult := ⟨0, 0, 0, 0, 0⟩

/-- Errors ApplyOrg can return: the rule engine's error, or the
mid-apply failure of configureTeamMemberships. -/
inductive ApplyErr where
  | ruleError (e : RunOut)
  | applyError (msg : String)
deriving DecidableEq, Repr

/-- ApplyOrg from platform.go: validate, observe teams, reconcile teams,
promote admins, reconcile memberships, and report the stats counters.  The
final forge state and the full write trace are returned alongside the
result so that write-freedom properties can be stated. -/
def applyOrg (cp : CompilePat) (forge : Forge) (org : Org) :
    Except ApplyErr ApplyOrgResult × Forge × List WriteOp :=
  match ruleEngineRun cp forge org with
  | .composite n errs => (.error (.ruleError (.composite n errs)), forge, [])
  | .fatal msg => (.error (.ruleError (.fatal msg)), forge, [])
  | .ok =>
    let s0 : St := ⟨forge, []⟩
    let ks := configureTeams org forge.teams s0
    let org1 := promoteAdmins ks.2.forge.admins org
    match configureTeamMemberships org1 ks.1 ks.2 with
    | (some msg, s2) => (.error (.applyError msg), s2.forge, s2.log)
    | (none, s2) =>
      let stats := statsOfLog s2.log
      (.ok { teamsCreated := stats.teamsCreated, teamsUpdated := stats.teamsUpdated,
             teamsDeleted := stats.teamsDeleted, membershipsAdded := stats.teamMembershipsAdded,
             membershipsDeleted := stats.teamMembershipsDeleted },
       s2.forge, s2.log)

/-- adminTopicPrefix from repo_topics.go. -/
def adminTopicPref : String := "admin-"

/-- maxTopicLength from repo_topics.go. -/
def maxTopicLength : Nat := 35

/-- Add an element to a golang set modelled as a duplicate-free list. -/
def setAdd (l : List String) (s : String) : List String :=
  if l.contains s then l else l ++ [s]

/-- newStringSet from the source. -/
def listToSet (l : List String) : List String := l.foldl setAdd []

/-- Set.Equal of golang-set. -/
def setEqB (a b : List String) : Bool :=
  a.all (fun s => b.contains s) && b.all (fun s => a.contains s)

/-- The admin topic derived for one admin team: the admin prefix plus the
normalised team name, truncated to one character less than the topic
length limit when too long. -/
def adminTopicForTeam (teamName : String) : String :=
  let adminTopic := adminTopicPref ++ normaliseName teamName
  if maxTopicLength ≤ strLen adminTopic then strTake adminTopic (maxTopicLength - 1)
  else adminTopic

/-- rectifyRepoAdminTopics from repo_topics.go: keep non-admin topics, add
one truncated admin topic per admin team, and report whether the resulting
set differs from the observed one; on change the repo's topics become the
sorted enumeration of the new set. -/
def rectifyRepoAdminTopics (r : Repo) : Bool × Repo :=
  let haveTopics := listToSet r.topics
  let keepTopics := r.topics.foldl
    (fun acc topic => if strHasPref topic adminTopicPref then acc else setAdd acc topic) []
  let wantTopics := r.teams.foldl
    (fun acc team =>
      if team.permission = .admin then setAdd acc (adminTopicForTeam team.teamName) else acc)
    keepTopics
  if setEqB haveTopics wantTopics then (false, r)
  else (true, { r with topics := sortStrings wantTopics })

/-- UpdateRepoTopics calls observed while reconciling admin topics. -/
inductive TopicWrite where
  | updateRepoTopics (repoName : String) (topics : List String)
deriving DecidableEq, Repr

/-- UpdateAdminTopicsResult from repo_topics.go. -/
structure UpdateAdminTopicsResult where
  reposUpdated : Nat
deriving DecidableEq, Repr

/-- RepoByName against the forge's repository list. -/
def repoByName (repos : List Repo) (repoName : String) : Option Repo :=
  repos.find? (fun r => r.name = repoName)

/-- UpdateRepoAdminTopics from repo_topics.go: fetch the one named repo,
write new topics when rectification reports a change, and return the
result value the source constructs. -/
def UpdateRepoAdminTopics (repos : List Repo) (repoName : String) :
    Except String (UpdateAdminTopicsResult × List TopicWrite) :=
  match repoByName repos repoName with
  | none => .error ("repo " ++ repoName ++ " not found")
  | some repo =>
    let cr := rectifyRepoAdminTopics repo
    let writes := if cr.1 then [TopicWrite.updateRepoTopics repoName cr.2.topics] else []
    .ok ({ reposUpdated := 1 }, writes)

/-- One call arriving at the stats adapter: the five counted write kinds
with the delegate's outcome, or any of the delegated read operations. -/
inductive DelegateCall where
  | createTeam (ok : Bool)
  | updateTeam (ok : Bool)
  | deleteTeam (ok : Bool)
  | addTeamMembership (ok : Bool)
  | deleteTeamMembership (ok : Bool)
  | readOp
deriving DecidableEq, Repr

/-- Counter update of statsService for one call: increment only when the
delegate returned without error; reads never touch the counters. -/
def statsStep (st : GitHubStats) : DelegateCall → GitHubStats
  | .createTeam true => { st with teamsCreated := st.teamsCreated + 1 }
  | .createTeam false => st
  | .updateTeam true => { st with teamsUpdated := st.teamsUpdated + 1 }
  | .updateTeam false => st
  | .deleteTeam true => { st with teamsDeleted := st.teamsDeleted + 1 }
  | .deleteTeam false => st
  | .addTeamMembership true => { st with teamMembershipsAdded := st.teamMembershipsAdded + 1 }
  | .addTeamMembership false => st
  | .deleteTeamMembership true =>
    { st with teamMembershipsDeleted := st.teamMembershipsDeleted + 1 }
  | .deleteTeamMembership false => st
  | .readOp => st

/-- Stats() after a fresh statsService has processed the given sequence of
calls. -/
def statsRun (calls : List DelegateCall) : GitHubStats := calls.foldl statsStep GitHubStats.zero

/-- Repository half of a go-github TeamEvent, with the fields the worker
dereferences. -/
structure EventRepo where
  fork : Bool
  name : String
  ownerLogin : String
  fullName : String
deriving DecidableEq, Repr

/-- Team half of a go-github TeamEvent. -/
structure EventTeamInfo where
  id : Int
  name : String
deriving DecidableEq, Repr

/-- TeamEvent payload as the worker sees it after json.Unmarshal; every
field is a pointer in go-github, hence the options. -/
structure TeamEvent where
  action : Option String
  repo : Option EventRepo
  team : Option EventTeamInfo
  orgLogin : Option String
deriving DecidableEq, Repr

/-- Dispatch targets of the event worker. -/
inductive DispatchCall where
  | updateRepoAdminTopics (owner repoName : String)
  | updateTeamAdminTopics (org : String) (teamId : Int)
deriving DecidableEq, Repr

/-- Observable outcome of processing one queue message: dispatches made,
the error that was logged (if any), and whether the message was deleted
from the queue. -/
structure WorkerStep where
  calls : List DispatchCall
  loggedErr : Option String
  deleted : Bool
deriving DecidableEq, Repr

/-- Error value of a dispatch outcome (logged by the worker, never acted
on). -/
def dispatchErr (dispatch : DispatchCall → Except String Unit) (c : DispatchCall) :
    Option String :=
  match dispatch c with
  | .ok _ => none
  | .error e => some e

/-- Action dispatch table of ListenForEvents; none models a nil-pointer
dereference (the worker would crash, deleting nothing). -/
def processAction (dispatch : DispatchCall → Except String Unit) (ev : TeamEvent) :
    Option WorkerStep :=
  match ev.action with
  | none => some ⟨[], none, true⟩
  | some a =>
    if a = "added_to_repository" ∨ a = "removed_from_repository" then
      match ev.repo, ev.team with
      | some r, some _ =>
        let c := DispatchCall.updateRepoAdminTopics r.ownerLogin r.name
        some ⟨[c], dispatchErr dispatch c, true⟩
      | _, _ => none
    else if a = "edited" then
      match ev.team with
      | none => none
      | some tm =>
        match ev.repo with
        | some r =>
          let c := DispatchCall.updateRepoAdminTopics r.ownerLogin r.name
          some ⟨[c], dispatchErr dispatch c, true⟩
        | none =>
          match ev.orgLogin with
          | some o =>
            let c := DispatchCall.updateTeamAdminTopics o tm.id
            some ⟨[c], dispatchErr dispatch c, true⟩
          | none => none
    else if a = "created" ∨ a = "deleted" then some ⟨[], none, true⟩
    else some ⟨[], some ("dont recognise command " ++ a), true⟩

/-- One iteration of the ListenForEvents loop for a received message whose
body parsed: the payload parse result is the json.Unmarshal of the inner
payload.  A parse failure logs and continues without deleting; a fork
repository short-circuits with a delete; otherwise the action is
dispatched and the message deleted irrespective of the outcome. -/
def processMessage (dispatch : DispatchCall → Except String Unit)
    (payload : Except String TeamEvent) : Option WorkerStep :=
  match payload with
  | .error msg => some ⟨[], some ("Failed to unmarshal message: " ++ msg), false⟩
  | .ok ev =>
    match ev.repo with
    | some r => if r.fork then some ⟨[], none, true⟩ else processAction dispatch ev
    | none => processAction dispatch ev

/-- TeamDoc: the persisted surface of a team document (team.yaml).  The
maintainers key is rejected by the strict codec and never written; the
nested teams key exists in the format but is cleared by writeTeam. -/
inductive TeamDoc where
  | mk :
    (name description : String) → (previously members restrictMembers : List String) →
    (teams : List TeamDoc) → TeamDoc

/-- OrgDoc: the persisted surface of an org document (org.yaml). -/
structure OrgDoc where
  name : String
  teams : List TeamDoc

/-- writeTeam: encode a team after clearing children; maintainers never
reach the document. -/
def encodeTeam (t : Team) : TeamDoc :=
  .mk t.name t.description t.previously t.members t.restrictMembers []

/-- writeOrg: encode an org after clearing teams. -/
def encodeOrg (org : Org) : OrgDoc := { name := org.name, teams := [] }

mutual

def decodeTeamDoc : TeamDoc → Team
  | .mk n d p mb r ts => .mk n d p [] mb r (decodeTeamDocs ts)

def decodeTeamDocs : List TeamDoc → List Team
  | [] => []
  | d :: ds => decodeTeamDoc d :: decodeTeamDocs ds

end

/-- Decode an org document; maintainers cannot appear, children decode
recursively. -/
def decodeOrgDoc (d : OrgDoc) : Org := { name := d.name, teams := decodeTeamDocs d.teams }

/-- Content of a file in the modelled hierarchy. -/
inductive Doc where
  | orgDoc (d : OrgDoc)
  | teamDoc (d : TeamDoc)

/-- A filesystem entry: a control file or a team directory. -/
inductive FsEntry where
  | file : (name : String) → (content : Doc) → FsEntry
  | dir : (name : String) → (entries : List FsEntry) → FsEntry

def entryName : FsEntry → String
  | .file n _ => n
  | .dir n _ => n

def entryIsDir : FsEntry → Bool
  | .file _ _ => false
  | .dir _ _ => true

/-- orgFile constant from merge_org.go. -/
def orgFile : String := "org.yaml"

/-- teamFile constant from merge_org.go. -/
def teamFile : String := "team.yaml"

/-- Directory listing order of ioutil.ReadDir: entries sorted by name. -/
def entLe (a b : FsEntry) : Prop := strLeP (entryName a) (entryName b)

instance : DecidableRel entLe := fun a b => by unfold entLe; infer_instance

def readDirSorted (es : List FsEntry) : List FsEntry := List.insertionSort entLe es

mutual

/-- Descend step of UnmergeOrg over one team: make the team directory,
write team.yaml, then recurse into the children. -/
def unmergeTeam : Team → Except String FsEntry
  | .mk n d p mt mb r cs =>
    match unmergeTeamsAux [.file teamFile (.teamDoc (encodeTeam (.mk n d p mt mb r cs)))] cs with
    | .error e => .error e
    | .ok entries => .ok (.dir (normaliseName n) entries)

/-- Descend step of UnmergeOrg over sibling teams, accumulating the
directory contents; os.Mkdir fails when the entry already exists. -/
def unmergeTeamsAux (acc : List FsEntry) : List Team → Except String (List FsEntry)
  | [] => .ok acc
  | t :: ts =>
    let nm := normaliseName t.name
    if acc.any (fun e => entryName e = nm) then .error ("mkdir " ++ nm ++ ": file exists")
    else
      match unmergeTeam t with
      | .error e => .error e
      | .ok entry => unmergeTeamsAux (acc ++ [entry]) ts

end

/-- UnmergeOrg from merge_org.go: the org directory written under the
normalised org name, containing org.yaml and one subdirectory per team. -/
def unmergeOrg (org : Org) : Except String FsEntry :=
  match unmergeTeamsAux [.file orgFile (.orgDoc (encodeOrg org))] org.teams with
  | .error e => .error e
  | .ok entries => .ok (.dir (normaliseName org.name) entries)

/-- Validation errors of MergeOrg. -/
inductive MergeErr where
  | missingControlFile (dir file : String)
  | unexpectedFile (path reason : String)
  | invalidTeamDirName (dir validDir teamName : String)
deriving DecidableEq, Repr

/-- readTeam: the team.yaml of a directory, when present. -/
def readTeamFile : List FsEntry → Option TeamDoc
  | [] => none
  | .file n (.teamDoc d) :: es => if n = teamFile then some d else readTeamFile es
  | _ :: es => readTeamFile es

/-- readOrg: the org.yaml of a directory, when present. -/
def readOrgFile : List FsEntry → Option OrgDoc
  | [] => none
  | .file n (.orgDoc d) :: es => if n = orgFile then some d else readOrgFile es
  | _ :: es => readOrgFile es

/-- Append dir-derived children after the document's inline children, the
way descend appends to parentTeam.Children. -/
def appendChildren (t : Team) (cs : List Team) : Team :=
  .mk t.name t.description t.previously t.maintainers t.members t.restrictMembers
    (t.children ++ cs)

mutual

/-- Sort every directory listing of a tree into ReadDir order; the tree a
sequence of ReadDir calls observes. -/
def sortFs : FsEntry → FsEntry
  | .file n c => .file n c
  | .dir n es => .dir n (readDirSorted (sortFsList es))

def sortFsList : List FsEntry → List FsEntry
  | [] => []
  | e :: es => sortFs e :: sortFsList es

end

mutual

/-- One entry of the MergeOrg tree walk (the descend closure of MergeOrg,
over a tree whose listings are already in ReadDir order): a directory
must hold a correctly-named team file and becomes one team (its
team file merged with the recursively merged children); a file is either
skipped or rejected depending on its name and whether we are at the root. -/
def mergeEntry (isRoot : Bool) : FsEntry → Except MergeErr (Option Team)
  | .dir nm sub =>
    match readTeamFile sub with
    | none => .error (.missingControlFile nm teamFile)
    | some d =>
      let t0 := decodeTeamDoc d
      if ¬ nm = normaliseName t0.name then
        .error (.invalidTeamDirName nm (normaliseName t0.name) t0.name)
      else
        match mergeEntries false sub with
        | .error e => .error e
        | .ok childTeams => .ok (some (appendChildren t0 childTeams))
  | .file nm _ =>
    if nm = orgFile then
      if isRoot then .ok none
      else .error (.unexpectedFile nm "multiple org files detected")
    else if nm = teamFile then
      if ¬ isRoot then .ok none
      else .error (.unexpectedFile nm "org and team files cannot be siblings")
    else .error (.unexpectedFile nm "only org and team files are supported")

def mergeEntries (isRoot : Bool) : List FsEntry → Except MergeErr (List Team)
  | [] => .ok []
  | e :: rest =>
    match mergeEntry isRoot e with
    | .error er => .error er
    | .ok none => mergeEntries isRoot rest
    | .ok (some t) =>
      match mergeEntries isRoot rest with
      | .error er => .error er
      | .ok restTeams => .ok (t :: restTeams)

end

/-- MergeOrg from merge_org.go, applied to the org directory: read
org.yaml, then descend collecting team directories in ReadDir order. -/
def mergeOrg (root : FsEntry) : Except MergeErr Org :=
  match sortFs root with
  | .file _ _ => .error (.missingControlFile "" orgFile)
  | .dir _ es =>
    match readOrgFile es with
    | none => .error (.missingControlFile "" orgFile)
    | some d =>
      let org0 := decodeOrgDoc d
      match mergeEntries true es with
      | .error e => .error e
      | .ok ts => .ok { name := org0.name, teams := org0.teams ++ ts }

/-- Ordering of teams by name (sort.Slice comparator of SortOrg and
SortTeam). -/
def teamLeByName (a b : Team) : Prop := strLeP a.name b.name

instance : DecidableRel teamLeByName := fun a b => by unfold teamLeByName; infer_instance

mutual

/-- SortTeam from the source: sort maintainers, members, and children (by
name), recursively. -/
def sortTeam : Team → Team
  | .mk n d p mt mb r cs =>
    .mk n d p (sortStrings mt) (sortStrings mb) r
      (List.insertionSort teamLeByName (sortTeamList cs))

def sortTeamList : List Team → List Team
  | [] => []
  | t :: ts => sortTeam t :: sortTeamList ts

end

/-- SortOrg from the source. -/
def sortOrg (org : Org) : Org :=
  { org with teams := List.insertionSort teamLeByName (sortTeamList org.teams) }

/-- Ordering of teams by normalised name: the order in which a directory
hierarchy written by UnmergeOrg is read back by ReadDir. -/
def teamLeByNorm (a b : Team) : Prop := strLeP (normaliseName a.name) (normaliseName b.name)

instance : DecidableRel teamLeByNorm := fun a b => by unfold teamLeByNorm; infer_instance

mutual

/-- The canonical form a round trip through unmerge and merge produces:
maintainers emptied (never serialised) and children reordered by
normalised name at every level; all other fields verbatim. -/
def canonTeam : Team → Team
  | .mk n d p _ mb r cs =>
    .mk n d p [] mb r (List.insertionSort teamLeByNorm (canonTeamList cs))

def canonTeamList : List Team → List Team
  | [] => []
  | t :: ts => canonTeam t :: canonTeamList ts

end

/-- Canonical round-trip image of an org. -/
def canonOrg (org : Org) : Org :=
  { org with teams := List.insertionSort teamLeByNorm (canonTeamList org.teams) }

/-! Helper lemmas about the list-modelled golang sets and sorting. -/

theorem contains_iff {l : List String} {a : String} : l.contains a = true ↔ a ∈ l :=
  List.elem_iff

theorem setAdd_mem {l : List String} {x s : String} : s ∈ setAdd l x ↔ s ∈ l ∨ s = x := by
  unfold setAdd
  by_cases h : l.contains x = true
  · rw [if_pos h]
    rw [contains_iff] at h
    constructor
    · exact fun hs => Or.inl hs
    · rintro (hs | rfl)
      · exact hs
      · exact h
  · rw [if_neg h]
    simp only [List.mem_append, List.mem_singleton]

theorem setAdd_nodup {l : List String} {x : String} (h : l.Nodup) : (setAdd l x).Nodup := by
  unfold setAdd
  by_cases hc : l.contains x = true
  · rw [if_pos hc]
    exact h
  · rw [if_neg hc]
    refine List.Nodup.append h (List.nodup_singleton x) ?_
    intro a ha hb
    rw [List.mem_singleton] at hb
    subst hb
    exact hc (contains_iff.mpr ha)

theorem listToSet_mem_aux {s : String} :
    ∀ (l init : List String), s ∈ l.foldl setAdd init ↔ s ∈ init ∨ s ∈ l := by
  intro l
  induction l with
  | nil => simp
  | cons x xs ih =>
    intro init
    simp only [List.foldl_cons, ih, setAdd_mem, List.mem_cons]
    tauto

theorem listToSet_mem {l : List String} {s : String} : s ∈ listToSet l ↔ s ∈ l := by
  unfold listToSet
  rw [listToSet_mem_aux]
  simp

theorem listToSet_nodup_aux : ∀ (l init : List String), init.Nodup → (l.foldl setAdd init).Nodup := by
  intro l
  induction l with
  | nil => exact fun _ h => h
  | cons x xs ih => exact fun init h => ih _ (setAdd_nodup h)

theorem listToSet_nodup (l : List String) : (listToSet l).Nodup :=
  listToSet_nodup_aux l [] List.nodup_nil

theorem foldl_setAdd_mem {α : Type} (p : α → Bool) (f : α → String) (s : String) :
    ∀ (xs : List α) (init : List String),
      s ∈ xs.foldl (fun acc t => if p t then setAdd acc (f t) else acc) init ↔
        s ∈ init ∨ ∃ t ∈ xs, p t = true ∧ s = f t := by
  intro xs
  induction xs with
  | nil => simp
  | cons x xs ih =>
    intro init
    simp only [List.foldl_cons]
    by_cases hp : p x = true
    · simp only [hp, if_true, ih, setAdd_mem, List.mem_cons]
      constructor
      · rintro (( h | rfl) | ⟨t, ht, hpt, rfl⟩)
        · exact Or.inl h
        · exact Or.inr ⟨x, Or.inl rfl, hp, rfl⟩
        · exact Or.inr ⟨t, Or.inr ht, hpt, rfl⟩
      · rintro (h | ⟨t, (rfl | ht), hpt, rfl⟩)
        · exact Or.inl (Or.inl h)
        · exact Or.inl (Or.inr rfl)
        · exact Or.inr ⟨t, ht, hpt, rfl⟩
    · simp only [hp, if_false, ih, List.mem_cons]
      constructor
      · rintro (h | ⟨t, ht, hpt, rfl⟩)
        · exact Or.inl h
        · exact Or.inr ⟨t, Or.inr ht, hpt, rfl⟩
      · rintro (h | ⟨t, (rfl | ht), hpt, rfl⟩)
        · exact Or.inl h
        · exact absurd hpt hp
        · exact Or.inr ⟨t, ht, hpt, rfl⟩

theorem foldl_setAdd_nodup {α : Type} (p : α → Bool) (f : α → String) :
    ∀ (xs : List α) (init : List String), init.Nodup →
      (xs.foldl (fun acc t => if p t then setAdd acc (f t) else acc) init).Nodup := by
  intro xs
  induction xs with
  | nil => exact fun _ h => h
  | cons x xs ih =>
    intro init h
    simp only [List.foldl_cons]
    by_cases hp : p x = true
    · simp only [hp, if_true]
      exact ih _ (setAdd_nodup h)
    · simp only [hp, if_false]
      exact ih _ h

theorem setEqB_iff {a b : List String} : setEqB a b = true ↔ (∀ s, s ∈ a ↔ s ∈ b) := by
  unfold setEqB
  rw [Bool.and_eq_true, List.all_eq_true, List.all_eq_true]
  constructor
  · rintro ⟨h1, h2⟩ s
    constructor
    · intro hs
      exact contains_iff.mp (h1 s hs)
    · intro hs
      exact contains_iff.mp (h2 s hs)
  · intro h
    constructor
    · intro s hs
      exact contains_iff.mpr ((h s).mp hs)
    · intro s hs
      exact contains_iff.mpr ((h s).mpr hs)

theorem sortStrings_mem {l : List String} {s : String} : s ∈ sortStrings l ↔ s ∈ l :=
  (List.perm_insertionSort strLeP l).mem_iff

theorem sortStrings_sorted (l : List String) : (sortStrings l).Sorted strLeP :=
  List.sorted_insertionSort strLeP l

theorem sortStrings_nodup {l : List String} (h : l.Nodup) : (sortStrings l).Nodup :=
  ((List.perm_insertionSort strLeP l).nodup_iff).mpr h

/-! C9: the stats adapter counts exactly the successful writes of each
kind. -/

theorem statsRun_aux (calls : List DelegateCall) :
    ∀ st : GitHubStats,
      calls.foldl statsStep st =
        { teamsCreated := st.teamsCreated + calls.count (.createTeam true),
          teamsUpdated := st.teamsUpdated + calls.count (.updateTeam true),
          teamsDeleted := st.teamsDeleted + calls.count (.deleteTeam true),
          teamMembershipsAdded := st.teamMembershipsAdded + calls.count (.addTeamMembership true),
          teamMembershipsDeleted :=
            st.teamMembershipsDeleted + calls.count (.deleteTeamMembership true) } := by
  induction calls with
  | nil => intro st; simp [List.count_nil]
  | cons c cs ih =>
    intro st
    simp only [List.foldl_cons, ih]
    rcases c with ok | ok | ok | ok | ok | _ <;> first
      | (cases ok <;> simp [statsStep, List.count_cons] <;> omega)
      | (simp [statsStep, List.count_cons] <;> omega)

/-- C9: for every sequence of calls through the stats adapter, each of the
five counters equals the number of calls of that write kind whose delegate
returned without error, and failing writes as well as reads leave every
counter unchanged. -/
theorem statsService_counters (calls : List DelegateCall) :
    statsRun calls =
      { teamsCreated := calls.count (.createTeam true),
        teamsUpdated := calls.count (.updateTeam true),
        teamsDeleted := calls.count (.deleteTeam true),
        teamMembershipsAdded := calls.count (.addTeamMembership true),
        teamMembershipsDeleted := calls.count (.deleteTeamMembership true) } ∧
    (∀ st : GitHubStats,
      statsStep st (.createTeam false) = st ∧ statsStep st (.updateTeam false) = st ∧
      statsStep st (.deleteTeam false) = st ∧ statsStep st (.addTeamMembership false) = st ∧
      statsStep st (.deleteTeamMembership false) = st ∧ statsStep st .readOp = st) := by
  constructor
  · unfold statsRun
    rw [statsRun_aux calls GitHubStats.zero]
    simp [GitHubStats.zero]
  · intro st
    refine ⟨rfl, rfl, rfl, rfl, rfl, rfl⟩

/-! C3: a failing rule engine short-circuits ApplyOrg with zero forge
writes. -/

/-- C3: when the rule engine rejects the org, ApplyOrg returns that very
error, issues no write operation, and leaves the forge unchanged. -/
theorem applyOrg_short_circuits_on_rule_failure (cp : CompilePat) (forge : Forge) (org : Org)
    (h : ruleEngineRun cp forge org ≠ .ok) :
    applyOrg cp forge org = (.error (.ruleError (ruleEngineRun cp forge org)), forge, []) := by
  unfold applyOrg
  rcases he : ruleEngineRun cp forge org with _ | ⟨n, errs⟩ | msg
  · exact absurd he h
  · rfl
  · rfl

/-! C4: aggregation behaviour of ruleEngine.Run. -/

/-- The RuleError carried by a rule result, when there is one (the type
assertion err.(RuleError) in the source). -/
def ruleErrOf : RuleRes → Option RErr
  | .ruleErr e => some e
  | _ => none

theorem runRulesAux_eq_ok (org : Org) :
    ∀ (rs : List (Org → RuleRes)) (acc : List RErr),
      runRulesAux org rs acc = .ok ↔ (acc = [] ∧ ∀ r ∈ rs, r org = .ok) := by
  intro rs
  induction rs with
  | nil =>
    intro acc
    cases acc <;> simp [runRulesAux]
  | cons r rs ih =>
    intro acc
    simp only [runRulesAux]
    rcases hr : r org with _ | e | msg
    · rw [ih]
      constructor
      · rintro ⟨rfl, h⟩
        refine ⟨rfl, ?_⟩
        intro r' hr'
        rcases List.mem_cons.mp hr' with rfl | h'
        · exact hr
        · exact h r' h'
      · rintro ⟨rfl, h⟩
        exact ⟨rfl, fun r' hr' => h r' (List.mem_cons_of_mem _ hr')⟩
    · rw [ih]
      constructor
      · rintro ⟨habs, _⟩
        exact absurd habs (by simp)
      · rintro ⟨rfl, h⟩
        have := h r (List.mem_cons_self _ _)
        rw [hr] at this
        cases this
    · constructor
      · intro habs
        cases habs
      · rintro ⟨rfl, h⟩
        have := h r (List.mem_cons_self _ _)
        rw [hr] at this
        cases this

theorem runRulesAux_no_fatal (org : Org) :
    ∀ (rs : List (Org → RuleRes)) (acc : List RErr),
      (∀ r ∈ rs, ∀ m, r org ≠ .fatal m) →
      runRulesAux org rs acc =
        (if (acc ++ rs.filterMap (fun r => ruleErrOf (r org))).isEmpty then RunOut.ok
         else .composite org.name (acc ++ rs.filterMap (fun r => ruleErrOf (r org)))) := by
  intro rs
  induction rs with
  | nil =>
    intro acc _
    simp [runRulesAux]
  | cons r rs ih =>
    intro acc hnf
    simp only [runRulesAux]
    rcases hr : r org with _ | e | msg
    · show runRulesAux org rs acc = _
      rw [ih acc (fun r' h' => hnf r' (List.mem_cons_of_mem _ h'))]
      simp [List.filterMap_cons, hr, ruleErrOf]
    · show runRulesAux org rs (acc ++ [e]) = _
      rw [ih (acc ++ [e]) (fun r' h' => hnf r' (List.mem_cons_of_mem _ h'))]
      simp [List.filterMap_cons, hr, ruleErrOf]
    · exact absurd hr (hnf r (List.mem_cons_self _ _) msg)

theorem runRulesAux_fatal (org : Org) (rl : Org → RuleRes) (post : List (Org → RuleRes))
    (msg : String) (hrl : rl org = .fatal msg) :
    ∀ (pre : List (Org → RuleRes)) (acc : List RErr),
      (∀ p ∈ pre, ∀ m, p org ≠ .fatal m) →
      runRulesAux org (pre ++ rl :: post) acc = .fatal msg := by
  intro pre
  induction pre with
  | nil =>
    intro acc _
    simp only [List.nil_append, runRulesAux, hrl]
  | cons p ps ih =>
    intro acc hnf
    simp only [List.cons_append, runRulesAux]
    rcases hp : p org with _ | e | m
    · exact ih acc (fun q hq => hnf q (List.mem_cons_of_mem _ hq))
    · exact ih (acc ++ [e]) (fun q hq => hnf q (List.mem_cons_of_mem _ hq))
    · exact absurd hp (hnf p (List.mem_cons_self _ _) m)

/-- C4: Run returns nil iff every registered rule returns nil; when every
failure is a RuleError and at least one rule fails, Run returns the
composite of exactly those RuleErrors in registration order; and a
non-RuleError failure is returned verbatim, short-circuiting the remaining
rules. -/
theorem ruleEngine_run_aggregation (rules : List (Org → RuleRes)) (org : Org) :
    (runRules rules org = .ok ↔ ∀ r ∈ rules, r org = .ok) ∧
    ((∀ r ∈ rules, ∀ m, r org ≠ .fatal m) → (∃ r ∈ rules, ¬ r org = .ok) →
      runRules rules org =
        .composite org.name (rules.filterMap (fun r => ruleErrOf (r org)))) ∧
    (∀ (pre : List (Org → RuleRes)) (rl : Org → RuleRes) (post : List (Org → RuleRes))
        (msg : String),
      rules = pre ++ rl :: post → (∀ p ∈ pre, ∀ m, p org ≠ .fatal m) → rl org = .fatal msg →
      runRules rules org = .fatal msg) := by
  refine ⟨?_, ?_, ?_⟩
  · unfold runRules
    rw [runRulesAux_eq_ok]
    simp
  · intro hnf ⟨r0, hr0, hne⟩
    unfold runRules
    rw [runRulesAux_no_fatal org rules [] hnf]
    have hne' : ¬ (rules.filterMap (fun r => ruleErrOf (r org))).isEmpty = true := by
      rcases he : r0 org with _ | e | m
      · exact absurd he hne
      · intro habs
        rw [List.isEmpty_iff] at habs
        have : (e : RErr) ∈ rules.filterMap (fun r => ruleErrOf (r org)) := by
          rw [List.mem_filterMap]
          exact ⟨r0, hr0, by rw [he]; rfl⟩
        rw [habs] at this
        cases this
      · exact absurd he (hnf r0 hr0 m)
    simp only [List.nil_append]
    rw [if_neg hne']
  · intro pre rl post msg hsplit hnf hrl
    unfold runRules
    rw [hsplit]
    exact runRulesAux_fatal org rl post msg hrl pre [] hnf

/-- Witness for C4 at concrete rule lists: an all-ok engine returns nil, a
RuleError-only failing engine aggregates in order, and a fatal rule
short-circuits verbatim. -/
theorem ruleEngine_run_aggregation_witness :
    runRules [fun _ => RuleRes.ok] { name := "o", teams := [] } = .ok ∧
    runRules [fun _ => RuleRes.ok, fun _ => RuleRes.ruleErr (.teamNamesUnique ["x"])]
        { name := "o", teams := [] } =
      .composite "o" [.teamNamesUnique ["x"]] ∧
    runRules [fun _ => RuleRes.ruleErr (.teamNamesUnique ["x"]), fun _ => RuleRes.fatal "boom"]
        { name := "o", teams := [] } = .fatal "boom" := by
  refine ⟨?_, ?_, ?_⟩
  · exact (ruleEngine_run_aggregation [fun _ => RuleRes.ok] { name := "o", teams := [] }).1.mpr
      (by
        intro r hr
        rcases List.mem_singleton.mp hr with rfl
        rfl)
  · have h := (ruleEngine_run_aggregation
      [fun _ => RuleRes.ok, fun _ => RuleRes.ruleErr (.teamNamesUnique ["x"])]
      { name := "o", teams := [] }).2.1
    refine Eq.trans (h ?_ ?_) (by rfl)
    · intro r hr m
      rcases List.mem_cons.mp hr with rfl | hr
      · intro habs; cases habs
      · rcases List.mem_singleton.mp hr with rfl
        intro habs; cases habs
    · exact ⟨fun _ => RuleRes.ruleErr (.teamNamesUnique ["x"]),
        List.mem_cons_of_mem _ (List.mem_singleton.mpr rfl), by intro habs; cases habs⟩
  · have h := (ruleEngine_run_aggregation
      [fun _ => RuleRes.ruleErr (.teamNamesUnique ["x"]), fun _ => RuleRes.fatal "boom"]
      { name := "o", teams := [] }).2.2
    refine h [fun _ => RuleRes.ruleErr (.teamNamesUnique ["x"])] (fun _ => RuleRes.fatal "boom")
      [] "boom" rfl ?_ rfl
    intro p hp m
    rcases List.mem_singleton.mp hp with rfl
    intro habs; cases habs

/-! C6: deletion behaviour of the event worker. -/

/-- Counterexample for C6: a message whose payload fails to parse is
logged but NOT removed from the queue (the loop continues without calling
delete), contradicting the claim that every received message is deleted
irrespective of the dispatch outcome. -/
theorem event_worker_parse_failure_not_deleted :
    processMessage (fun _ => .ok ()) (.error "junk") =
      some { calls := [], loggedErr := some "Failed to unmarshal message: junk",
             deleted := false } ∧
    ∀ st : WorkerStep,
      processMessage (fun _ => .ok ()) (.error "junk") = some st → ¬ st.deleted = true := by
  refine ⟨rfl, ?_⟩
  intro st h
  cases Option.some.inj h
  intro habs
  cases habs

/-- C6 as amended: every message whose payload parses, and whose event
carries the fields the handler dereferences, is deleted after dispatch
irrespective of the dispatch outcome; an unrecognised action is logged and
the message still deleted; a message whose payload fails to parse is
logged and left in the queue (not deleted), relying on redelivery. -/
theorem processAction_deleted (dispatch : DispatchCall → Except String Unit)
    (ev : TeamEvent) (st : WorkerStep) (h : processAction dispatch ev = some st) :
    st.deleted = true := by
  unfold processAction at h
  repeat' split at h
  all_goals first
    | (cases Option.some.inj h; rfl)
    | cases h

theorem processMessage_ok_eq (dispatch : DispatchCall → Except String Unit) (ev : TeamEvent) :
    processMessage dispatch (.ok ev) =
      (match ev.repo with
       | some r =>
         if r.fork = true then some { calls := [], loggedErr := none, deleted := true }
         else processAction dispatch ev
       | none => processAction dispatch ev) := rfl

/-- C6 as amended: every message whose payload parses, and whose event
carries the fields the handler dereferences, is deleted after dispatch
irrespective of the dispatch outcome; an unrecognised action is logged and
the message still deleted; a message whose payload fails to parse is
logged and left in the queue (not deleted), relying on redelivery. -/
theorem event_worker_deletes_after_dispatch
    (dispatch : DispatchCall → Except String Unit) (ev : TeamEvent) (st : WorkerStep)
    (h : processMessage dispatch (.ok ev) = some st) :
    st.deleted = true ∧
    (∀ a, ev.action = some a →
      (∀ r, ev.repo = some r → r.fork = false) →
      ¬ a = "added_to_repository" → ¬ a = "removed_from_repository" → ¬ a = "edited" →
      ¬ a = "created" → ¬ a = "deleted" →
      st.loggedErr = some ("dont recognise command " ++ a)) ∧
    (∀ msg : String,
      processMessage dispatch (.error msg) =
        some { calls := [], loggedErr := some ("Failed to unmarshal message: " ++ msg),
               deleted := false }) := by
  rw [processMessage_ok_eq] at h
  refine ⟨?_, ?_, fun msg => rfl⟩
  · split at h
    · split at h
      · cases Option.some.inj h
        rfl
      · exact processAction_deleted dispatch ev st h
    · exact processAction_deleted dispatch ev st h
  · intro a hact hnofork hn1 hn2 hn3 hn4 hn5
    have hproc : processAction dispatch ev = some st := by
      split at h
      · rename_i r hr
        rw [if_neg (by rw [hnofork r hr]; intro habs; cases habs)] at h
        exact h
      · exact h
    unfold processAction at hproc
    rw [hact] at hproc
    dsimp only at hproc
    rw [if_neg (by tauto), if_neg hn3, if_neg (by tauto)] at hproc
    cases Option.some.inj hproc
    rfl

/-! Characterisation of the derived admin-topic set (shared by the
UpdateRepoAdminTopics and rectifyRepoAdminTopics properties). -/

theorem foldl_setAdd_pos_mem {α : Type} (p : α → Prop) [DecidablePred p] (f : α → String)
    (s : String) :
    ∀ (xs : List α) (init : List String),
      s ∈ xs.foldl (fun acc t => if p t then setAdd acc (f t) else acc) init ↔
        s ∈ init ∨ ∃ t ∈ xs, p t ∧ s = f t := by
  intro xs
  induction xs with
  | nil => simp
  | cons x xs ih =>
    intro init
    simp only [List.foldl_cons]
    by_cases hp : p x
    · rw [if_pos hp, ih, setAdd_mem]
      constructor
      · rintro ((h | rfl) | ⟨t, ht, hpt, rfl⟩)
        · exact Or.inl h
        · exact Or.inr ⟨x, List.mem_cons_self _ _, hp, rfl⟩
        · exact Or.inr ⟨t, List.mem_cons_of_mem _ ht, hpt, rfl⟩
      · rintro (h | ⟨t, ht, hpt, rfl⟩)
        · exact Or.inl (Or.inl h)
        · rcases List.mem_cons.mp ht with rfl | ht
          · exact Or.inl (Or.inr rfl)
          · exact Or.inr ⟨t, ht, hpt, rfl⟩
    · rw [if_neg hp, ih]
      constructor
      · rintro (h | ⟨t, ht, hpt, rfl⟩)
        · exact Or.inl h
        · exact Or.inr ⟨t, List.mem_cons_of_mem _ ht, hpt, rfl⟩
      · rintro (h | ⟨t, ht, hpt, rfl⟩)
        · exact Or.inl h
        · rcases List.mem_cons.mp ht with rfl | ht
          · exact absurd hpt hp
          · exact Or.inr ⟨t, ht, hpt, rfl⟩

theorem foldl_setAdd_neg_mem {α : Type} (p : α → Prop) [DecidablePred p] (f : α → String)
    (s : String) :
    ∀ (xs : List α) (init : List String),
      s ∈ xs.foldl (fun acc t => if p t then acc else setAdd acc (f t)) init ↔
        s ∈ init ∨ ∃ t ∈ xs, ¬ p t ∧ s = f t := by
  intro xs
  induction xs with
  | nil => simp
  | cons x xs ih =>
    intro init
    simp only [List.foldl_cons]
    by_cases hp : p x
    · rw [if_pos hp, ih]
      constructor
      · rintro (h | ⟨t, ht, hpt, rfl⟩)
        · exact Or.inl h
        · exact Or.inr ⟨t, List.mem_cons_of_mem _ ht, hpt, rfl⟩
      · rintro (h | ⟨t, ht, hpt, rfl⟩)
        · exact Or.inl h
        · rcases List.mem_cons.mp ht with rfl | ht
          · exact absurd hp hpt
          · exact Or.inr ⟨t, ht, hpt, rfl⟩
    · rw [if_neg hp, ih, setAdd_mem]
      constructor
      · rintro ((h | rfl) | ⟨t, ht, hpt, rfl⟩)
        · exact Or.inl h
        · exact Or.inr ⟨x, List.mem_cons_self _ _, hp, rfl⟩
        · exact Or.inr ⟨t, List.mem_cons_of_mem _ ht, hpt, rfl⟩
      · rintro (h | ⟨t, ht, hpt, rfl⟩)
        · exact Or.inl (Or.inl h)
        · rcases List.mem_cons.mp ht with rfl | ht
          · exact Or.inl (Or.inr rfl)
          · exact Or.inr ⟨t, ht, hpt, rfl⟩

theorem foldl_setAdd_pos_nodup {α : Type} (p : α → Prop) [DecidablePred p] (f : α → String) :
    ∀ (xs : List α) (init : List String), init.Nodup →
      (xs.foldl (fun acc t => if p t then setAdd acc (f t) else acc) init).Nodup := by
  intro xs
  induction xs with
  | nil => exact fun _ h => h
  | cons x xs ih =>
    intro init h
    simp only [List.foldl_cons]
    by_cases hp : p x
    · rw [if_pos hp]
      exact ih _ (setAdd_nodup h)
    · rw [if_neg hp]
      exact ih _ h

theorem foldl_setAdd_neg_nodup {α : Type} (p : α → Prop) [DecidablePred p] (f : α → String) :
    ∀ (xs : List α) (init : List String), init.Nodup →
      (xs.foldl (fun acc t => if p t then acc else setAdd acc (f t)) init).Nodup := by
  intro xs
  induction xs with
  | nil => exact fun _ h => h
  | cons x xs ih =>
    intro init h
    simp only [List.foldl_cons]
    by_cases hp : p x
    · rw [if_pos hp]
      exact ih _ h
    · rw [if_neg hp]
      exact ih _ (setAdd_nodup h)

theorem strMk_data (s : String) : String.mk s.data = s := rfl

theorem strTake_eq_self {s : String} {n : Nat} (h : strLen s ≤ n) : strTake s n = s := by
  unfold strTake
  rw [List.take_of_length_le h]

/-- The admin topic equals the plain spec-side form: the prefixed
normalised name truncated to 34 characters. -/
theorem adminTopicForTeam_eq_take (nm : String) :
    adminTopicForTeam nm = strTake (adminTopicPref ++ normaliseName nm) 34 := by
  unfold adminTopicForTeam
  by_cases h : maxTopicLength ≤ strLen (adminTopicPref ++ normaliseName nm)
  · rw [if_pos h]
    norm_num [maxTopicLength]
  · rw [if_neg h]
    rw [strTake_eq_self]
    unfold maxTopicLength at h
    omega

/-- The canonical topic set of a repository, stated the way the design
describes it: keep every observed topic not prefixed admin-, and add the
truncated admin topic of every team holding admin permission. -/
def targetTopicSet (r : Repo) (s : String) : Prop :=
  (s ∈ r.topics ∧ ¬ strHasPref s adminTopicPref = true) ∨
  (∃ tp ∈ r.teams, tp.permission = .admin ∧
    s = strTake (adminTopicPref ++ normaliseName tp.teamName) 34)

theorem rectify_want_mem (r : Repo) (s : String) :
    s ∈ r.teams.foldl
        (fun acc team =>
          if team.permission = .admin then setAdd acc (adminTopicForTeam team.teamName) else acc)
        (r.topics.foldl
          (fun acc topic => if strHasPref topic adminTopicPref then acc else setAdd acc topic)
          []) ↔
      targetTopicSet r s := by
  rw [foldl_setAdd_pos_mem (fun team : TeamPermission => team.permission = .admin)
        (fun team => adminTopicForTeam team.teamName) s r.teams]
  rw [foldl_setAdd_neg_mem (fun topic => strHasPref topic adminTopicPref = true)
        (fun topic => topic) s r.topics]
  unfold targetTopicSet
  simp only [List.not_mem_nil, false_or, adminTopicForTeam_eq_take]
  constructor
  · rintro (⟨t, ht, hp, rfl⟩ | ⟨t, ht, hp, rfl⟩)
    · exact Or.inl ⟨ht, hp⟩
    · exact Or.inr ⟨t, ht, hp, rfl⟩
  · rintro (⟨ht, hp⟩ | ⟨t, ht, hp, rfl⟩)
    · exact Or.inl ⟨s, ht, hp, rfl⟩
    · exact Or.inr ⟨t, ht, hp, rfl⟩

theorem rectify_want_nodup (r : Repo) :
    (r.teams.foldl
      (fun acc team =>
        if team.permission = .admin then setAdd acc (adminTopicForTeam team.teamName) else acc)
      (r.topics.foldl
        (fun acc topic => if strHasPref topic adminTopicPref then acc else setAdd acc topic)
        [])).Nodup := by
  exact foldl_setAdd_pos_nodup _ _ r.teams _
    (foldl_setAdd_neg_nodup _ _ r.topics [] List.nodup_nil)

theorem rectify_fst_iff (r : Repo) :
    (rectifyRepoAdminTopics r).1 = false ↔ (∀ s, s ∈ r.topics ↔ targetTopicSet r s) := by
  unfold rectifyRepoAdminTopics
  by_cases hset : setEqB (listToSet r.topics)
      (r.teams.foldl
        (fun acc team =>
          if team.permission = .admin then setAdd acc (adminTopicForTeam team.teamName) else acc)
        (r.topics.foldl
          (fun acc topic => if strHasPref topic adminTopicPref then acc else setAdd acc topic)
          [])) = true
  · rw [if_pos hset]
    simp only [true_iff]
    rw [setEqB_iff] at hset
    intro s
    rw [← rectify_want_mem r s, ← hset s, listToSet_mem]
  · rw [if_neg hset]
    simp only [Bool.true_eq_false, false_iff]
    intro hall
    apply hset
    rw [setEqB_iff]
    intro s
    rw [listToSet_mem, rectify_want_mem r s]
    exact hall s

theorem rectify_unchanged (r : Repo) (h : (rectifyRepoAdminTopics r).1 = false) :
    (rectifyRepoAdminTopics r).2 = r := by
  unfold rectifyRepoAdminTopics at *
  by_cases hset : setEqB (listToSet r.topics)
      (r.teams.foldl
        (fun acc team =>
          if team.permission = .admin then setAdd acc (adminTopicForTeam team.teamName) else acc)
        (r.topics.foldl
          (fun acc topic => if strHasPref topic adminTopicPref then acc else setAdd acc topic)
          [])) = true
  · rw [if_pos hset]
  · rw [if_neg hset] at h
    cases h

theorem rectify_changed_topics (r : Repo) (h : (rectifyRepoAdminTopics r).1 = true) :
    (rectifyRepoAdminTopics r).2.topics =
      sortStrings
        (r.teams.foldl
          (fun acc team =>
            if team.permission = .admin then setAdd acc (adminTopicForTeam team.teamName) else acc)
          (r.topics.foldl
            (fun acc topic => if strHasPref topic adminTopicPref then acc else setAdd acc topic)
            [])) ∧
    (rectifyRepoAdminTopics r).2.name = r.name ∧ (rectifyRepoAdminTopics r).2.teams = r.teams := by
  unfold rectifyRepoAdminTopics at *
  by_cases hset : setEqB (listToSet r.topics)
      (r.teams.foldl
        (fun acc team =>
          if team.permission = .admin then setAdd acc (adminTopicForTeam team.teamName) else acc)
        (r.topics.foldl
          (fun acc topic => if strHasPref topic adminTopicPref then acc else setAdd acc topic)
          [])) = true
  · rw [if_pos hset] at h
    cases h
  · rw [if_neg hset]
    exact ⟨rfl, rfl, rfl⟩

/-! Lowercase character facts about normaliseName and the admin topics. -/

theorem mem_collapseRunsAux (p : Char → Bool) (rep : Char) :
    ∀ (l : List Char) (inRun : Bool), ∀ c ∈ collapseRunsAux p rep inRun l, c = rep ∨ c ∈ l := by
  intro l
  induction l with
  | nil =>
    intro inRun c hc
    cases hc
  | cons x xs ih =>
    intro inRun c hc
    rw [collapseRunsAux] at hc
    by_cases hp : p x = true
    · rw [if_pos hp] at hc
      cases inRun with
      | true =>
        rcases ih true c hc with rfl | hmem
        · exact Or.inl rfl
        · exact Or.inr (List.mem_cons_of_mem _ hmem)
      | false =>
        rcases List.mem_cons.mp hc with rfl | hc
        · exact Or.inl rfl
        · rcases ih true c hc with rfl | hmem
          · exact Or.inl rfl
          · exact Or.inr (List.mem_cons_of_mem _ hmem)
    · rw [if_neg hp] at hc
      rcases List.mem_cons.mp hc with rfl | hc
      · exact Or.inr (List.mem_cons_self _ _)
      · rcases ih false c hc with rfl | hmem
        · exact Or.inl rfl
        · exact Or.inr (List.mem_cons_of_mem _ hmem)

theorem mem_collapseRuns (p : Char → Bool) (rep : Char) (l : List Char) :
    ∀ c ∈ collapseRuns p rep l, c = rep ∨ c ∈ l :=
  mem_collapseRunsAux p rep l false

theorem mem_trimHyphUnd {l : List Char} {c : Char} (h : c ∈ trimHyphUnd l) : c ∈ l := by
  unfold trimHyphUnd at h
  rw [List.mem_reverse] at h
  have h1 := (List.dropWhile_sublist _).subset h
  rw [List.mem_reverse] at h1
  exact (List.dropWhile_sublist _).subset h1

theorem normaliseName_goodChar (nm : String) :
    ∀ c ∈ (normaliseName nm).data, goodChar c = true := by
  intro c hc
  unfold normaliseName at hc
  simp only at hc
  have h1 := mem_trimHyphUnd hc
  rcases mem_collapseRuns _ '-' _ c h1 with rfl | h2
  · rfl
  · exact (List.mem_filter.mp h2).2

/-- A topic token without uppercase ASCII letters. -/
def notUpperStr (s : String) : Prop := ∀ c ∈ s.data, c.toNat < 65 ∨ 90 < c.toNat

theorem goodChar_bounds {c : Char} (h : goodChar c = true) : c.toNat < 65 ∨ 90 < c.toNat := by
  unfold goodChar at h
  simp only [Bool.or_eq_true, Bool.decide_and, Bool.and_eq_true, decide_eq_true_eq] at h
  rcases h with ((⟨h1, h2⟩ | ⟨h1, h2⟩) | h1) | h1
  · have hx : 97 ≤ c.toNat := h1
    omega
  · have hx : c.toNat ≤ 57 := h2
    omega
  · subst h1
    left
    decide
  · subst h1
    right
    decide

theorem adminTopic_notUpper (nm : String) :
    notUpperStr (strTake (adminTopicPref ++ normaliseName nm) 34) := by
  intro c hc
  unfold strTake at hc
  have h1 := List.take_subset 34 _ hc
  have h2 : (adminTopicPref ++ normaliseName nm).data =
      adminTopicPref.data ++ (normaliseName nm).data := rfl
  rw [h2, List.mem_append] at h1
  rcases h1 with h1 | h1
  · have : ∀ d ∈ adminTopicPref.data, d.toNat < 65 ∨ 90 < d.toNat := by decide
    exact this c h1
  · exact goodChar_bounds (normaliseName_goodChar nm c h1)

/-- C7: the derived canonical topic set keeps exactly the non-admin
observed topics and adds the truncated admin topic of every admin team;
rectifyRepoAdminTopics reports a change iff this target set differs from
the observed set, leaves the repo untouched otherwise, and on change
produces a sorted, duplicate-free (and, for lowercase observed topics,
lowercase) topic list enumerating exactly the target set. -/
theorem admin_topic_derivation (r : Repo) :
    ((rectifyRepoAdminTopics r).1 = false ↔ (∀ s, s ∈ r.topics ↔ targetTopicSet r s)) ∧
    ((rectifyRepoAdminTopics r).1 = false → (rectifyRepoAdminTopics r).2 = r) ∧
    ((rectifyRepoAdminTopics r).1 = true →
      (∀ s, s ∈ (rectifyRepoAdminTopics r).2.topics ↔ targetTopicSet r s) ∧
      ((rectifyRepoAdminTopics r).2.topics).Sorted strLeP ∧
      ((rectifyRepoAdminTopics r).2.topics).Nodup ∧
      (rectifyRepoAdminTopics r).2.name = r.name ∧
      (rectifyRepoAdminTopics r).2.teams = r.teams ∧
      ((∀ t ∈ r.topics, notUpperStr t) →
        ∀ t ∈ (rectifyRepoAdminTopics r).2.topics, notUpperStr t)) := by
  refine ⟨rectify_fst_iff r, rectify_unchanged r, ?_⟩
  intro hch
  obtain ⟨htop, hname, hteams⟩ := rectify_changed_topics r hch
  rw [htop]
  refine ⟨?_, sortStrings_sorted _, sortStrings_nodup (rectify_want_nodup r), hname, hteams, ?_⟩
  · intro s
    rw [sortStrings_mem]
    exact rectify_want_mem r s
  · intro hlow t ht
    rw [sortStrings_mem] at ht
    rcases (rectify_want_mem r t).mp ht with ⟨hmem, _⟩ | ⟨tp, _, _, rfl⟩
    · exact hlow t hmem
    · exact adminTopic_notUpper tp.teamName

/-- Witness for C7 at the admin-topic scenario of the design: a repo with
admin teams Foo and Bar and topics blue, red, green is rectified to the
sorted lowercase set admin-bar, admin-foo, blue, green, red. -/
theorem admin_topic_derivation_witness :
    (rectifyRepoAdminTopics
      { name := "repo1", topics := ["blue", "red", "green"],
        teams := [⟨"Foo", .admin⟩, ⟨"Bar", .admin⟩, ⟨"Baz", .read⟩] }).1 = true ∧
    (rectifyRepoAdminTopics
      { name := "repo1", topics := ["blue", "red", "green"],
        teams := [⟨"Foo", .admin⟩, ⟨"Bar", .admin⟩, ⟨"Baz", .read⟩] }).2.topics =
      ["admin-bar", "admin-foo", "blue", "green", "red"] ∧
    ("admin-bar" ∈ (rectifyRepoAdminTopics
      { name := "repo1", topics := ["blue", "red", "green"],
        teams := [⟨"Foo", .admin⟩, ⟨"Bar", .admin⟩, ⟨"Baz", .read⟩] }).2.topics ↔
      targetTopicSet
        { name := "repo1", topics := ["blue", "red", "green"],
          teams := [⟨"Foo", .admin⟩, ⟨"Bar", .admin⟩, ⟨"Baz", .read⟩] } "admin-bar") := by
  refine ⟨by decide, by decide, ?_⟩
  exact ((admin_topic_derivation
    { name := "repo1", topics := ["blue", "red", "green"],
      teams := [⟨"Foo", .admin⟩, ⟨"Bar", .admin⟩, ⟨"Baz", .read⟩] }).2.2 (by decide)).1
    "admin-bar"

/-! C5: UpdateRepoAdminTopics writes iff the target set differs but always
reports one repo updated. -/

instance {ε α : Type} [DecidableEq ε] [DecidableEq α] : DecidableEq (Except ε α) := fun a b =>
  match a, b with
  | .ok x, .ok y => decidable_of_iff (x = y) (by simp)
  | .error x, .error y => decidable_of_iff (x = y) (by simp)
  | .ok _, .error _ => isFalse (fun h => by cases h)
  | .error _, .ok _ => isFalse (fun h => by cases h)

/-- A repository whose topics already match the derived target set. -/
def settledRepo : Repo :=
  { name := "r", topics := ["admin-foo", "x"], teams := [⟨"Foo", .admin⟩] }

/-- Counterexample for C5: on a repo whose topics already match the target
set, UpdateRepoAdminTopics makes no write yet returns reposUpdated = 1,
not 0 as claimed. -/
theorem updateRepoAdminTopics_one_without_write :
    UpdateRepoAdminTopics [settledRepo] "r" = .ok ({ reposUpdated := 1 }, []) ∧
    ¬ UpdateRepoAdminTopics [settledRepo] "r" = .ok ({ reposUpdated := 0 }, []) := by
  constructor
  · decide
  · decide

/-- C5 as amended: UpdateRepoAdminTopics fetches the one named repo and
writes new topics iff the target set differs from the observed set, but
its reposUpdated count is always 1, also when no write occurred. -/
theorem updateRepoAdminTopics_amended (repos : List Repo) (repoName : String) (repo : Repo)
    (h : repoByName repos repoName = some repo) :
    ∃ writes, UpdateRepoAdminTopics repos repoName = .ok ({ reposUpdated := 1 }, writes) ∧
      (writes = [] ↔ (∀ s, s ∈ repo.topics ↔ targetTopicSet repo s)) := by
  unfold UpdateRepoAdminTopics
  rw [h]
  by_cases hch : (rectifyRepoAdminTopics repo).1 = true
  · refine ⟨[TopicWrite.updateRepoTopics repoName (rectifyRepoAdminTopics repo).2.topics], ?_, ?_⟩
    · simp only [hch, if_true]
    · constructor
      · intro habs
        cases habs
      · intro hall
        have := (rectify_fst_iff repo).mpr hall
        rw [hch] at this
        cases this
  · have hf : (rectifyRepoAdminTopics repo).1 = false := by
      rcases hb : (rectifyRepoAdminTopics repo).1
      · rfl
      · exact absurd hb hch
    refine ⟨[], ?_, ?_⟩
    · simp only [hf, Bool.false_eq_true, if_false]
    · simp only [true_iff]
      exact (rectify_fst_iff repo).mp hf

/-- Witness for C5 as amended, at a concrete settled repository. -/
theorem updateRepoAdminTopics_amended_witness :
    ∃ writes, UpdateRepoAdminTopics [settledRepo] "r" = .ok ({ reposUpdated := 1 }, writes) ∧
      (writes = [] ↔ (∀ s, s ∈ settledRepo.topics ↔ targetTopicSet settledRepo s)) :=
  updateRepoAdminTopics_amended [settledRepo] "r" settledRepo (by decide)

/-- An org with a duplicated team name, rejected by the rule engine. -/
def dupNameOrg : Org :=
  { name := "o",
    teams := [.mk "t" "" [] [] [] [".*"] [], .mk "t" "" [] [] [] [".*"] []] }

/-- An empty forge with no teams, users, admins or repositories. -/
def emptyForge : Forge :=
  { teams := [], mems := [], admins := [], users := [], teamRepos := [], nextId := 1 }

/-- A pattern compiler for which every pattern compiles and matches. -/
def cpAll : CompilePat := fun _ => some (fun _ => true)

/-- Witness for C3: the duplicate-name org is rejected and ApplyOrg
returns the rule failure with an unchanged forge and an empty write
trace. -/
theorem applyOrg_short_circuits_witness :
    ¬ ruleEngineRun cpAll emptyForge dupNameOrg = .ok ∧
    applyOrg cpAll emptyForge dupNameOrg =
      (.error (.ruleError (ruleEngineRun cpAll emptyForge dupNameOrg)), emptyForge, []) :=
  ⟨by decide, applyOrg_short_circuits_on_rule_failure cpAll emptyForge dupNameOrg (by decide)⟩

/-- An event with an action the worker does not recognise. -/
def unknownActionEvent : TeamEvent :=
  { action := some "frobnicate", repo := none, team := none, orgLogin := none }

/-- Witness for C6 as amended: a parsed message with an unrecognised
action is logged and still deleted. -/
theorem event_worker_deletes_witness :
    (processMessage (fun _ => .ok ()) (.ok unknownActionEvent)).map
        (fun st => st.deleted) = some true ∧
    (processMessage (fun _ => .ok ()) (.ok unknownActionEvent)).map
        (fun st => st.loggedErr) = some (some "dont recognise command frobnicate") := by
  have h := event_worker_deletes_after_dispatch (fun _ => .ok ()) unknownActionEvent
    { calls := [], loggedErr := some "dont recognise command frobnicate", deleted := true } rfl
  refine ⟨?_, ?_⟩
  · exact congrArg some h.1
  · exact congrArg some (h.2.1 "frobnicate" rfl (fun r hr => by cases hr) (by decide) (by decide)
      (by decide) (by decide) (by decide))

/-! C10: the kept teams always carry desired names, so the membership
phase's missing-team error is unreachable. -/

theorem updateTeam_name (parent : Option GitHubTeam) (have0 : GitHubTeam) (want : Team)
    (s : St) : (updateTeam parent have0 want s).1.name = want.name := by
  unfold updateTeam
  by_cases hmod : ((¬ have0.parentId = wantParentID parent : Bool) ||
      (¬ have0.description = want.description : Bool) || (¬ have0.name = want.name : Bool)) = true
  · rw [if_pos hmod]
    rfl
  · rw [if_neg hmod]
    by_contra hne
    apply hmod
    simp [hne]

theorem createTeam_name (parent : Option GitHubTeam) (want : Team) (s : St) :
    (createTeam parent want s).1.name = want.name := rfl

mutual

theorem processTeam_kept_names (have0 : List GitHubTeam) (parent : Option GitHubTeam) :
    ∀ (w : Team) (s : St), ∀ k ∈ (processTeam have0 parent w s).1,
      k.team.name ∈ (flattenTeam w).map Team.name
  | .mk n d p mt mb r cs, s => by
    intro k hk
    rw [processTeam] at hk
    rw [flattenTeam_eq]
    rcases hfind : findGitHubTeamFromDesired have0 (.mk n d p mt mb r cs) with _ | h0
    · rw [hfind] at hk
      dsimp only at hk
      rcases List.mem_cons.mp hk with rfl | hk
      · rw [List.map_cons, List.mem_cons]
        exact Or.inl (createTeam_name parent (.mk n d p mt mb r cs) s)
      · rw [List.map_cons, List.mem_cons]
        exact Or.inr (processTeams_kept_names have0 _ cs _ k hk)
    · rw [hfind] at hk
      dsimp only at hk
      rcases List.mem_cons.mp hk with rfl | hk
      · rw [List.map_cons, List.mem_cons]
        exact Or.inl (updateTeam_name parent h0 (.mk n d p mt mb r cs) s)
      · rw [List.map_cons, List.mem_cons]
        exact Or.inr (processTeams_kept_names have0 _ cs _ k hk)

theorem processTeams_kept_names (have0 : List GitHubTeam) (parent : Option GitHubTeam) :
    ∀ (ws : List Team) (s : St), ∀ k ∈ (processTeams have0 parent ws s).1,
      k.team.name ∈ (flattenTeams ws).map Team.name
  | [], s => by
    intro k hk
    cases hk
  | w :: ws, s => by
    intro k hk
    rw [processTeams] at hk
    dsimp only at hk
    rw [flattenTeams_cons, List.map_append, List.mem_append]
    rcases List.mem_append.mp hk with hk | hk
    · exact Or.inl (processTeam_kept_names have0 parent w s k hk)
    · exact Or.inr (processTeams_kept_names have0 parent ws _ k hk)

end

mutual

theorem teamsByNameTeam_eq :
    ∀ (t : Team) (acc : List (String × Team)),
      teamsByNameTeam acc t = acc ++ (flattenTeam t).map (fun w => (w.name, w))
  | .mk n d p mt mb r cs, acc => by
    rw [teamsByNameTeam, teamsByNameTeams_eq cs, flattenTeam_eq]
    simp [Team.name, Team.children]

theorem teamsByNameTeams_eq :
    ∀ (ts : List Team) (acc : List (String × Team)),
      teamsByNameTeams acc ts = acc ++ (flattenTeams ts).map (fun w => (w.name, w))
  | [], acc => by simp [teamsByNameTeams, flattenTeams]
  | t :: ts, acc => by
    rw [teamsByNameTeams, teamsByNameTeams_eq ts, teamsByNameTeam_eq t, flattenTeams_cons]
    simp

end

theorem teamsByName_eq (ts : List Team) :
    teamsByName ts = (flattenTeams ts).map (fun w => (w.name, w)) := by
  unfold teamsByName
  rw [teamsByNameTeams_eq]
  simp

theorem mapLookup_isSome {m : List (String × Team)} {n : String}
    (h : ∃ p ∈ m, p.1 = n) : (mapLookup m n).isSome = true := by
  unfold mapLookup
  obtain ⟨p, hp, hn⟩ := h
  have hsome : (m.reverse.find? (fun q => decide (q.1 = n))).isSome = true := by
    rw [List.find?_isSome]
    exact ⟨p, List.mem_reverse.mpr hp, by simp [hn]⟩
  rcases hf : m.reverse.find? (fun q => decide (q.1 = n)) with _ | q
  · rw [hf] at hsome
    cases hsome
  · rw [hf]
    rfl

mutual

theorem promoteTeam_names (admins : List GitHubUser) :
    ∀ t : Team, (flattenTeam (promoteTeam admins t)).map Team.name =
      (flattenTeam t).map Team.name
  | .mk n d p mt mb r cs => by
    rw [promoteTeam]
    rw [flattenTeam_eq, flattenTeam_eq]
    dsimp only [Team.children, Team.name]
    rw [List.map_cons, List.map_cons]
    rw [promoteTeams_names admins cs]
    simp [Team.name]

theorem promoteTeams_names (admins : List GitHubUser) :
    ∀ ts : List Team, (flattenTeams (promoteTeams admins ts)).map Team.name =
      (flattenTeams ts).map Team.name
  | [] => rfl
  | t :: ts => by
    rw [promoteTeams, flattenTeams_cons, flattenTeams_cons]
    rw [List.map_append, List.map_append]
    rw [promoteTeam_names admins t, promoteTeams_names admins ts]

end

theorem configureTeamMembershipsAux_ok (m : List (String × Team)) :
    ∀ (kept : List KeptGitHubTeam) (s : St),
      (∀ k ∈ kept, (mapLookup m k.team.name).isSome = true) →
      (configureTeamMembershipsAux m kept s).1 = none := by
  intro kept
  induction kept with
  | nil => intro s _; rfl
  | cons k ks ih =>
    intro s hall
    rw [configureTeamMembershipsAux]
    rcases hlk : mapLookup m k.team.name with _ | want
    · have := hall k (List.mem_cons_self _ _)
      rw [hlk] at this
      cases this
    · dsimp only
      exact ih _ (fun k' hk' => hall k' (List.mem_cons_of_mem _ hk'))

/-- Every kept team's name is the name of a desired team. -/
theorem configureTeams_kept_lookup (cp : CompilePat) (forge : Forge) (org : Org)
    (admins : List GitHubUser) :
    ∀ k ∈ (configureTeams org forge.teams ⟨forge, []⟩).1,
      (mapLookup (teamsByName (promoteAdmins admins org).teams) k.team.name).isSome = true := by
  intro k hk
  have hname : k.team.name ∈ (flattenTeams org.teams).map Team.name := by
    have : (configureTeams org forge.teams ⟨forge, []⟩).1 =
        (processTeams forge.teams none org.teams ⟨forge, []⟩).1 := rfl
    rw [this] at hk
    exact processTeams_kept_names forge.teams none org.teams ⟨forge, []⟩ k hk
  apply mapLookup_isSome
  rw [teamsByName_eq]
  unfold promoteAdmins
  dsimp only
  rcases List.mem_map.mp ((promoteTeams_names admins org.teams ▸ hname)) with ⟨w, hw, hwn⟩
  exact ⟨(w.name, w), List.mem_map.mpr ⟨w, hw, rfl⟩, hwn⟩

/-- C10: under unique desired team names (and the concrete UpdateTeam that
returns a team named as asked, which the model's forge does), the
"expected team to be in desired state" branch of configureTeamMemberships
is unreachable: every kept team's name is a key of the desired-team map
and ApplyOrg never fails with that error. -/
theorem membership_error_unreachable (cp : CompilePat) (forge : Forge) (org : Org)
    (hnames : (((flattenTeams org.teams).map Team.name)).Nodup) :
    (∀ k ∈ (configureTeams org forge.teams ⟨forge, []⟩).1,
      (mapLookup
        (teamsByName
          (promoteAdmins (configureTeams org forge.teams ⟨forge, []⟩).2.forge.admins org).teams)
        k.team.name).isSome = true) ∧
    (∀ (msg : String) (f : Forge) (l : List WriteOp),
      ¬ applyOrg cp forge org = (.error (.applyError msg), f, l)) := by
  refine ⟨configureTeams_kept_lookup cp forge org _, ?_⟩
  intro msg f l habs
  unfold applyOrg at habs
  rcases he : ruleEngineRun cp forge org with _ | ⟨nm, errs⟩ | m
  · rw [he] at habs
    dsimp only at habs
    have hok : (configureTeamMemberships
        (promoteAdmins (configureTeams org forge.teams ⟨forge, []⟩).2.forge.admins org)
        (configureTeams org forge.teams ⟨forge, []⟩).1
        (configureTeams org forge.teams ⟨forge, []⟩).2).1 = none := by
      unfold configureTeamMemberships
      exact configureTeamMembershipsAux_ok _ _ _ (configureTeams_kept_lookup cp forge org _)
    rcases hm : configureTeamMemberships
        (promoteAdmins (configureTeams org forge.teams ⟨forge, []⟩).2.forge.admins org)
        (configureTeams org forge.teams ⟨forge, []⟩).1
        (configureTeams org forge.teams ⟨forge, []⟩).2 with ⟨err, s2⟩
    rw [hm] at hok
    dsimp only at hok
    subst hok
    rw [hm] at habs
    cases habs
  · rw [he] at habs
    cases habs
  · rw [he] at habs
    cases habs

/-- Witness for C10: with a two-team desired org against the empty forge
the kept names are all keys of the desired map and ApplyOrg does not fail
mid-apply. -/
theorem membership_error_unreachable_witness :
    ¬ applyOrg cpAll emptyForge
        { name := "o", teams := [.mk "a" "" [] [] [] [".*"] [.mk "b" "" [] [] [] [] []]] } =
      (.error (.applyError "expected team b to be in desired state"), emptyForge, []) :=
  (membership_error_unreachable cpAll emptyForge
    { name := "o", teams := [.mk "a" "" [] [] [] [".*"] [.mk "b" "" [] [] [] [] []]] }
    (by decide)).2 "expected team b to be in desired state" emptyForge []

/-! C8: the round trip between UnmergeOrg and MergeOrg. -/

mutual

/-- The directory entry UnmergeOrg writes for a team when no mkdir
collision occurs. -/
def specUnmergeTeam : Team → FsEntry
  | .mk n d p mt mb r cs =>
    .dir (normaliseName n)
      (.file teamFile (.teamDoc (encodeTeam (.mk n d p mt mb r cs))) :: specUnmergeTeams cs)

def specUnmergeTeams : List Team → List FsEntry
  | [] => []
  | t :: ts => specUnmergeTeam t :: specUnmergeTeams ts

end

/-- The team directory as observed through ReadDir (every listing
sorted). -/
def sortFsSpec (t : Team) : FsEntry := sortFs (specUnmergeTeam t)

mutual

def teamSize : Team → Nat
  | .mk _ _ _ _ _ _ cs => 1 + teamsSize cs

def teamsSize : List Team → Nat
  | [] => 0
  | t :: ts => teamSize t + teamsSize ts

end

/-- The normalised directory name of a team. -/
def normName (t : Team) : String := normaliseName t.name

mutual

/-- The preconditions under which UnmergeOrg can write a team subtree:
every normalised name is nonempty and sibling normalised names never
collide. -/
def unmergeOkTeam : Team → Bool
  | .mk n _ _ _ _ _ cs =>
    (¬ normaliseName n = "" : Bool) && ((cs.map normName).Nodup : Bool) && unmergeOkTeams cs

def unmergeOkTeams : List Team → Bool
  | [] => true
  | t :: ts => unmergeOkTeam t && unmergeOkTeams ts

end

theorem specUnmergeTeams_eq_map (ts : List Team) :
    specUnmergeTeams ts = ts.map specUnmergeTeam := by
  induction ts with
  | nil => rfl
  | cons t ts ih => rw [specUnmergeTeams, ih, List.map_cons]

theorem unmergeOkTeams_mem {ts : List Team} (h : unmergeOkTeams ts = true) :
    ∀ t ∈ ts, unmergeOkTeam t = true := by
  induction ts with
  | nil => intro t ht; cases ht
  | cons u us ih =>
    rw [unmergeOkTeams, Bool.and_eq_true] at h
    intro t ht
    rcases List.mem_cons.mp ht with rfl | ht
    · exact h.1
    · exact ih h.2 t ht

theorem specUnmergeTeam_name (t : Team) : entryName (specUnmergeTeam t) = normName t := by
  cases t
  rfl

/-- No normalised name contains a dot, so team directories can never be
named like a control file. -/
theorem normaliseName_ne_ctrl (n : String) :
    ¬ normaliseName n = orgFile ∧ ¬ normaliseName n = teamFile := by
  constructor
  · intro habs
    have := normaliseName_goodChar n
    rw [habs] at this
    have hdot : '.' ∈ (orgFile).data := by decide
    have := this '.' hdot
    cases this
  · intro habs
    have := normaliseName_goodChar n
    rw [habs] at this
    have hdot : '.' ∈ (teamFile).data := by decide
    have := this '.' hdot
    cases this

mutual

theorem unmergeTeam_ok : ∀ t : Team, unmergeOkTeam t = true →
    unmergeTeam t = .ok (specUnmergeTeam t)
  | .mk n d p mt mb r cs, h => by
    rw [unmergeOkTeam, Bool.and_eq_true, Bool.and_eq_true] at h
    rw [unmergeTeam, specUnmergeTeam]
    have := unmergeTeamsAux_ok cs
      [.file teamFile (.teamDoc (encodeTeam (.mk n d p mt mb r cs)))] h.2
      (of_decide_eq_true h.1.2)
      (by
        intro e he
        rcases List.mem_singleton.mp he with rfl
        intro t ht habs
        exact (normaliseName_ne_ctrl t.name).2 habs.symm)
    rw [this]
    rfl

theorem unmergeTeamsAux_ok : ∀ (ts : List Team) (acc : List FsEntry),
    unmergeOkTeams ts = true → ((ts.map normName)).Nodup →
    (∀ e ∈ acc, ∀ t ∈ ts, ¬ entryName e = normName t) →
    unmergeTeamsAux acc ts = .ok (acc ++ specUnmergeTeams ts)
  | [], acc, _, _, _ => by
    rw [unmergeTeamsAux, specUnmergeTeams, List.append_nil]
  | t :: ts, acc, hok, hnd, hacc => by
    rw [unmergeOkTeams, Bool.and_eq_true] at hok
    rw [unmergeTeamsAux]
    have hnm : ¬ acc.any (fun e => entryName e = normName t) = true := by
      rw [List.any_eq_true]
      rintro ⟨e, he, hev⟩
      rw [decide_eq_true_eq] at hev
      exact hacc e he t (List.mem_cons_self _ _) hev
    rw [if_neg (by
      intro habs
      apply hnm
      exact habs)]
    rw [unmergeTeam_ok t hok.1]
    show unmergeTeamsAux (acc ++ [specUnmergeTeam t]) ts = _
    have hnd' : ((ts.map normName)).Nodup := (List.nodup_cons.mp hnd).2
    have := unmergeTeamsAux_ok ts (acc ++ [specUnmergeTeam t]) hok.2 hnd'
      (by
        intro e he u hu
        rcases List.mem_append.mp he with he | he
        · exact hacc e he u (List.mem_cons_of_mem _ hu)
        · rcases List.mem_singleton.mp he with rfl
          rw [specUnmergeTeam_name]
          intro habs
          exact (List.nodup_cons.mp hnd).1 (habs ▸ List.mem_map.mpr ⟨u, hu, rfl⟩))
    rw [this, specUnmergeTeams]
    simp

end

/-- UnmergeOrg succeeds on a well-formed org and writes org.yaml followed
by one directory per team. -/
theorem unmergeOrg_ok (org : Org) (hok : unmergeOkTeams org.teams = true)
    (hnd : ((org.teams.map normName)).Nodup) :
    unmergeOrg org =
      .ok (.dir (normaliseName org.name)
        (.file orgFile (.orgDoc (encodeOrg org)) :: specUnmergeTeams org.teams)) := by
  unfold unmergeOrg
  rw [unmergeTeamsAux_ok org.teams [.file orgFile (.orgDoc (encodeOrg org))] hok hnd
    (by
      intro e he t ht
      rcases List.mem_singleton.mp he with rfl
      intro habs
      exact (normaliseName_ne_ctrl t.name).1 habs.symm)]
  rfl

/-! Merge-side helper lemmas for the round trip. -/

theorem pairwise_key_ne {α : Type} (key : α → String) :
    ∀ {l : List α}, (l.map key).Nodup → l.Pairwise (fun a b => ¬ key a = key b) := by
  intro l
  induction l with
  | nil => intro _; exact List.Pairwise.nil
  | cons x xs ih =>
    intro h
    rw [List.map_cons, List.nodup_cons] at h
    refine List.Pairwise.cons ?_ (ih h.2)
    intro b hb habs
    exact h.1 (habs ▸ List.mem_map.mpr ⟨b, hb, rfl⟩)

/-- Two listings of the same entries that are each sorted by a
duplicate-free key are identical. -/
theorem eq_of_perm_sorted_key {α : Type} (key : α → String) {l1 l2 : List α}
    (hp : l1.Perm l2)
    (h1 : l1.Pairwise (fun a b => strLeP (key a) (key b)))
    (h2 : l2.Pairwise (fun a b => strLeP (key a) (key b)))
    (hn : (l1.map key).Nodup) : l1 = l2 := by
  have hn2 : (l2.map key).Nodup := ((hp.map key).nodup_iff).mp hn
  haveI : IsAntisymm α (fun a b => strLeP (key a) (key b) ∧ ¬ key a = key b) :=
    ⟨fun a b hab hba => (hab.2 (strLeP_antisymm _ _ hab.1 hba.1)).elim⟩
  exact List.eq_of_perm_of_sorted hp (h1.and (pairwise_key_ne key hn))
    (h2.and (pairwise_key_ne key hn2))

/-- A file entry the merge descend silently skips in the given position. -/
def skipFile (isRoot : Bool) : FsEntry → Prop
  | .file nm _ => (nm = orgFile ∧ isRoot = true) ∨ (nm = teamFile ∧ isRoot = false)
  | .dir _ _ => True

theorem mergeEntry_skip (isRoot : Bool) (nm : String) (c : Doc)
    (h : skipFile isRoot (.file nm c)) : mergeEntry isRoot (.file nm c) = .ok none := by
  rcases h with ⟨rfl, rfl⟩ | ⟨rfl, rfl⟩
  · rw [mergeEntry, if_pos rfl, if_pos rfl]
  · rw [mergeEntry, if_neg (by decide), if_pos rfl, if_pos (by decide)]

theorem mergeEntries_skip_files (isRoot : Bool) :
    ∀ l : List FsEntry, (∀ e ∈ l, skipFile isRoot e) →
      mergeEntries isRoot l = mergeEntries isRoot (l.filter entryIsDir)
  | [], _ => rfl
  | .file nm c :: rest, h => by
    have hh := h (.file nm c) (List.mem_cons_self _ _)
    have hfilter : (FsEntry.file nm c :: rest).filter entryIsDir = rest.filter entryIsDir := by
      rw [List.filter_cons_of_neg]
      simp [entryIsDir]
    rw [hfilter]
    rw [mergeEntries, mergeEntry_skip isRoot nm c hh]
    exact mergeEntries_skip_files isRoot rest (fun e he => h e (List.mem_cons_of_mem _ he))
  | .dir nm sub :: rest, h => by
    have hfilter : (FsEntry.dir nm sub :: rest).filter entryIsDir =
        .dir nm sub :: rest.filter entryIsDir := by
      rw [List.filter_cons_of_pos]
      simp [entryIsDir]
    rw [hfilter]
    rw [mergeEntries, mergeEntries]
    rw [mergeEntries_skip_files isRoot rest (fun e he => h e (List.mem_cons_of_mem _ he))]

theorem readTeamFile_unique (td : TeamDoc) :
    ∀ l : List FsEntry, (FsEntry.file teamFile (.teamDoc td)) ∈ l →
      (∀ e ∈ l, e = .file teamFile (.teamDoc td) ∨ entryIsDir e = true) →
      readTeamFile l = some td
  | [], hmem, _ => by cases hmem
  | e :: es, hmem, hall => by
    rcases hall e (List.mem_cons_self _ _) with rfl | hdir
    · rw [readTeamFile, if_pos rfl]
    · cases e with
      | file n c =>
        cases hdir
      | dir n sub =>
        show readTeamFile es = some td
        have hmem' : (FsEntry.file teamFile (.teamDoc td)) ∈ es := by
          rcases List.mem_cons.mp hmem with habs | h
          · cases habs
          · exact h
        exact readTeamFile_unique td es hmem' (fun e he => hall e (List.mem_cons_of_mem _ he))

theorem readOrgFile_unique (d : OrgDoc) :
    ∀ l : List FsEntry, (FsEntry.file orgFile (.orgDoc d)) ∈ l →
      (∀ e ∈ l, e = .file orgFile (.orgDoc d) ∨ entryIsDir e = true) →
      readOrgFile l = some d
  | [], hmem, _ => by cases hmem
  | e :: es, hmem, hall => by
    rcases hall e (List.mem_cons_self _ _) with rfl | hdir
    · rw [readOrgFile, if_pos rfl]
    · cases e with
      | file n c =>
        cases hdir
      | dir n sub =>
        show readOrgFile es = some d
        have hmem' : (FsEntry.file orgFile (.orgDoc d)) ∈ es := by
          rcases List.mem_cons.mp hmem with habs | h
          · cases habs
          · exact h
        exact readOrgFile_unique d es hmem' (fun e he => hall e (List.mem_cons_of_mem _ he))

theorem sortFsList_spec (cs : List Team) :
    sortFsList (specUnmergeTeams cs) = cs.map sortFsSpec := by
  induction cs with
  | nil => rfl
  | cons t ts ih =>
    rw [specUnmergeTeams, sortFsList, ih]
    rfl

theorem sortFsSpec_eq : ∀ t : Team,
    sortFsSpec t = .dir (normName t)
      (readDirSorted (.file teamFile (.teamDoc (encodeTeam t)) :: t.children.map sortFsSpec))
  | .mk n d p mt mb r cs => by
    show sortFs (specUnmergeTeam (.mk n d p mt mb r cs)) = _
    rw [specUnmergeTeam, sortFs, sortFsList, sortFsList_spec]
    rfl

theorem sortFsSpec_name (t : Team) : entryName (sortFsSpec t) = normName t := by
  rw [sortFsSpec_eq]
  rfl

theorem sortFsSpec_isDir (t : Team) : entryIsDir (sortFsSpec t) = true := by
  rw [sortFsSpec_eq]
  rfl

theorem decode_encode : ∀ t : Team, decodeTeamDoc (encodeTeam t) =
    .mk t.name t.description t.previously [] t.members t.restrictMembers []
  | .mk n d p mt mb r cs => rfl

theorem canonTeamList_eq_map (cs : List Team) : canonTeamList cs = cs.map canonTeam := by
  induction cs with
  | nil => rfl
  | cons t ts ih => rw [canonTeamList, ih, List.map_cons]

theorem canonTeam_name : ∀ t : Team, (canonTeam t).name = t.name
  | .mk n d p mt mb r cs => rfl

theorem canonTeam_normName (t : Team) : normName (canonTeam t) = normName t := by
  unfold normName
  rw [canonTeam_name]

theorem teamsSize_eq_sum (ts : List Team) : teamsSize ts = (ts.map teamSize).sum := by
  induction ts with
  | nil => rfl
  | cons t us ih => rw [teamsSize, ih, List.map_cons, List.sum_cons]

theorem teamsSize_perm {l1 l2 : List Team} (h : l1.Perm l2) : teamsSize l1 = teamsSize l2 := by
  rw [teamsSize_eq_sum, teamsSize_eq_sum]
  exact List.Perm.sum_eq (h.map teamSize)

theorem teamSize_pos : ∀ t : Team, 1 ≤ teamSize t
  | .mk n d p mt mb r cs => by
    rw [teamSize]
    omega

instance : IsTotal Team teamLeByNorm := ⟨fun a b => strLeP_total _ _⟩

instance : IsTrans Team teamLeByNorm := ⟨fun a b c => strLeP_trans _ _ _⟩

instance : IsTotal FsEntry entLe := ⟨fun a b => strLeP_total _ _⟩

instance : IsTrans FsEntry entLe := ⟨fun a b c => strLeP_trans _ _ _⟩

/-- Sorting children and then canonicalising equals canonicalising and
then sorting: canonTeam preserves the sort key. -/
theorem map_canon_insertionSort (cs : List Team) (hnd : (cs.map normName).Nodup) :
    (List.insertionSort teamLeByNorm cs).map canonTeam =
      List.insertionSort teamLeByNorm (cs.map canonTeam) := by
  have hperm : ((List.insertionSort teamLeByNorm cs).map canonTeam).Perm
      (List.insertionSort teamLeByNorm (cs.map canonTeam)) := by
    refine ((List.perm_insertionSort teamLeByNorm cs).map canonTeam).trans ?_
    exact (List.perm_insertionSort teamLeByNorm (cs.map canonTeam)).symm
  have hs1 : ((List.insertionSort teamLeByNorm cs).map canonTeam).Pairwise
      (fun a b => strLeP (normName a) (normName b)) := by
    refine List.Pairwise.map canonTeam ?_ (List.sorted_insertionSort teamLeByNorm cs)
    intro a b hab
    rw [canonTeam_normName, canonTeam_normName]
    exact hab
  have hs2 : (List.insertionSort teamLeByNorm (cs.map canonTeam)).Pairwise
      (fun a b => strLeP (normName a) (normName b)) :=
    List.sorted_insertionSort teamLeByNorm (cs.map canonTeam)
  have hn1 : (((List.insertionSort teamLeByNorm cs).map canonTeam).map normName).Nodup := by
    have he : ((List.insertionSort teamLeByNorm cs).map canonTeam).map normName =
        (List.insertionSort teamLeByNorm cs).map normName := by
      rw [List.map_map]
      exact List.map_congr_left (fun t _ => canonTeam_normName t)
    rw [he]
    exact ((List.perm_insertionSort teamLeByNorm cs).map normName).nodup_iff.mpr hnd
  exact eq_of_perm_sorted_key normName hperm hs1 hs2 hn1

theorem skipFile_of_dir {isRoot : Bool} {e : FsEntry} (h : entryIsDir e = true) :
    skipFile isRoot e := by
  cases e with
  | file n c => cases h
  | dir n sub => trivial

theorem teamsSize_zero : ∀ {us : List Team}, teamsSize us ≤ 0 → us = []
  | [], _ => rfl
  | t :: ts, h => by
    rw [teamsSize] at h
    have := teamSize_pos t
    omega

/-- From the listing lemma for team directories to the listing lemma for a
whole sorted directory: skip the control file, and the remaining sorted
directories are exactly the team directories in normalised-name order. -/
theorem mergeA_of_B (n : Nat)
    (hB : ∀ (us : List Team) (isRoot : Bool), teamsSize us ≤ n →
      (∀ t ∈ us, unmergeOkTeam t = true) →
      mergeEntries isRoot (us.map sortFsSpec) = .ok (us.map canonTeam)) :
    ∀ (ts : List Team) (isRoot : Bool) (f : FsEntry), teamsSize ts ≤ n →
      entryIsDir f = false → skipFile isRoot f →
      (∀ t ∈ ts, unmergeOkTeam t = true) → (ts.map normName).Nodup →
      mergeEntries isRoot (readDirSorted (f :: ts.map sortFsSpec)) =
        .ok ((List.insertionSort teamLeByNorm ts).map canonTeam) := by
  intro ts isRoot f hsize hf hskipf hok hnd
  have hskip : ∀ e ∈ readDirSorted (f :: ts.map sortFsSpec), skipFile isRoot e := by
    intro e he
    have he' : e ∈ f :: ts.map sortFsSpec :=
      (List.perm_insertionSort entLe _).subset he
    rcases List.mem_cons.mp he' with rfl | he'
    · exact hskipf
    · rcases List.mem_map.mp he' with ⟨t, _, rfl⟩
      exact skipFile_of_dir (sortFsSpec_isDir t)
  rw [mergeEntries_skip_files isRoot _ hskip]
  have hfe : (readDirSorted (f :: ts.map sortFsSpec)).filter entryIsDir =
      (List.insertionSort teamLeByNorm ts).map sortFsSpec := by
    have p2 : (f :: ts.map sortFsSpec).filter entryIsDir = ts.map sortFsSpec := by
      rw [List.filter_cons_of_neg (by rw [hf]; intro habs; cases habs)]
      refine List.filter_eq_self.mpr ?_
      intro e he
      rcases List.mem_map.mp he with ⟨t, _, rfl⟩
      exact sortFsSpec_isDir t
    have p1 : ((readDirSorted (f :: ts.map sortFsSpec)).filter entryIsDir).Perm
        (ts.map sortFsSpec) := by
      have := (List.perm_insertionSort entLe (f :: ts.map sortFsSpec)).filter entryIsDir
      rw [p2] at this
      exact this
    have p3 : ((List.insertionSort teamLeByNorm ts).map sortFsSpec).Perm
        (ts.map sortFsSpec) :=
      (List.perm_insertionSort teamLeByNorm ts).map _
    refine eq_of_perm_sorted_key entryName (p1.trans p3.symm) ?_ ?_ ?_
    · exact List.Pairwise.filter entryIsDir
        (List.sorted_insertionSort entLe (f :: ts.map sortFsSpec))
    · refine List.Pairwise.map sortFsSpec ?_ (List.sorted_insertionSort teamLeByNorm ts)
      intro a b hab
      rw [sortFsSpec_name, sortFsSpec_name]
      exact hab
    · have : ((readDirSorted (f :: ts.map sortFsSpec)).filter entryIsDir).map entryName
          |>.Perm (ts.map normName) := by
        have h1 := p1.map entryName
        have h2 : (ts.map sortFsSpec).map entryName = ts.map normName := by
          rw [List.map_map]
          exact List.map_congr_left (fun t _ => sortFsSpec_name t)
        rw [h2] at h1
        exact h1
      exact this.nodup_iff.mpr hnd
  rw [hfe]
  refine hB (List.insertionSort teamLeByNorm ts) isRoot ?_ ?_
  · rw [teamsSize_perm (List.perm_insertionSort teamLeByNorm ts)]
    exact hsize
  · intro t ht
    exact hok t ((List.perm_insertionSort teamLeByNorm ts).subset ht)

/-- Merging a listing of team directories written by UnmergeOrg and read
back through ReadDir produces the canonical teams, in listing order. -/
theorem mergeB_strong : ∀ n : Nat, ∀ (us : List Team) (isRoot : Bool), teamsSize us ≤ n →
    (∀ t ∈ us, unmergeOkTeam t = true) →
    mergeEntries isRoot (us.map sortFsSpec) = .ok (us.map canonTeam) := by
  intro n
  induction n with
  | zero =>
    intro us isRoot hsize _
    rw [teamsSize_zero hsize]
    rfl
  | succ n ih =>
    intro us
    induction us with
    | nil => intro isRoot _ _; rfl
    | cons t rest ihrest =>
      intro isRoot hsize hok
      rcases t with ⟨nm, ds, pv, mt, mb, rs, cs⟩
      have hokt := hok _ (List.mem_cons_self _ _)
      rw [unmergeOkTeam, Bool.and_eq_true, Bool.and_eq_true] at hokt
      have hread : readTeamFile
          (readDirSorted (.file teamFile (.teamDoc (encodeTeam (.mk nm ds pv mt mb rs cs))) ::
            cs.map sortFsSpec)) =
          some (encodeTeam (.mk nm ds pv mt mb rs cs)) := by
        refine readTeamFile_unique _ _ ?_ ?_
        · exact (List.perm_insertionSort entLe _).mem_iff.mpr (List.mem_cons_self _ _)
        · intro e he
          have he' := (List.perm_insertionSort entLe _).subset he
          rcases List.mem_cons.mp he' with rfl | he'
          · exact Or.inl rfl
          · rcases List.mem_map.mp he' with ⟨u, _, rfl⟩
            exact Or.inr (sortFsSpec_isDir u)
      have hchildren : mergeEntries false
          (readDirSorted (.file teamFile (.teamDoc (encodeTeam (.mk nm ds pv mt mb rs cs))) ::
            cs.map sortFsSpec)) =
          .ok ((List.insertionSort teamLeByNorm cs).map canonTeam) := by
        refine mergeA_of_B n ih cs false _ ?_ rfl (Or.inr ⟨rfl, rfl⟩) ?_ ?_
        · rw [teamsSize, teamSize] at hsize
          omega
        · exact unmergeOkTeams_mem hokt.2
        · exact of_decide_eq_true hokt.1.2
      have hcanon : appendChildren (.mk nm ds pv [] mb rs [])
          ((List.insertionSort teamLeByNorm cs).map canonTeam) =
          canonTeam (.mk nm ds pv mt mb rs cs) := by
        rw [appendChildren, canonTeam]
        rw [map_canon_insertionSort cs (of_decide_eq_true hokt.1.2), canonTeamList_eq_map]
        rfl
      have hentry : mergeEntry isRoot (sortFsSpec (.mk nm ds pv mt mb rs cs)) =
          .ok (some (canonTeam (.mk nm ds pv mt mb rs cs))) := by
        rw [sortFsSpec_eq]
        rw [show (Team.mk nm ds pv mt mb rs cs).children = cs from rfl]
        rw [mergeEntry, hread]
        show (let t0 := decodeTeamDoc (encodeTeam (.mk nm ds pv mt mb rs cs))
          if ¬ normName (.mk nm ds pv mt mb rs cs) = normaliseName t0.name then
            Except.error (.invalidTeamDirName (normName (.mk nm ds pv mt mb rs cs))
              (normaliseName t0.name) t0.name)
          else
            match mergeEntries false
              (readDirSorted (.file teamFile (.teamDoc (encodeTeam (.mk nm ds pv mt mb rs cs))) ::
                cs.map sortFsSpec)) with
            | .error e => .error e
            | .ok childTeams => .ok (some (appendChildren t0 childTeams))) =
          .ok (some (canonTeam (.mk nm ds pv mt mb rs cs)))
        rw [show decodeTeamDoc (encodeTeam (.mk nm ds pv mt mb rs cs)) =
          Team.mk nm ds pv [] mb rs [] from rfl]
        rw [if_neg (fun habs => habs rfl)]
        rw [hchildren]
        exact congrArg (fun x => Except.ok (some x)) hcanon
      have hrest : mergeEntries isRoot (rest.map sortFsSpec) = .ok (rest.map canonTeam) := by
        refine ihrest isRoot ?_ (fun u hu => hok u (List.mem_cons_of_mem _ hu))
        rw [teamsSize] at hsize
        have := teamSize_pos (.mk nm ds pv mt mb rs cs)
        omega
      rw [List.map_cons, mergeEntries, hentry, hrest]
      rfl

/-- Outcome of a full unmerge-then-merge round trip through the modelled
filesystem. -/
inductive RoundTripOut where
  | writeFailed (e : String)
  | readFailed (e : MergeErr)
  | merged (org : Org)
deriving DecidableEq

/-- merge(unmerge(org)): write the org out with UnmergeOrg, then read the
tree back with MergeOrg. -/
def mergeUnmerge (org : Org) : RoundTripOut :=
  match unmergeOrg org with
  | .error e => .writeFailed e
  | .ok root =>
    match mergeOrg root with
    | .error e => .readFailed e
    | .ok org2 => .merged org2

mutual

/-- Empty every maintainers field of a team, keeping everything else. -/
def clearMaintTeam : Team → Team
  | .mk n d p _ mb r cs => .mk n d p [] mb r (clearMaintTeams cs)

def clearMaintTeams : List Team → List Team
  | [] => []
  | t :: ts => clearMaintTeam t :: clearMaintTeams ts

end

/-- The round-trip image the specification claims: SortOrg applied to the
input, with every maintainers field emptied. -/
def specRoundTrip (org : Org) : Org :=
  { sortOrg org with teams := clearMaintTeams (sortOrg org).teams }

theorem mergeOrg_spec_tree (org : Org)
    (hok : unmergeOkTeams org.teams = true)
    (hnd : (org.teams.map normName).Nodup) :
    mergeOrg (.dir (normaliseName org.name)
      (.file orgFile (.orgDoc (encodeOrg org)) :: specUnmergeTeams org.teams)) =
    .ok (canonOrg org) := by
  unfold mergeOrg
  have hsort : sortFs (FsEntry.dir (normaliseName org.name)
      (.file orgFile (.orgDoc (encodeOrg org)) :: specUnmergeTeams org.teams)) =
      .dir (normaliseName org.name)
        (readDirSorted (.file orgFile (.orgDoc (encodeOrg org)) ::
          org.teams.map sortFsSpec)) := by
    rw [sortFs, sortFsList, sortFsList_spec]
    rfl
  rw [hsort]
  have hreadOrg : readOrgFile (readDirSorted
      (.file orgFile (.orgDoc (encodeOrg org)) :: org.teams.map sortFsSpec)) =
      some (encodeOrg org) := by
    refine readOrgFile_unique _ _ ?_ ?_
    · exact (List.perm_insertionSort entLe _).mem_iff.mpr (List.mem_cons_self _ _)
    · intro e he
      have he' := (List.perm_insertionSort entLe _).subset he
      rcases List.mem_cons.mp he' with rfl | he'
      · exact Or.inl rfl
      · rcases List.mem_map.mp he' with ⟨u, _, rfl⟩
        exact Or.inr (sortFsSpec_isDir u)
  show (match readOrgFile (readDirSorted
      (.file orgFile (.orgDoc (encodeOrg org)) :: org.teams.map sortFsSpec)) with
    | none => Except.error (MergeErr.missingControlFile "" orgFile)
    | some d =>
      let org0 := decodeOrgDoc d
      match mergeEntries true (readDirSorted
          (.file orgFile (.orgDoc (encodeOrg org)) :: org.teams.map sortFsSpec)) with
      | .error e => Except.error e
      | .ok ts => Except.ok { name := org0.name, teams := org0.teams ++ ts }) =
    Except.ok (canonOrg org)
  rw [hreadOrg]
  have hmergeTs : mergeEntries true (readDirSorted
      (.file orgFile (.orgDoc (encodeOrg org)) :: org.teams.map sortFsSpec)) =
      .ok ((List.insertionSort teamLeByNorm org.teams).map canonTeam) :=
    mergeA_of_B (teamsSize org.teams)
      (fun us iro hs hoku => mergeB_strong (teamsSize org.teams) us iro hs hoku)
      org.teams true _ le_rfl rfl (Or.inl ⟨rfl, rfl⟩) (unmergeOkTeams_mem hok) hnd
  rw [hmergeTs]
  rw [map_canon_insertionSort org.teams hnd, ← canonTeamList_eq_map org.teams]
  rfl

theorem merge_unmerge_canon (org : Org)
    (hok : unmergeOkTeams org.teams = true)
    (hnd : (org.teams.map normName).Nodup) :
    mergeUnmerge org = .merged (canonOrg org) := by
  unfold mergeUnmerge
  rw [unmergeOrg_ok org hok hnd]
  show (match mergeOrg (.dir (normaliseName org.name)
      (.file orgFile (.orgDoc (encodeOrg org)) :: specUnmergeTeams org.teams)) with
    | .error e => RoundTripOut.readFailed e
    | .ok org2 => RoundTripOut.merged org2) = RoundTripOut.merged (canonOrg org)
  rw [mergeOrg_spec_tree org hok hnd]

/-- A one-team org whose members list is not sorted. -/
def cexOrg8 : Org := { name := "o", teams := [Team.mk "t" "" [] [] ["b@x", "a@x"] [] []] }

/-- C8: counterexample — the round trip succeeds on cexOrg8 and returns
the org unchanged, but SortOrg with maintainers emptied sorts the members
list, so merge(unmerge(org)) is not sortOrg(org) up to maintainer
visibility. -/
theorem merge_unmerge_not_sortOrg :
    mergeUnmerge cexOrg8 = .merged cexOrg8 ∧
      ¬ mergeUnmerge cexOrg8 = .merged (specRoundTrip cexOrg8) := by decide

/-- A two-team org exercising child reordering in the round trip. -/
def w8Org : Org :=
  { name := "Acme", teams :=
      [Team.mk "B team" "d" [] ["m@x"] ["b@x", "a@x"] []
        [Team.mk "Z" "" [] [] [] [] [], Team.mk "A" "" [] [] [] [] []],
       Team.mk "A team" "" [] [] [] [] []] }

/-- C8 (amended): for every org whose normalised team names are nonempty
and unique among siblings at every level, merge(unmerge(org)) succeeds
and returns the input org with every maintainers field emptied and every
children list reordered by normalised team name (the ReadDir listing
order of the directories UnmergeOrg wrote); member lists keep their input
order, so the result is the canonical image canonOrg org rather than
SortOrg org with maintainers emptied. -/
theorem merge_unmerge_roundtrip_amended (org : Org)
    (hok : unmergeOkTeams org.teams = true)
    (hnd : (org.teams.map normName).Nodup) :
    mergeUnmerge org = .merged (canonOrg org) :=
  merge_unmerge_canon org hok hnd

/-- C8 witness: the amended round trip at a concrete two-team org. -/
theorem merge_unmerge_roundtrip_witness :
    unmergeOkTeams w8Org.teams = true ∧ (w8Org.teams.map normName).Nodup ∧
      mergeUnmerge w8Org = .merged (canonOrg w8Org) :=
  ⟨by decide, by decide, merge_unmerge_roundtrip_amended w8Org (by decide) (by decide)⟩

/-! C1 and C2: the reconciliation of desired teams against the observed
forge state. -/

/-- A desired org in which team b claims team a's name as its previous
name. -/
def c1Org : Org :=
  { name := "o", teams := [.mk "a" "" [] [] [] [] [], .mk "b" "" ["a"] [] [] [] []] }

/-- A forge with one observed team named a. -/
def c1Forge : Forge :=
  { teams := [{ id := 5, parentId := 0, name := "a", description := "" }],
    mems := [], admins := [], users := [], teamRepos := [], nextId := 6 }

/-- C1: counterexample — the rule engine accepts c1Org against c1Forge,
yet the second of two consecutive applies issues a write (team b steals
team a's observed team through its previous name, so the second run must
re-create team a) and reports a nonzero result. -/
theorem apply_twice_not_idempotent :
    ruleEngineRun cpAll c1Forge c1Org = .ok ∧
    ¬ (applyOrg cpAll (applyOrg cpAll c1Forge c1Org).2.1 c1Org).2.2 = [] ∧
    ¬ (applyOrg cpAll (applyOrg cpAll c1Forge c1Org).2.1 c1Org).1 =
        .ok ApplyOrgResult.zero := by
  decide

/-- A desired org in which two teams both claim a as their previous
name. -/
def c2Org : Org :=
  { name := "o", teams := [.mk "a2" "" ["a"] [] [] [] [], .mk "b" "" ["a"] [] [] [] []] }

/-- A forge with one observed team named a, with id 7. -/
def c2Forge : Forge :=
  { teams := [{ id := 7, parentId := 0, name := "a", description := "" }],
    mems := [], admins := [], users := [], teamRepos := [], nextId := 8 }

/-- C2: counterexample — team a2 has previously = [a], the observed state
has a team named a with id 7 and no team named a2, and the engine accepts;
yet the apply issues two update-team calls for id 7 (team b also matches
it through its previous name and steals the identity back), not exactly
one, and the final team with id 7 is not named a2. -/
theorem rename_identity_not_unique :
    ruleEngineRun cpAll c2Forge c2Org = .ok ∧
    ((applyOrg cpAll c2Forge c2Org).2.2.filter
      (fun op => match op with | .updateTeam u => u.id = 7 | _ => false)).length = 2 ∧
    ¬ (∃ k ∈ (applyOrg cpAll c2Forge c2Org).2.1.teams, k.id = 7 ∧ k.name = "a2") := by
  decide

/-- The modified flag of updateTeam. -/
def updModified (parent : Option GitHubTeam) (have0 : GitHubTeam) (want : Team) : Bool :=
  (¬ have0.parentId = wantParentID parent : Bool) ||
  (¬ have0.description = want.description : Bool) || (¬ have0.name = want.name : Bool)

theorem updateTeam_fst (parent : Option GitHubTeam) (h : GitHubTeam) (w : Team) (s : St) :
    (updateTeam parent h w s).1 = ⟨h.id, wantParentID parent, w.name, w.description⟩ := by
  unfold updateTeam
  by_cases hmod : ((¬ h.parentId = wantParentID parent : Bool) ||
      (¬ h.description = w.description : Bool) || (¬ h.name = w.name : Bool)) = true
  · rw [if_pos hmod]
    rfl
  · rw [if_neg hmod]
    have h1 : h.parentId = wantParentID parent := by
      by_contra hne
      exact hmod (by simp [hne])
    have h2 : h.description = w.description := by
      by_contra hne
      exact hmod (by simp [hne])
    have h3 : h.name = w.name := by
      by_contra hne
      exact hmod (by simp [hne])
    rw [← h1, ← h2, ← h3]

theorem updateTeam_snd_mod (parent : Option GitHubTeam) (h : GitHubTeam) (w : Team) (s : St)
    (hmod : updModified parent h w = true) :
    (updateTeam parent h w s).2 =
      (svcUpdateTeam ⟨h.id, wantParentID parent, w.name, w.description⟩ s).2 := by
  show (if updModified parent h w = true then
      svcUpdateTeam ⟨h.id, wantParentID parent, w.name, w.description⟩ s
    else (h, s)).2 =
    (svcUpdateTeam ⟨h.id, wantParentID parent, w.name, w.description⟩ s).2
  rw [if_pos hmod]

theorem updateTeam_snd_unmod (parent : Option GitHubTeam) (h : GitHubTeam) (w : Team) (s : St)
    (hmod : ¬ updModified parent h w = true) :
    (updateTeam parent h w s).2 = s := by
  show (if updModified parent h w = true then
      svcUpdateTeam ⟨h.id, wantParentID parent, w.name, w.description⟩ s
    else (h, s)).2 = s
  rw [if_neg hmod]

theorem createTeam_eq (parent : Option GitHubTeam) (w : Team) (s : St) :
    createTeam parent w s =
      (⟨s.forge.nextId, wantParentID parent, w.name, w.description⟩,
       { forge := { s.forge with
           teams := s.forge.teams ++
             [⟨s.forge.nextId, wantParentID parent, w.name, w.description⟩],
           nextId := s.forge.nextId + 1 },
         log := s.log ++
           [.createTeam ⟨s.forge.nextId, wantParentID parent, w.name, w.description⟩] }) := rfl

theorem findByNames_mem {teams : List GitHubTeam} :
    ∀ {ns : List String} {g : GitHubTeam}, findByNames teams ns = some g → g ∈ teams
  | [], g, h => by cases h
  | n :: ns, g, h => by
    rw [findByNames] at h
    rcases hf : teams.find? (fun t => decide (t.name = n)) with _ | t
    · rw [hf] at h
      exact findByNames_mem h
    · rw [hf] at h
      cases h
      exact List.mem_of_find?_eq_some hf

theorem find_mem {teams : List GitHubTeam} {w : Team} {g : GitHubTeam}
    (h : findGitHubTeamFromDesired teams w = some g) : g ∈ teams :=
  findByNames_mem h

/-- The statically-determined matched observed team id of one desired
team. -/
def matchedIdOf (have0 : List GitHubTeam) (w : Team) : Option GitHubTeamID :=
  (findGitHubTeamFromDesired have0 w).map (fun g => g.id)

mutual

theorem matchedIdsTeam_eq (have0 : List GitHubTeam) :
    ∀ t : Team, matchedIdsTeam have0 t = (flattenTeam t).filterMap (matchedIdOf have0)
  | .mk n d p mt mb r cs => by
    rw [matchedIdsTeam, flattenTeam]
    rw [List.filterMap_cons]
    rcases hf : findGitHubTeamFromDesired have0 (.mk n d p mt mb r cs) with _ | g
    · rw [show matchedIdOf have0 (.mk n d p mt mb r cs) = none from by
        rw [matchedIdOf, hf]; rfl]
      rw [matchedIdsTeams_eq have0 cs]
      rfl
    · rw [show matchedIdOf have0 (.mk n d p mt mb r cs) = some g.id from by
        rw [matchedIdOf, hf]; rfl]
      rw [matchedIdsTeams_eq have0 cs]
      rfl

theorem matchedIdsTeams_eq (have0 : List GitHubTeam) :
    ∀ ts : List Team, matchedIdsTeams have0 ts = (flattenTeams ts).filterMap (matchedIdOf have0)
  | [] => rfl
  | t :: ts => by
    rw [matchedIdsTeams, flattenTeams_cons, List.filterMap_append]
    rw [matchedIdsTeam_eq have0 t, matchedIdsTeams_eq have0 ts]

end

theorem matchedIds_mem {have0 : List GitHubTeam} {ws : List Team} {x : GitHubTeamID}
    (hx : x ∈ matchedIdsTeams have0 ws) :
    ∃ w ∈ flattenTeams ws, ∃ g, findGitHubTeamFromDesired have0 w = some g ∧
      g.id = x ∧ g ∈ have0 := by
  rw [matchedIdsTeams_eq] at hx
  rcases List.mem_filterMap.mp hx with ⟨w, hw, hmw⟩
  rw [matchedIdOf] at hmw
  rcases hf : findGitHubTeamFromDesired have0 w with _ | g
  · rw [hf] at hmw
    cases hmw
  · rw [hf] at hmw
    cases hmw
    exact ⟨w, hw, g, hf, rfl, find_mem hf⟩

theorem matchedIds_of_find {have0 : List GitHubTeam} {ws : List Team} {w : Team}
    {g : GitHubTeam} (hw : w ∈ flattenTeams ws)
    (hf : findGitHubTeamFromDesired have0 w = some g) : g.id ∈ matchedIdsTeams have0 ws := by
  rw [matchedIdsTeams_eq]
  exact List.mem_filterMap.mpr ⟨w, hw, by rw [matchedIdOf, hf]; rfl⟩

theorem matchedIds_lt {have0 : List GitHubTeam} {bound : GitHubTeamID}
    (hlt : ∀ g ∈ have0, g.id < bound) {ws : List Team} :
    ∀ x ∈ matchedIdsTeams have0 ws, x < bound := by
  intro x hx
  rcases matchedIds_mem hx with ⟨w, _, g, _, rfl, hg⟩
  exact hlt g hg

theorem nodup_key_inj {α β : Type} (f : α → β) : ∀ {l : List α}, (l.map f).Nodup →
    ∀ {a b : α}, a ∈ l → b ∈ l → f a = f b → a = b
  | [], _, a, b, ha, _, _ => by cases ha
  | x :: xs, h, a, b, ha, hb, hf => by
    rw [List.map_cons, List.nodup_cons] at h
    rcases List.mem_cons.mp ha with rfl | ha2 <;> rcases List.mem_cons.mp hb with rfl | hb2
    · rfl
    · exact absurd (List.mem_map.mpr ⟨b, hb2, hf.symm⟩) h.1
    · exact absurd (List.mem_map.mpr ⟨a, ha2, hf⟩) h.1
    · exact nodup_key_inj f h.2 ha2 hb2 hf

mutual

/-- The shape of the kept-team list produced by processing one desired
team: its own kept team first (named and described as desired, hung under
the expected parent id), then the kept teams of its children hung under
its id, in preorder. -/
def KeptShape (pid : GitHubTeamID) : Team → List KeptGitHubTeam → Prop
  | .mk n d _ _ _ _ cs, ks => ∃ k ks2, ks = k :: ks2 ∧ k.team.name = n ∧
      k.team.description = d ∧ k.team.parentId = pid ∧ KeptShapes k.team.id cs ks2

def KeptShapes (pid : GitHubTeamID) : List Team → List KeptGitHubTeam → Prop
  | [], ks => ks = []
  | w :: ws, ks => ∃ ks1 ks2, ks = ks1 ++ ks2 ∧ KeptShape pid w ks1 ∧ KeptShapes pid ws ks2

end

/-- The state-evolution contract of the create/update walk of
configureTeams, for a fragment of the desired tree whose matched observed
ids are mids: memberships and directories are untouched, fresh ids only
grow, kept teams are exactly the matched ids plus freshly created ones and
live in the final team list, other teams survive untouched, and the log
grows by update writes on matched ids and create writes on fresh ids. -/
structure PhasePost (mids : List GitHubTeamID) (s : St)
    (out : List KeptGitHubTeam × St) : Prop where
  frame : out.2.forge.mems = s.forge.mems ∧ out.2.forge.admins = s.forge.admins ∧
    out.2.forge.users = s.forge.users ∧ out.2.forge.teamRepos = s.forge.teamRepos
  nextMono : s.forge.nextId ≤ out.2.forge.nextId
  kept_ids : ∀ k ∈ out.1, (k.created = false ∧ k.team.id ∈ mids) ∨
    (k.created = true ∧ s.forge.nextId ≤ k.team.id ∧ k.team.id < out.2.forge.nextId)
  kept_nodup : (out.1.map (fun k => k.team.id)).Nodup
  kept_mem : ∀ k ∈ out.1, k.team ∈ out.2.forge.teams
  kept_covers : ∀ x ∈ mids, ∃ k ∈ out.1, k.team.id = x
  teams_sub : ∀ t ∈ out.2.forge.teams,
    (∃ k ∈ out.1, k.team = t) ∨ (t ∈ s.forge.teams ∧ ¬ t.id ∈ mids)
  teams_sup : ∀ t ∈ s.forge.teams, ¬ t.id ∈ mids → t ∈ out.2.forge.teams
  ids_nodup : (out.2.forge.teams.map (fun t => t.id)).Nodup
  ids_lt : ∀ t ∈ out.2.forge.teams, t.id < out.2.forge.nextId
  log_ops : ∃ newOps, out.2.log = s.log ++ newOps ∧ ∀ op ∈ newOps,
    (∃ u, op = WriteOp.updateTeam u ∧ u.id ∈ mids) ∨
    (∃ u, op = WriteOp.createTeam u ∧ s.forge.nextId ≤ u.id ∧ u.id < out.2.forge.nextId)

theorem PhasePost.comp {m1 m2 : List GitHubTeamID} {s : St}
    {out1 out2 : List KeptGitHubTeam × St}
    (p1 : PhasePost m1 s out1) (p2 : PhasePost m2 out1.2 out2)
    (hdisj : ∀ x ∈ m1, ¬ x ∈ m2)
    (hm1lt : ∀ x ∈ m1, x < s.forge.nextId)
    (hm2lt : ∀ x ∈ m2, x < s.forge.nextId) :
    PhasePost (m1 ++ m2) s (out1.1 ++ out2.1, out2.2) := by
  refine ⟨?_, ?_, ?_, ?_, ?_, ?_, ?_, ?_, ?_, ?_, ?_⟩
  · exact ⟨p2.frame.1.trans p1.frame.1, p2.frame.2.1.trans p1.frame.2.1,
      p2.frame.2.2.1.trans p1.frame.2.2.1, p2.frame.2.2.2.trans p1.frame.2.2.2⟩
  · exact le_trans p1.nextMono p2.nextMono
  · intro k hk
    rcases List.mem_append.mp hk with hk | hk
    · rcases p1.kept_ids k hk with ⟨hc, hm⟩ | ⟨hc, hlo, hhi⟩
      · exact Or.inl ⟨hc, List.mem_append_left _ hm⟩
      · exact Or.inr ⟨hc, hlo, lt_of_lt_of_le hhi p2.nextMono⟩
    · rcases p2.kept_ids k hk with ⟨hc, hm⟩ | ⟨hc, hlo, hhi⟩
      · exact Or.inl ⟨hc, List.mem_append_right _ hm⟩
      · exact Or.inr ⟨hc, le_trans p1.nextMono hlo, hhi⟩
  · rw [List.map_append, List.nodup_append]
    refine ⟨p1.kept_nodup, p2.kept_nodup, ?_⟩
    intro x hx1 hx2
    rcases List.mem_map.mp hx1 with ⟨k1, hk1, rfl⟩
    rcases List.mem_map.mp hx2 with ⟨k2, hk2, he⟩
    rcases p1.kept_ids k1 hk1 with ⟨_, hm1⟩ | ⟨_, hlo1, hhi1⟩ <;>
      rcases p2.kept_ids k2 hk2 with ⟨_, hm2⟩ | ⟨_, hlo2, hhi2⟩
    · exact hdisj _ hm1 (he ▸ hm2)
    · have h1 : k1.team.id < s.forge.nextId := hm1lt _ hm1
      have h2 : s.forge.nextId ≤ k2.team.id := le_trans p1.nextMono hlo2
      rw [he] at h2
      exact absurd h2 (not_le.mpr h1)
    · have h1 : k2.team.id < s.forge.nextId := hm2lt _ hm2
      rw [he] at h1
      exact absurd h1 (not_lt.mpr hlo1)
    · rw [he] at hlo2
      exact absurd hlo2 (not_le.mpr hhi1)
  · intro k hk
    rcases List.mem_append.mp hk with hk | hk
    · refine p2.teams_sup _ (p1.kept_mem k hk) ?_
      intro habs
      rcases p1.kept_ids k hk with ⟨_, hm⟩ | ⟨_, hlo, _⟩
      · exact hdisj _ hm habs
      · exact absurd (hm2lt _ habs) (not_lt.mpr hlo)
    · exact p2.kept_mem k hk
  · intro x hx
    rcases List.mem_append.mp hx with hx | hx
    · rcases p1.kept_covers x hx with ⟨k, hk, hid⟩
      exact ⟨k, List.mem_append_left _ hk, hid⟩
    · rcases p2.kept_covers x hx with ⟨k, hk, hid⟩
      exact ⟨k, List.mem_append_right _ hk, hid⟩
  · intro t ht
    rcases p2.teams_sub t ht with ⟨k, hk, hkt⟩ | ⟨ht1, hnm2⟩
    · exact Or.inl ⟨k, List.mem_append_right _ hk, hkt⟩
    · rcases p1.teams_sub t ht1 with ⟨k, hk, hkt⟩ | ⟨hts, hnm1⟩
      · exact Or.inl ⟨k, List.mem_append_left _ hk, hkt⟩
      · refine Or.inr ⟨hts, ?_⟩
        intro habs
        rcases List.mem_append.mp habs with h | h
        · exact hnm1 h
        · exact hnm2 h
  · intro t ht hnm
    refine p2.teams_sup t (p1.teams_sup t ht ?_) ?_
    · exact fun h => hnm (List.mem_append_left _ h)
    · exact fun h => hnm (List.mem_append_right _ h)
  · exact p2.ids_nodup
  · exact p2.ids_lt
  · rcases p1.log_ops with ⟨n1, he1, ho1⟩
    rcases p2.log_ops with ⟨n2, he2, ho2⟩
    refine ⟨n1 ++ n2, by rw [he2, he1, List.append_assoc], ?_⟩
    intro op hop
    rcases List.mem_append.mp hop with hop | hop
    · rcases ho1 op hop with ⟨u, rfl, hu⟩ | ⟨u, rfl, hlo, hhi⟩
      · exact Or.inl ⟨u, rfl, List.mem_append_left _ hu⟩
      · exact Or.inr ⟨u, rfl, hlo, lt_of_lt_of_le hhi p2.nextMono⟩
    · rcases ho2 op hop with ⟨u, rfl, hu⟩ | ⟨u, rfl, hlo, hhi⟩
      · exact Or.inl ⟨u, rfl, List.mem_append_right _ hu⟩
      · exact Or.inr ⟨u, rfl, le_trans p1.nextMono hlo, hhi⟩

theorem phase_id (s : St) (hids : (s.forge.teams.map (fun t => t.id)).Nodup)
    (hslt : ∀ t ∈ s.forge.teams, t.id < s.forge.nextId) : PhasePost [] s ([], s) := by
  refine ⟨⟨rfl, rfl, rfl, rfl⟩, le_refl _, ?_, ?_, ?_, ?_, ?_, ?_, hids, hslt,
    ⟨[], (List.append_nil _).symm, ?_⟩⟩
  · intro k hk
    cases hk
  · exact List.nodup_nil
  · intro k hk
    cases hk
  · intro x hx
    cases hx
  · intro t ht
    exact Or.inr ⟨ht, fun h => by cases h⟩
  · intro t ht _
    exact ht
  · intro op hop
    cases hop

theorem phase_update_mod (h : GitHubTeam) (pid : GitHubTeamID) (nm ds : String) (s : St)
    (hpres : h ∈ s.forge.teams)
    (hids : (s.forge.teams.map (fun t => t.id)).Nodup)
    (hslt : ∀ t ∈ s.forge.teams, t.id < s.forge.nextId) :
    PhasePost [h.id] s
      ([⟨⟨h.id, pid, nm, ds⟩, false⟩], (svcUpdateTeam ⟨h.id, pid, nm, ds⟩ s).2) := by
  refine ⟨⟨rfl, rfl, rfl, rfl⟩, le_refl _, ?_, ?_, ?_, ?_, ?_, ?_, ?_, ?_,
    ⟨[.updateTeam ⟨h.id, pid, nm, ds⟩], rfl, ?_⟩⟩
  · intro k hk
    rcases List.mem_singleton.mp hk with rfl
    exact Or.inl ⟨rfl, List.mem_singleton.mpr rfl⟩
  · exact List.nodup_singleton _
  · intro k hk
    rcases List.mem_singleton.mp hk with rfl
    exact List.mem_map.mpr ⟨h, hpres, by rw [if_pos rfl]⟩
  · intro x hx
    rcases List.mem_singleton.mp hx with rfl
    exact ⟨_, List.mem_singleton.mpr rfl, rfl⟩
  · intro t ht
    rcases List.mem_map.mp ht with ⟨u, hu, rfl⟩
    by_cases hcond : u.id = h.id
    · rw [if_pos hcond]
      exact Or.inl ⟨_, List.mem_singleton.mpr rfl, rfl⟩
    · rw [if_neg hcond]
      exact Or.inr ⟨hu, fun habs => hcond (List.mem_singleton.mp habs)⟩
  · intro t ht hnm
    have hne : ¬ t.id = h.id := fun habs => hnm (List.mem_singleton.mpr habs)
    exact List.mem_map.mpr ⟨t, ht, by rw [if_neg hne]⟩
  · show ((s.forge.teams.map fun u =>
      if u.id = (⟨h.id, pid, nm, ds⟩ : GitHubTeam).id then ⟨h.id, pid, nm, ds⟩ else u).map
        (fun t => t.id)).Nodup
    rw [List.map_map]
    have : ((fun t : GitHubTeam => t.id) ∘ fun u =>
        if u.id = (⟨h.id, pid, nm, ds⟩ : GitHubTeam).id then ⟨h.id, pid, nm, ds⟩ else u) =
        fun t : GitHubTeam => t.id := by
      funext u
      by_cases hcond : u.id = h.id
      · show (if u.id = h.id then (⟨h.id, pid, nm, ds⟩ : GitHubTeam) else u).id = u.id
        rw [if_pos hcond]
        exact hcond.symm
      · show (if u.id = h.id then (⟨h.id, pid, nm, ds⟩ : GitHubTeam) else u).id = u.id
        rw [if_neg hcond]
    rw [this]
    exact hids
  · intro t ht
    rcases List.mem_map.mp ht with ⟨u, hu, rfl⟩
    by_cases hcond : u.id = h.id
    · rw [if_pos hcond]
      exact hcond ▸ hslt u hu
    · rw [if_neg hcond]
      exact hslt u hu
  · intro op hop
    rcases List.mem_singleton.mp hop with rfl
    exact Or.inl ⟨_, rfl, List.mem_singleton.mpr rfl⟩

theorem phase_update_unmod (h : GitHubTeam) (pid : GitHubTeamID) (nm ds : String) (s : St)
    (heq : (⟨h.id, pid, nm, ds⟩ : GitHubTeam) = h)
    (hpres : h ∈ s.forge.teams)
    (hids : (s.forge.teams.map (fun t => t.id)).Nodup)
    (hslt : ∀ t ∈ s.forge.teams, t.id < s.forge.nextId) :
    PhasePost [h.id] s ([⟨⟨h.id, pid, nm, ds⟩, false⟩], s) := by
  refine ⟨⟨rfl, rfl, rfl, rfl⟩, le_refl _, ?_, ?_, ?_, ?_, ?_, ?_, hids, hslt,
    ⟨[], (List.append_nil _).symm, ?_⟩⟩
  · intro k hk
    rcases List.mem_singleton.mp hk with rfl
    exact Or.inl ⟨rfl, List.mem_singleton.mpr rfl⟩
  · exact List.nodup_singleton _
  · intro k hk
    rcases List.mem_singleton.mp hk with rfl
    show (⟨h.id, pid, nm, ds⟩ : GitHubTeam) ∈ s.forge.teams
    rw [heq]
    exact hpres
  · intro x hx
    rcases List.mem_singleton.mp hx with rfl
    exact ⟨_, List.mem_singleton.mpr rfl, rfl⟩
  · intro t ht
    by_cases hcond : t.id = h.id
    · refine Or.inl ⟨_, List.mem_singleton.mpr rfl, ?_⟩
      show (⟨h.id, pid, nm, ds⟩ : GitHubTeam) = t
      rw [heq]
      exact (nodup_key_inj (fun t => t.id) hids hpres ht hcond.symm)
    · exact Or.inr ⟨ht, fun habs => hcond (List.mem_singleton.mp habs)⟩
  · intro t ht _
    exact ht
  · intro op hop
    cases hop

theorem phase_create (pid : GitHubTeamID) (nm ds : String) (s : St)
    (hids : (s.forge.teams.map (fun t => t.id)).Nodup)
    (hslt : ∀ t ∈ s.forge.teams, t.id < s.forge.nextId) :
    PhasePost [] s
      ([⟨⟨s.forge.nextId, pid, nm, ds⟩, true⟩],
       { forge := { s.forge with
           teams := s.forge.teams ++ [⟨s.forge.nextId, pid, nm, ds⟩],
           nextId := s.forge.nextId + 1 },
         log := s.log ++ [.createTeam ⟨s.forge.nextId, pid, nm, ds⟩] }) := by
  refine ⟨⟨rfl, rfl, rfl, rfl⟩, le_of_lt (lt_add_one _), ?_, ?_, ?_, ?_, ?_, ?_, ?_, ?_,
    ⟨[.createTeam ⟨s.forge.nextId, pid, nm, ds⟩], rfl, ?_⟩⟩
  · intro k hk
    rcases List.mem_singleton.mp hk with rfl
    exact Or.inr ⟨rfl, le_refl _, lt_add_one _⟩
  · exact List.nodup_singleton _
  · intro k hk
    rcases List.mem_singleton.mp hk with rfl
    exact List.mem_append_right _ (List.mem_singleton.mpr rfl)
  · intro x hx
    cases hx
  · intro t ht
    rcases List.mem_append.mp ht with ht | ht
    · exact Or.inr ⟨ht, fun h => by cases h⟩
    · rcases List.mem_singleton.mp ht with rfl
      exact Or.inl ⟨_, List.mem_singleton.mpr rfl, rfl⟩
  · intro t ht _
    exact List.mem_append_left _ ht
  · rw [List.map_append, List.nodup_append]
    refine ⟨hids, List.nodup_singleton _, ?_⟩
    intro x hx1 hx2
    rcases List.mem_map.mp hx1 with ⟨u, hu, rfl⟩
    rcases List.mem_singleton.mp hx2 with he
    have he2 : u.id = s.forge.nextId := he
    exact absurd (he2 ▸ hslt u hu) (lt_irrefl _)
  · intro t ht
    rcases List.mem_append.mp ht with ht | ht
    · show t.id < s.forge.nextId + 1
      exact lt_trans (hslt t ht) (lt_add_one _)
    · rcases List.mem_singleton.mp ht with rfl
      show s.forge.nextId < s.forge.nextId + 1
      exact lt_add_one _
  · intro op hop
    rcases List.mem_singleton.mp hop with rfl
    exact Or.inr ⟨_, rfl, le_refl _, lt_add_one _⟩

mutual

theorem processTeam_post (have0 : List GitHubTeam) (parent : Option GitHubTeam) :
    ∀ (w : Team) (s : St),
      (s.forge.teams.map (fun t => t.id)).Nodup →
      (∀ t ∈ s.forge.teams, t.id < s.forge.nextId) →
      (∀ x ∈ matchedIdsTeam have0 w, x < s.forge.nextId) →
      (matchedIdsTeam have0 w).Nodup →
      (∀ g ∈ have0, g.id ∈ matchedIdsTeam have0 w → g ∈ s.forge.teams) →
      KeptShape (wantParentID parent) w (processTeam have0 parent w s).1 ∧
      PhasePost (matchedIdsTeam have0 w) s (processTeam have0 parent w s)
  | .mk n d p mt mb r cs, s, hids, hslt, hmlt, hmnd, hpres => by
    rcases hf : findGitHubTeamFromDesired have0 (.mk n d p mt mb r cs) with _ | h
    · have hmid : matchedIdsTeam have0 (.mk n d p mt mb r cs) =
          matchedIdsTeams have0 cs := by
        rw [matchedIdsTeam, hf]
        rfl
      have heq : processTeam have0 parent (.mk n d p mt mb r cs) s =
          (⟨⟨s.forge.nextId, wantParentID parent, n, d⟩, true⟩ ::
            (processTeams have0 (some ⟨s.forge.nextId, wantParentID parent, n, d⟩) cs
              { forge := { s.forge with
                  teams := s.forge.teams ++ [⟨s.forge.nextId, wantParentID parent, n, d⟩],
                  nextId := s.forge.nextId + 1 },
                log := s.log ++ [.createTeam ⟨s.forge.nextId, wantParentID parent, n, d⟩] }).1,
           (processTeams have0 (some ⟨s.forge.nextId, wantParentID parent, n, d⟩) cs
              { forge := { s.forge with
                  teams := s.forge.teams ++ [⟨s.forge.nextId, wantParentID parent, n, d⟩],
                  nextId := s.forge.nextId + 1 },
                log := s.log ++ [.createTeam ⟨s.forge.nextId, wantParentID parent, n, d⟩] }).2) := by
        rw [processTeam, hf]
        rfl
      have hpost1 := phase_create (wantParentID parent) n d s hids hslt
      have hchild := processTeams_post have0 (some ⟨s.forge.nextId, wantParentID parent, n, d⟩) cs
        { forge := { s.forge with
            teams := s.forge.teams ++ [⟨s.forge.nextId, wantParentID parent, n, d⟩],
            nextId := s.forge.nextId + 1 },
          log := s.log ++ [.createTeam ⟨s.forge.nextId, wantParentID parent, n, d⟩] }
        hpost1.ids_nodup hpost1.ids_lt
        (fun x hx => lt_of_lt_of_le (hmlt x (by rw [hmid]; exact hx)) hpost1.nextMono)
        (hmid ▸ hmnd)
        (fun g hg hgid => hpost1.teams_sup g (hpres g hg (by rw [hmid]; exact hgid))
          (List.not_mem_nil _))
      have hcomp := hpost1.comp hchild.2
        (fun x hx => absurd hx (List.not_mem_nil _))
        (fun x hx => absurd hx (List.not_mem_nil _))
        (fun x hx => hmlt x (by rw [hmid]; exact hx))
      constructor
      · rw [heq]
        exact ⟨_, _, rfl, rfl, rfl, rfl, hchild.1⟩
      · rw [heq, hmid]
        exact hcomp
    · have hmid : matchedIdsTeam have0 (.mk n d p mt mb r cs) =
          h.id :: matchedIdsTeams have0 cs := by
        rw [matchedIdsTeam, hf]
        rfl
      have hpresh : h ∈ s.forge.teams :=
        hpres h (find_mem hf) (by rw [hmid]; exact List.mem_cons_self _ _)
      obtain ⟨hnotin, hnd2⟩ := List.nodup_cons.mp (hmid ▸ hmnd)
      by_cases hmod : updModified parent h (.mk n d p mt mb r cs) = true
      · have heq : processTeam have0 parent (.mk n d p mt mb r cs) s =
            (⟨⟨h.id, wantParentID parent, n, d⟩, false⟩ ::
              (processTeams have0 (some ⟨h.id, wantParentID parent, n, d⟩) cs
                (svcUpdateTeam ⟨h.id, wantParentID parent, n, d⟩ s).2).1,
             (processTeams have0 (some ⟨h.id, wantParentID parent, n, d⟩) cs
                (svcUpdateTeam ⟨h.id, wantParentID parent, n, d⟩ s).2).2) := by
          rw [processTeam, hf]
          show ((⟨(updateTeam parent h (.mk n d p mt mb r cs) s).1, false⟩ :
              KeptGitHubTeam) ::
            (processTeams have0 (some (updateTeam parent h (.mk n d p mt mb r cs) s).1) cs
              (updateTeam parent h (.mk n d p mt mb r cs) s).2).1,
           (processTeams have0 (some (updateTeam parent h (.mk n d p mt mb r cs) s).1) cs
              (updateTeam parent h (.mk n d p mt mb r cs) s).2).2) = _
          rw [updateTeam_fst, updateTeam_snd_mod _ _ _ _ hmod]
          rfl
        have hpost1 := phase_update_mod h (wantParentID parent) n d s hpresh hids hslt
        have hchild := processTeams_post have0 (some ⟨h.id, wantParentID parent, n, d⟩) cs
          (svcUpdateTeam ⟨h.id, wantParentID parent, n, d⟩ s).2
          hpost1.ids_nodup hpost1.ids_lt
          (fun x hx => lt_of_lt_of_le (hmlt x (by rw [hmid]; exact List.mem_cons_of_mem _ hx))
            hpost1.nextMono)
          hnd2
          (fun g hg hgid => hpost1.teams_sup g
            (hpres g hg (by rw [hmid]; exact List.mem_cons_of_mem _ hgid))
            (fun habs => hnotin ((List.mem_singleton.mp habs) ▸ hgid)))
        have hcomp := hpost1.comp hchild.2
          (fun x hx1 hx2 => hnotin ((List.mem_singleton.mp hx1) ▸ hx2))
          (fun x hx => hmlt x (by
            rw [hmid, List.mem_singleton.mp hx]
            exact List.mem_cons_self _ _))
          (fun x hx => hmlt x (by rw [hmid]; exact List.mem_cons_of_mem _ hx))
        constructor
        · rw [heq]
          exact ⟨_, _, rfl, rfl, rfl, rfl, hchild.1⟩
        · rw [heq, hmid]
          exact hcomp
      · have hteam : (⟨h.id, wantParentID parent, n, d⟩ : GitHubTeam) = h := by
          have h1 : h.parentId = wantParentID parent := by
            by_contra hne
            exact hmod (by simp [updModified, hne])
          have h2 : h.description = d := by
            by_contra hne
            exact hmod (by simp [updModified, Team.description, hne])
          have h3 : h.name = n := by
            by_contra hne
            exact hmod (by simp [updModified, Team.name, hne])
          rw [← h1, ← h2, ← h3]
        have heq : processTeam have0 parent (.mk n d p mt mb r cs) s =
            (⟨⟨h.id, wantParentID parent, n, d⟩, false⟩ ::
              (processTeams have0 (some ⟨h.id, wantParentID parent, n, d⟩) cs s).1,
             (processTeams have0 (some ⟨h.id, wantParentID parent, n, d⟩) cs s).2) := by
          rw [processTeam, hf]
          show ((⟨(updateTeam parent h (.mk n d p mt mb r cs) s).1, false⟩ :
              KeptGitHubTeam) ::
            (processTeams have0 (some (updateTeam parent h (.mk n d p mt mb r cs) s).1) cs
              (updateTeam parent h (.mk n d p mt mb r cs) s).2).1,
           (processTeams have0 (some (updateTeam parent h (.mk n d p mt mb r cs) s).1) cs
              (updateTeam parent h (.mk n d p mt mb r cs) s).2).2) = _
          rw [updateTeam_fst, updateTeam_snd_unmod _ _ _ _ hmod]
          rfl
        have hpost1 := phase_update_unmod h (wantParentID parent) n d s hteam hpresh hids hslt
        have hchild := processTeams_post have0 (some ⟨h.id, wantParentID parent, n, d⟩) cs s
          hids hslt
          (fun x hx => hmlt x (by rw [hmid]; exact List.mem_cons_of_mem _ hx))
          hnd2
          (fun g hg hgid => hpres g hg (by rw [hmid]; exact List.mem_cons_of_mem _ hgid))
        have hcomp := hpost1.comp hchild.2
          (fun x hx1 hx2 => hnotin ((List.mem_singleton.mp hx1) ▸ hx2))
          (fun x hx => hmlt x (by
            rw [hmid, List.mem_singleton.mp hx]
            exact List.mem_cons_self _ _))
          (fun x hx => hmlt x (by rw [hmid]; exact List.mem_cons_of_mem _ hx))
        constructor
        · rw [heq]
          exact ⟨_, _, rfl, rfl, rfl, rfl, hchild.1⟩
        · rw [heq, hmid]
          exact hcomp

theorem processTeams_post (have0 : List GitHubTeam) (parent : Option GitHubTeam) :
    ∀ (ws : List Team) (s : St),
      (s.forge.teams.map (fun t => t.id)).Nodup →
      (∀ t ∈ s.forge.teams, t.id < s.forge.nextId) →
      (∀ x ∈ matchedIdsTeams have0 ws, x < s.forge.nextId) →
      (matchedIdsTeams have0 ws).Nodup →
      (∀ g ∈ have0, g.id ∈ matchedIdsTeams have0 ws → g ∈ s.forge.teams) →
      KeptShapes (wantParentID parent) ws (processTeams have0 parent ws s).1 ∧
      PhasePost (matchedIdsTeams have0 ws) s (processTeams have0 parent ws s)
  | [], s, hids, hslt, _, _, _ => ⟨rfl, phase_id s hids hslt⟩
  | w :: ws, s, hids, hslt, hmlt, hmnd, hpres => by
    obtain ⟨hnd1, hnd2, hdisj⟩ := List.nodup_append.mp
      (hmnd : (matchedIdsTeam have0 w ++ matchedIdsTeams have0 ws).Nodup)
    have hp1 := processTeam_post have0 parent w s hids hslt
      (fun x hx => hmlt x (List.mem_append_left _ hx))
      hnd1
      (fun g hg hgid => hpres g hg (List.mem_append_left _ hgid))
    have hp2 := processTeams_post have0 parent ws (processTeam have0 parent w s).2
      hp1.2.ids_nodup hp1.2.ids_lt
      (fun x hx => lt_of_lt_of_le (hmlt x (List.mem_append_right _ hx)) hp1.2.nextMono)
      hnd2
      (fun g hg hgid => hp1.2.teams_sup g (hpres g hg (List.mem_append_right _ hgid))
        (fun habs => hdisj habs hgid))
    have hcomp := hp1.2.comp hp2.2 (fun x hx1 hx2 => hdisj hx1 hx2)
      (fun x hx => hmlt x (List.mem_append_left _ hx))
      (fun x hx => hmlt x (List.mem_append_right _ hx))
    exact ⟨⟨_, _, rfl, hp1.1, hp2.1⟩, hcomp⟩

end

theorem deleteLoop_post (keptIDs : List GitHubTeamID) :
    ∀ (l : List GitHubTeam) (s : St),
      (l.foldl (fun acc t => if keptIDs.contains t.id then acc else svcDeleteTeam t.id acc)
          s).forge.mems = s.forge.mems ∧
      (l.foldl (fun acc t => if keptIDs.contains t.id then acc else svcDeleteTeam t.id acc)
          s).forge.admins = s.forge.admins ∧
      (l.foldl (fun acc t => if keptIDs.contains t.id then acc else svcDeleteTeam t.id acc)
          s).forge.users = s.forge.users ∧
      (l.foldl (fun acc t => if keptIDs.contains t.id then acc else svcDeleteTeam t.id acc)
          s).forge.teamRepos = s.forge.teamRepos ∧
      (l.foldl (fun acc t => if keptIDs.contains t.id then acc else svcDeleteTeam t.id acc)
          s).forge.nextId = s.forge.nextId ∧
      List.Sublist ((l.foldl (fun acc t => if keptIDs.contains t.id then acc
        else svcDeleteTeam t.id acc) s).forge.teams) s.forge.teams ∧
      (∀ t ∈ s.forge.teams, keptIDs.contains t.id = true →
        t ∈ (l.foldl (fun acc t => if keptIDs.contains t.id then acc
          else svcDeleteTeam t.id acc) s).forge.teams) ∧
      (∀ t ∈ (l.foldl (fun acc t => if keptIDs.contains t.id then acc
          else svcDeleteTeam t.id acc) s).forge.teams,
        ∀ x ∈ l, x.id = t.id → keptIDs.contains x.id = true) ∧
      (∃ newOps, (l.foldl (fun acc t => if keptIDs.contains t.id then acc
          else svcDeleteTeam t.id acc) s).log = s.log ++ newOps ∧
        ∀ op ∈ newOps, ∃ i, op = WriteOp.deleteTeam i ∧ keptIDs.contains i = false)
  | [], s => by
    refine ⟨rfl, rfl, rfl, rfl, rfl, List.Sublist.refl _, ?_, ?_, [], (List.append_nil _).symm, ?_⟩
    · intro t ht _
      exact ht
    · intro t _ x hx
      cases hx
    · intro op hop
      cases hop
  | x :: l, s => by
    rw [List.foldl_cons]
    by_cases hc : keptIDs.contains x.id = true
    · rw [if_pos hc]
      obtain ⟨h1, h2, h3, h4, h5, h6, h7, h8, h9⟩ := deleteLoop_post keptIDs l s
      refine ⟨h1, h2, h3, h4, h5, h6, h7, ?_, h9⟩
      intro t ht y hy hyt
      rcases List.mem_cons.mp hy with rfl | hy
      · exact hc
      · exact h8 t ht y hy hyt
    · rw [if_neg hc]
      obtain ⟨h1, h2, h3, h4, h5, h6, h7, h8, h9⟩ := deleteLoop_post keptIDs l (svcDeleteTeam x.id s)
      have hstep : (svcDeleteTeam x.id s).forge.teams =
          s.forge.teams.filter (fun u => ¬ u.id = x.id) := rfl
      refine ⟨h1, h2, h3, h4, h5, ?_, ?_, ?_, ?_⟩
      · exact h6.trans (hstep ▸ List.filter_sublist _)
      · intro t ht hkept
        refine h7 t ?_ hkept
        rw [hstep]
        refine List.mem_filter.mpr ⟨ht, ?_⟩
        simp only [decide_eq_true_eq]
        intro habs
        rw [habs] at hkept
        exact hc hkept
      · intro t ht y hy hyt
        rcases List.mem_cons.mp hy with rfl | hy
        · have hts : t ∈ (svcDeleteTeam y.id s).forge.teams := h6.subset ht
          rw [hstep] at hts
          have := (List.mem_filter.mp hts).2
          rw [decide_eq_true_eq] at this
          exact absurd hyt.symm this
        · exact h8 t ht y hy hyt
      · rcases h9 with ⟨ops, hlog, hops⟩
        refine ⟨.deleteTeam x.id :: ops, ?_, ?_⟩
        · rw [hlog]
          show (s.log ++ [.deleteTeam x.id]) ++ ops = s.log ++ (.deleteTeam x.id :: ops)
          rw [List.append_assoc]
          rfl
        · intro op hop
          rcases List.mem_cons.mp hop with rfl | hop
          · exact ⟨x.id, rfl, Bool.eq_false_iff.mpr hc⟩
          · exact hops op hop

/-- What one whole run of configureTeams (create/update walk followed by
the orphan-deletion sweep) establishes. -/
structure CTPost (org : Org) (forge : Forge) (out : List KeptGitHubTeam × St) : Prop where
  shape : KeptShapes 0 org.teams out.1
  frame : out.2.forge.mems = forge.mems ∧ out.2.forge.admins = forge.admins ∧
    out.2.forge.users = forge.users ∧ out.2.forge.teamRepos = forge.teamRepos
  kept_ids : ∀ k ∈ out.1,
    (k.created = false ∧ k.team.id ∈ matchedIdsTeams forge.teams org.teams) ∨
    (k.created = true ∧ forge.nextId ≤ k.team.id)
  kept_nodup : (out.1.map (fun k => k.team.id)).Nodup
  kept_covers : ∀ x ∈ matchedIdsTeams forge.teams org.teams, ∃ k ∈ out.1, k.team.id = x
  kept_mem : ∀ k ∈ out.1, k.team ∈ out.2.forge.teams
  teams_kept : ∀ t ∈ out.2.forge.teams, ∃ k ∈ out.1, k.team = t
  ids_nodup : (out.2.forge.teams.map (fun t => t.id)).Nodup
  log_kinds : ∀ op ∈ out.2.log,
    (∃ u, op = WriteOp.updateTeam u ∧ u.id ∈ matchedIdsTeams forge.teams org.teams) ∨
    (∃ u, op = WriteOp.createTeam u ∧ forge.nextId ≤ u.id) ∨
    (∃ i, op = WriteOp.deleteTeam i ∧ ∀ k ∈ out.1, ¬ k.team.id = i)

theorem configureTeams_post (org : Org) (forge : Forge)
    (hids : (forge.teams.map (fun t => t.id)).Nodup)
    (hlt : ∀ t ∈ forge.teams, t.id < forge.nextId)
    (hinj : (matchedIdsTeams forge.teams org.teams).Nodup) :
    CTPost org forge (configureTeams org forge.teams ⟨forge, []⟩) := by
  have hphase := processTeams_post forge.teams none org.teams ⟨forge, []⟩ hids hlt
    (matchedIds_lt hlt) hinj (fun g hg _ => hg)
  have heq : configureTeams org forge.teams ⟨forge, []⟩ =
      ((processTeams forge.teams none org.teams ⟨forge, []⟩).1,
       forge.teams.foldl
         (fun acc t =>
           if ((processTeams forge.teams none org.teams ⟨forge, []⟩).1.map
               (fun k => k.team.id)).contains t.id then acc
           else svcDeleteTeam t.id acc)
         (processTeams forge.teams none org.teams ⟨forge, []⟩).2) := rfl
  obtain ⟨d1, d2, d3, d4, d5, d6, d7, d8, d9⟩ := deleteLoop_post
    ((processTeams forge.teams none org.teams ⟨forge, []⟩).1.map (fun k => k.team.id))
    forge.teams (processTeams forge.teams none org.teams ⟨forge, []⟩).2
  rw [heq]
  refine ⟨hphase.1, ?_, ?_, hphase.2.kept_nodup, hphase.2.kept_covers, ?_, ?_, ?_, ?_⟩
  · exact ⟨d1.trans hphase.2.frame.1, d2.trans hphase.2.frame.2.1,
      d3.trans hphase.2.frame.2.2.1, d4.trans hphase.2.frame.2.2.2⟩
  · intro k hk
    rcases hphase.2.kept_ids k hk with ⟨hc, hm⟩ | ⟨hc, hlo, _⟩
    · exact Or.inl ⟨hc, hm⟩
    · exact Or.inr ⟨hc, hlo⟩
  · intro k hk
    refine d7 _ (hphase.2.kept_mem k hk) ?_
    exact List.elem_eq_true_of_mem (List.mem_map.mpr ⟨k, hk, rfl⟩)
  · intro t ht
    have hts : t ∈ (processTeams forge.teams none org.teams ⟨forge, []⟩).2.forge.teams :=
      d6.subset ht
    rcases hphase.2.teams_sub t hts with ⟨k, hk, hkt⟩ | ⟨horig, _⟩
    · exact ⟨k, hk, hkt⟩
    · have hcont := d8 t ht t horig rfl
      rcases List.mem_map.mp (List.mem_of_elem_eq_true hcont) with ⟨k, hk, hkid⟩
      refine ⟨k, hk, ?_⟩
      exact nodup_key_inj (fun t => t.id) hphase.2.ids_nodup
        (hphase.2.kept_mem k hk) hts hkid
  · exact (List.Sublist.map (fun t => t.id) d6).nodup hphase.2.ids_nodup
  · intro op hop
    rcases d9 with ⟨delOps, hdlog, hdops⟩
    rw [hdlog] at hop
    rcases hphase.2.log_ops with ⟨phOps, hplog, hpops⟩
    rw [hplog] at hop
    rcases List.mem_append.mp hop with hop | hop
    · rcases List.mem_append.mp hop with hop | hop
      · cases hop
      · rcases hpops op hop with ⟨u, rfl, hu⟩ | ⟨u, rfl, hlo, _⟩
        · exact Or.inl ⟨u, rfl, hu⟩
        · exact Or.inr (Or.inl ⟨u, rfl, hlo⟩)
    · rcases hdops op hop with ⟨i, rfl, hik⟩
      refine Or.inr (Or.inr ⟨i, rfl, ?_⟩)
      intro k hk habs
      have hmemk : i ∈ (processTeams forge.teams none org.teams ⟨forge, []⟩).1.map
          (fun k => k.team.id) := List.mem_map.mpr ⟨k, hk, habs⟩
      have hcontr : ((processTeams forge.teams none org.teams ⟨forge, []⟩).1.map
          (fun k => k.team.id)).contains i = true := List.elem_eq_true_of_mem hmemk
      exact absurd hcontr (ne_true_of_eq_false hik)

theorem mem_listTeamMembers {f : Forge} {id : GitHubTeamID} {role : GitHubTeamRole}
    {e : String} : e ∈ listTeamMembers f id role ↔ (id, role, e) ∈ f.mems := by
  unfold listTeamMembers
  rw [List.mem_map]
  constructor
  · rintro ⟨mrow, hm, rfl⟩
    obtain ⟨hmm, hp⟩ := List.mem_filter.mp hm
    rw [decide_eq_true_eq] at hp
    obtain ⟨h1, h2⟩ := hp
    rw [← h1, ← h2]
    exact hmm
  · intro hm
    refine ⟨(id, role, e), List.mem_filter.mpr ⟨hm, ?_⟩, rfl⟩
    rw [decide_eq_true_eq]
    exact ⟨rfl, rfl⟩

theorem setDiffSorted_mem {a b : List String} {e : String} :
    e ∈ setDiffSorted a b ↔ e ∈ a ∧ ¬ e ∈ b := by
  unfold setDiffSorted sortStrings
  rw [(List.perm_insertionSort strLeP _).mem_iff]
  rw [List.mem_filter, List.mem_dedup]
  constructor
  · rintro ⟨h1, h2⟩
    rw [decide_eq_true_eq] at h2
    exact ⟨h1, fun habs => h2 (List.elem_eq_true_of_mem habs)⟩
  · rintro ⟨h1, h2⟩
    refine ⟨h1, ?_⟩
    rw [decide_eq_true_eq]
    intro habs
    exact h2 (List.mem_of_elem_eq_true habs)

theorem addFold_post (id : GitHubTeamID) (role : GitHubTeamRole) :
    ∀ (l : List String) (s : St),
      (l.foldl (fun acc u => svcAddTeamMembership id u role acc) s).forge.mems =
        s.forge.mems ++ l.map (fun e => (id, role, e)) ∧
      (l.foldl (fun acc u => svcAddTeamMembership id u role acc) s).forge.teams =
        s.forge.teams ∧
      (l.foldl (fun acc u => svcAddTeamMembership id u role acc) s).forge.admins =
        s.forge.admins ∧
      (l.foldl (fun acc u => svcAddTeamMembership id u role acc) s).forge.users =
        s.forge.users ∧
      (l.foldl (fun acc u => svcAddTeamMembership id u role acc) s).forge.teamRepos =
        s.forge.teamRepos ∧
      (l.foldl (fun acc u => svcAddTeamMembership id u role acc) s).forge.nextId =
        s.forge.nextId ∧
      (l.foldl (fun acc u => svcAddTeamMembership id u role acc) s).log =
        s.log ++ l.map (fun e => WriteOp.addTeamMembership id e role)
  | [], s => ⟨(List.append_nil _).symm, rfl, rfl, rfl, rfl, rfl, (List.append_nil _).symm⟩
  | e :: l, s => by
    rw [List.foldl_cons]
    obtain ⟨h1, h2, h3, h4, h5, h6, h7⟩ :=
      addFold_post id role l (svcAddTeamMembership id e role s)
    refine ⟨?_, h2, h3, h4, h5, h6, ?_⟩
    · rw [h1]
      show (s.forge.mems ++ [(id, role, e)]) ++ _ = _
      rw [List.append_assoc]
      rfl
    · rw [h7]
      show (s.log ++ [WriteOp.addTeamMembership id e role]) ++ _ = _
      rw [List.append_assoc]
      rfl

theorem delFold_post (id : GitHubTeamID) (role : GitHubTeamRole) :
    ∀ (l : List String) (s : St),
      (∀ mrow, mrow ∈ (l.foldl (fun acc u => svcDeleteTeamMembership id u role acc)
          s).forge.mems ↔
        mrow ∈ s.forge.mems ∧ ∀ e ∈ l, ¬ (mrow.1 = id ∧ mrow.2.1 = role ∧ mrow.2.2 = e)) ∧
      (l.foldl (fun acc u => svcDeleteTeamMembership id u role acc) s).forge.teams =
        s.forge.teams ∧
      (l.foldl (fun acc u => svcDeleteTeamMembership id u role acc) s).forge.admins =
        s.forge.admins ∧
      (l.foldl (fun acc u => svcDeleteTeamMembership id u role acc) s).forge.users =
        s.forge.users ∧
      (l.foldl (fun acc u => svcDeleteTeamMembership id u role acc) s).forge.teamRepos =
        s.forge.teamRepos ∧
      (l.foldl (fun acc u => svcDeleteTeamMembership id u role acc) s).forge.nextId =
        s.forge.nextId ∧
      (∃ ops, (l.foldl (fun acc u => svcDeleteTeamMembership id u role acc) s).log =
          s.log ++ ops ∧
        ∀ op ∈ ops, ∃ e, op = WriteOp.deleteTeamMembership id e role)
  | [], s => by
    refine ⟨?_, rfl, rfl, rfl, rfl, rfl, [], (List.append_nil _).symm, ?_⟩
    · intro mrow
      constructor
      · intro hm
        exact ⟨hm, fun e he => by cases he⟩
      · exact fun h => h.1
    · intro op hop
      cases hop
  | e :: l, s => by
    rw [List.foldl_cons]
    obtain ⟨h1, h2, h3, h4, h5, h6, h7⟩ :=
      delFold_post id role l (svcDeleteTeamMembership id e role s)
    refine ⟨?_, h2, h3, h4, h5, h6, ?_⟩
    · intro mrow
      rw [h1 mrow]
      show mrow ∈ s.forge.mems.filter
          (fun mr => ¬ (mr.1 = id ∧ mr.2.1 = role ∧ mr.2.2 = e)) ∧ _ ↔ _
      rw [List.mem_filter]
      constructor
      · rintro ⟨⟨hm, hp⟩, hrest⟩
        rw [decide_eq_true_eq] at hp
        refine ⟨hm, ?_⟩
        intro e2 he2
        rcases List.mem_cons.mp he2 with rfl | he2
        · exact hp
        · exact hrest e2 he2
      · rintro ⟨hm, hall⟩
        refine ⟨⟨hm, ?_⟩, fun e2 he2 => hall e2 (List.mem_cons_of_mem _ he2)⟩
        rw [decide_eq_true_eq]
        exact hall e (List.mem_cons_self _ _)
    · rcases h7 with ⟨ops, hlog, hops⟩
      refine ⟨WriteOp.deleteTeamMembership id e role :: ops, ?_, ?_⟩
      · rw [hlog]
        show (s.log ++ [WriteOp.deleteTeamMembership id e role]) ++ ops = _
        rw [List.append_assoc]
        rfl
      · intro op hop
        rcases List.mem_cons.mp hop with rfl | hop
        · exact ⟨e, rfl⟩
        · exact hops op hop

theorem utm_post (t : GitHubTeam) (haveE wantE : List String) (role : GitHubTeamRole) (s : St)
    (hhave : ∀ e, e ∈ haveE ↔ (t.id, role, e) ∈ s.forge.mems) :
    (updateTeamMemberships t haveE wantE role s).forge.teams = s.forge.teams ∧
    (updateTeamMemberships t haveE wantE role s).forge.admins = s.forge.admins ∧
    (updateTeamMemberships t haveE wantE role s).forge.users = s.forge.users ∧
    (updateTeamMemberships t haveE wantE role s).forge.teamRepos = s.forge.teamRepos ∧
    (updateTeamMemberships t haveE wantE role s).forge.nextId = s.forge.nextId ∧
    (∀ e, (t.id, role, e) ∈ (updateTeamMemberships t haveE wantE role s).forge.mems ↔
      e ∈ wantE) ∧
    (∀ id2 role2 e, ¬ (id2 = t.id ∧ role2 = role) →
      ((id2, role2, e) ∈ (updateTeamMemberships t haveE wantE role s).forge.mems ↔
        (id2, role2, e) ∈ s.forge.mems)) ∧
    (∃ ops, (updateTeamMemberships t haveE wantE role s).log = s.log ++ ops ∧
      ∀ op ∈ ops, (∃ i e2 r2, op = WriteOp.addTeamMembership i e2 r2) ∨
        (∃ i e2 r2, op = WriteOp.deleteTeamMembership i e2 r2)) := by
  have heq : updateTeamMemberships t haveE wantE role s =
      (setDiffSorted haveE wantE).foldl (fun acc u => svcDeleteTeamMembership t.id u role acc)
        ((setDiffSorted wantE haveE).foldl
          (fun acc u => svcAddTeamMembership t.id u role acc) s) := rfl
  obtain ⟨a1, a2, a3, a4, a5, a6, a7⟩ := addFold_post t.id role (setDiffSorted wantE haveE) s
  obtain ⟨d1, d2, d3, d4, d5, d6, d7⟩ := delFold_post t.id role (setDiffSorted haveE wantE)
    ((setDiffSorted wantE haveE).foldl (fun acc u => svcAddTeamMembership t.id u role acc) s)
  rw [heq]
  refine ⟨d2.trans a2, d3.trans a3, d4.trans a4, d5.trans a5, d6.trans a6, ?_, ?_, ?_⟩
  · intro e
    rw [d1 (t.id, role, e), a1, List.mem_append]
    constructor
    · rintro ⟨hin | hin, hdel⟩
      · have he : e ∈ haveE := (hhave e).mpr hin
        by_contra hw
        exact hdel e (setDiffSorted_mem.mpr ⟨he, hw⟩) ⟨rfl, rfl, rfl⟩
      · rcases List.mem_map.mp hin with ⟨e2, he2, heq2⟩
        have he2e : e2 = e := congrArg (fun q => q.2.2) heq2
        subst he2e
        exact (setDiffSorted_mem.mp he2).1
    · intro hw
      refine ⟨?_, ?_⟩
      · by_cases hh : e ∈ haveE
        · exact Or.inl ((hhave e).mp hh)
        · exact Or.inr (List.mem_map.mpr ⟨e, setDiffSorted_mem.mpr ⟨hw, hh⟩, rfl⟩)
      · intro e2 he2 habs
        obtain ⟨_, _, he2e⟩ := habs
        have he2e2 : e = e2 := he2e
        rw [he2e2] at hw
        exact (setDiffSorted_mem.mp he2).2 hw
  · intro id2 role2 e hne
    rw [d1 (id2, role2, e), a1, List.mem_append]
    constructor
    · rintro ⟨hin | hin, _⟩
      · exact hin
      · rcases List.mem_map.mp hin with ⟨e2, _, heq2⟩
        exact absurd ⟨(congrArg (fun q => q.1) heq2).symm,
          (congrArg (fun q => q.2.1) heq2).symm⟩ hne
    · intro hin
      refine ⟨Or.inl hin, ?_⟩
      intro e2 he2 habs
      exact hne ⟨habs.1, habs.2.1⟩
  · rcases d7 with ⟨ops2, hlog2, hops2⟩
    refine ⟨(setDiffSorted wantE haveE).map
      (fun e => WriteOp.addTeamMembership t.id e role) ++ ops2, ?_, ?_⟩
    · rw [hlog2, a7, List.append_assoc]
    · intro op hop
      rcases List.mem_append.mp hop with hop | hop
      · rcases List.mem_map.mp hop with ⟨e, _, rfl⟩
        exact Or.inl ⟨t.id, e, role, rfl⟩
      · rcases hops2 op hop with ⟨e, rfl⟩
        exact Or.inr ⟨t.id, e, role, rfl⟩

theorem cmAux_post (m : List (String × Team)) :
    ∀ (kept : List KeptGitHubTeam) (s : St),
      (kept.map (fun k => k.team.id)).Nodup →
      (∀ k ∈ kept, ∃ w, mapLookup m k.team.name = some w) →
      (∀ k ∈ kept, k.created = true → ∀ (role : GitHubTeamRole) (e : String),
        ¬ (k.team.id, role, e) ∈ s.forge.mems) →
      (configureTeamMembershipsAux m kept s).1 = none ∧
      (configureTeamMembershipsAux m kept s).2.forge.teams = s.forge.teams ∧
      (configureTeamMembershipsAux m kept s).2.forge.admins = s.forge.admins ∧
      (configureTeamMembershipsAux m kept s).2.forge.users = s.forge.users ∧
      (configureTeamMembershipsAux m kept s).2.forge.teamRepos = s.forge.teamRepos ∧
      (configureTeamMembershipsAux m kept s).2.forge.nextId = s.forge.nextId ∧
      (∀ k ∈ kept, ∀ w, mapLookup m k.team.name = some w →
        (∀ e, (k.team.id, GitHubTeamRole.maintainer, e) ∈
            (configureTeamMembershipsAux m kept s).2.forge.mems ↔ e ∈ w.maintainers) ∧
        (∀ e, (k.team.id, GitHubTeamRole.member, e) ∈
            (configureTeamMembershipsAux m kept s).2.forge.mems ↔ e ∈ w.members)) ∧
      (∀ (id2 : GitHubTeamID) (role2 : GitHubTeamRole) (e : String),
        (∀ k ∈ kept, ¬ k.team.id = id2) →
        ((id2, role2, e) ∈ (configureTeamMembershipsAux m kept s).2.forge.mems ↔
          (id2, role2, e) ∈ s.forge.mems)) ∧
      (∃ ops, (configureTeamMembershipsAux m kept s).2.log = s.log ++ ops ∧
        ∀ op ∈ ops, (∃ i e2 r2, op = WriteOp.addTeamMembership i e2 r2) ∨
          (∃ i e2 r2, op = WriteOp.deleteTeamMembership i e2 r2))
  | [], s, _, _, _ => by
    refine ⟨rfl, rfl, rfl, rfl, rfl, rfl, ?_, ?_, [], (List.append_nil _).symm, ?_⟩
    · intro k hk
      cases hk
    · intro id2 role2 e _
      exact Iff.rfl
    · intro op hop
      cases hop
  | k :: ks, s, hnd, hlk, habsent => by
    obtain ⟨w, hw⟩ := hlk k (List.mem_cons_self _ _)
    obtain ⟨hknotin, hndks⟩ := List.nodup_cons.mp hnd
    have heq : configureTeamMembershipsAux m (k :: ks) s =
        configureTeamMembershipsAux m ks
          (updateTeamMemberships k.team
            (if k.created then [] else listTeamMembers s.forge k.team.id .member)
            w.members .member
            (updateTeamMemberships k.team
              (if k.created then [] else listTeamMembers s.forge k.team.id .maintainer)
              w.maintainers .maintainer s)) := by
      rw [configureTeamMembershipsAux, hw]
    have hhaveM : ∀ e,
        e ∈ (if k.created then [] else listTeamMembers s.forge k.team.id .maintainer) ↔
        (k.team.id, GitHubTeamRole.maintainer, e) ∈ s.forge.mems := by
      intro e
      by_cases hc : k.created = true
      · rw [if_pos hc]
        exact ⟨fun h => absurd h (List.not_mem_nil _),
          fun h => absurd h (habsent k (List.mem_cons_self _ _) hc .maintainer e)⟩
      · rw [if_neg hc]
        exact mem_listTeamMembers
    obtain ⟨u1, u2, u3, u4, u5, usettled1, uother1, ulog1⟩ :=
      utm_post k.team (if k.created then [] else listTeamMembers s.forge k.team.id .maintainer)
        w.maintainers .maintainer s hhaveM
    have hhaveMb : ∀ e,
        e ∈ (if k.created then [] else listTeamMembers s.forge k.team.id .member) ↔
        (k.team.id, GitHubTeamRole.member, e) ∈
          (updateTeamMemberships k.team
            (if k.created then [] else listTeamMembers s.forge k.team.id .maintainer)
            w.maintainers .maintainer s).forge.mems := by
      intro e
      rw [uother1 k.team.id .member e (fun hx => by cases hx.2)]
      by_cases hc : k.created = true
      · rw [if_pos hc]
        exact ⟨fun h => absurd h (List.not_mem_nil _),
          fun h => absurd h (habsent k (List.mem_cons_self _ _) hc .member e)⟩
      · rw [if_neg hc]
        exact mem_listTeamMembers
    obtain ⟨v1, v2, v3, v4, v5, vsettled2, vother2, vlog2⟩ :=
      utm_post k.team (if k.created then [] else listTeamMembers s.forge k.team.id .member)
        w.members .member
        (updateTeamMemberships k.team
          (if k.created then [] else listTeamMembers s.forge k.team.id .maintainer)
          w.maintainers .maintainer s) hhaveMb
    have hne_head : ∀ k2 ∈ ks, ¬ k2.team.id = k.team.id := by
      intro k2 hk2 habs
      apply hknotin
      show k.team.id ∈ List.map (fun k3 => k3.team.id) ks
      rw [← habs]
      exact List.mem_map.mpr ⟨k2, hk2, rfl⟩
    obtain ⟨i1, i2, i3, i4, i5, i6, isettled, iother, ilog⟩ := cmAux_post m ks
      (updateTeamMemberships k.team
        (if k.created then [] else listTeamMembers s.forge k.team.id .member)
        w.members .member
        (updateTeamMemberships k.team
          (if k.created then [] else listTeamMembers s.forge k.team.id .maintainer)
          w.maintainers .maintainer s))
      hndks
      (fun k2 hk2 => hlk k2 (List.mem_cons_of_mem _ hk2))
      (by
        intro k2 hk2 hc role e habs
        rw [vother2 k2.team.id role e (fun hx => hne_head k2 hk2 hx.1)] at habs
        rw [uother1 k2.team.id role e (fun hx => hne_head k2 hk2 hx.1)] at habs
        exact habsent k2 (List.mem_cons_of_mem _ hk2) hc role e habs)
    rw [heq]
    refine ⟨i1, i2.trans (v1.trans u1), i3.trans (v2.trans u2), i4.trans (v3.trans u3),
      i5.trans (v4.trans u4), i6.trans (v5.trans u5), ?_, ?_, ?_⟩
    · intro k2 hk2 w2 hw2
      rcases List.mem_cons.mp hk2 with rfl | hk2
      · have hww : w2 = w := by
          rw [hw] at hw2
          exact (Option.some.inj hw2).symm
        subst hww
        constructor
        · intro e
          rw [iother k2.team.id .maintainer e hne_head]
          rw [vother2 k2.team.id .maintainer e (fun hx => by cases hx.2)]
          exact usettled1 e
        · intro e
          rw [iother k2.team.id .member e hne_head]
          exact vsettled2 e
      · exact isettled k2 hk2 w2 hw2
    · intro id2 role2 e hall
      rw [iother id2 role2 e (fun k2 hk2 => hall k2 (List.mem_cons_of_mem _ hk2))]
      rw [vother2 id2 role2 e (fun hx => hall k (List.mem_cons_self _ _) (hx.1 ▸ rfl))]
      exact uother1 id2 role2 e (fun hx => hall k (List.mem_cons_self _ _) (hx.1 ▸ rfl))
    · rcases ulog1 with ⟨ops1, hl1, ho1⟩
      rcases vlog2 with ⟨ops2, hl2, ho2⟩
      rcases ilog with ⟨ops3, hl3, ho3⟩
      refine ⟨ops1 ++ ops2 ++ ops3, ?_, ?_⟩
      · rw [hl3, hl2, hl1, List.append_assoc, List.append_assoc, List.append_assoc]
      · intro op hop
        rcases List.mem_append.mp hop with hop | hop
        · rcases List.mem_append.mp hop with hop | hop
          · exact ho1 op hop
          · exact ho2 op hop
        · exact ho3 op hop

theorem runRulesAux_acc_ne (org : Org) :
    ∀ (rules : List (Org → RuleRes)) (acc : List RErr),
      ¬ acc = [] → ¬ runRulesAux org rules acc = .ok
  | [], acc, hne => by
    rw [runRulesAux]
    rw [if_neg (by
      intro habs
      exact hne (List.isEmpty_iff.mp habs))]
    intro habs
    cases habs
  | r :: rs, acc, hne => by
    rw [runRulesAux]
    rcases hr : r org with _ | e | msg
    · exact runRulesAux_acc_ne org rs acc hne
    · exact runRulesAux_acc_ne org rs (acc ++ [e]) (by
        intro habs
        cases List.append_eq_nil.mp habs with
        | intro h1 h2 => cases h2)
    · intro habs
      cases habs

theorem runRules_ok_each (org : Org) :
    ∀ (rules : List (Org → RuleRes)) (acc : List RErr),
      runRulesAux org rules acc = .ok → ∀ r ∈ rules, r org = .ok
  | [], _, _, r, hr => by cases hr
  | r0 :: rs, acc, hok, r, hr => by
    rw [runRulesAux] at hok
    rcases hr0 : r0 org with _ | e | msg <;> rw [hr0] at hok
    · rcases List.mem_cons.mp hr with rfl | hr
      · exact hr0
      · exact runRules_ok_each org rs acc hok r hr
    · exact absurd hok (runRulesAux_acc_ne org rs (acc ++ [e]) (by
        intro habs
        cases List.append_eq_nil.mp habs with
        | intro h1 h2 => cases h2))
    · cases hok

/-- One step of the duplicate-name scan. -/
def tnuStep (acc : List String × List String) (n : String) : List String × List String :=
  if acc.1.contains n then (acc.1, acc.2 ++ [n]) else (acc.1 ++ [n], acc.2)

mutual

theorem tnuTeam_eq : ∀ (t : Team) (acc : List String × List String),
    tnuTeam acc t = ((flattenTeam t).map Team.name).foldl tnuStep acc
  | .mk n d p mt mb r cs, acc => by
    rw [tnuTeam, flattenTeam, List.map_cons, List.foldl_cons]
    rw [tnuTeams_eq cs]
    rfl

theorem tnuTeams_eq : ∀ (ts : List Team) (acc : List String × List String),
    tnuTeams acc ts = ((flattenTeams ts).map Team.name).foldl tnuStep acc
  | [], acc => rfl
  | t :: ts, acc => by
    rw [tnuTeams, flattenTeams_cons, List.map_append, List.foldl_append]
    rw [tnuTeam_eq t, tnuTeams_eq ts]

end

theorem tnuStep_eq_pos (acc : List String × List String) (n : String)
    (hc : acc.1.contains n = true) : tnuStep acc n = (acc.1, acc.2 ++ [n]) := by
  unfold tnuStep
  rw [if_pos hc]

theorem tnuStep_eq_neg (acc : List String × List String) (n : String)
    (hc : ¬ acc.1.contains n = true) : tnuStep acc n = (acc.1 ++ [n], acc.2) := by
  unfold tnuStep
  rw [if_neg hc]

theorem tnuFold_mono : ∀ (l : List String) (acc : List String × List String),
    ∃ extra, (l.foldl tnuStep acc).2 = acc.2 ++ extra
  | [], acc => ⟨[], (List.append_nil _).symm⟩
  | n :: l, acc => by
    rw [List.foldl_cons]
    by_cases hc : acc.1.contains n = true
    · rw [tnuStep_eq_pos acc n hc]
      rcases tnuFold_mono l (acc.1, acc.2 ++ [n]) with ⟨extra, he⟩
      refine ⟨n :: extra, ?_⟩
      rw [he]
      show (acc.2 ++ [n]) ++ extra = acc.2 ++ n :: extra
      rw [List.append_assoc]
      rfl
    · rw [tnuStep_eq_neg acc n hc]
      rcases tnuFold_mono l (acc.1 ++ [n], acc.2) with ⟨extra, he⟩
      exact ⟨extra, he⟩

theorem tnuFold_nodup : ∀ (l : List String) (seen : List String),
    ((l.foldl tnuStep (seen, [])).2 = [] → l.Nodup ∧ ∀ n ∈ l, ¬ n ∈ seen)
  | [], seen => fun _ => ⟨List.nodup_nil, fun n hn => by cases hn⟩
  | n :: l, seen => by
    intro hz
    rw [List.foldl_cons] at hz
    by_cases hc : seen.contains n = true
    · rw [tnuStep_eq_pos (seen, []) n hc] at hz
      rcases tnuFold_mono l ((seen, ([] : List String)).1,
        (seen, ([] : List String)).2 ++ [n]) with ⟨extra, he⟩
      rw [hz] at he
      cases List.append_eq_nil.mp he.symm with
      | intro h1 h2 =>
        cases List.append_eq_nil.mp h1 with
        | intro h3 h4 => cases h4
    · rw [tnuStep_eq_neg (seen, []) n hc] at hz
      obtain ⟨hnd, hnotin⟩ := tnuFold_nodup l (seen ++ [n]) hz
      refine ⟨List.nodup_cons.mpr ⟨?_, hnd⟩, ?_⟩
      · intro habs
        exact hnotin n habs (List.mem_append_right _ (List.mem_singleton.mpr rfl))
      · intro x hx
        rcases List.mem_cons.mp hx with rfl | hx
        · intro habs
          exact hc (List.elem_eq_true_of_mem habs)
        · intro habs
          exact hnotin x hx (List.mem_append_left _ habs)

theorem teamNamesUnique_ok_nodup (org : Org)
    (hok : teamNamesUniqueRule org = .ok) :
    ((flattenTeams org.teams).map Team.name).Nodup := by
  unfold teamNamesUniqueRule at hok
  by_cases hv : (tnuTeams ([], []) org.teams).2.isEmpty = true
  · have hnil : (tnuTeams ([], []) org.teams).2 = [] := List.isEmpty_iff.mp hv
    rw [tnuTeams_eq] at hnil
    exact (tnuFold_nodup _ [] hnil).1
  · rw [if_neg hv] at hok
    cases hok

theorem find?_eq_some_unique {α : Type} (p : α → Bool) : ∀ {l : List α} {g : α},
    g ∈ l → p g = true → (∀ u ∈ l, p u = true → u = g) → l.find? p = some g
  | [], g, hg, _, _ => by cases hg
  | x :: l, g, hg, hp, hall => by
    by_cases hx : p x = true
    · rw [List.find?_cons_of_pos _ hx]
      rw [hall x (List.mem_cons_self _ _) hx]
    · rw [List.find?_cons_of_neg _ hx]
      rcases List.mem_cons.mp hg with rfl | hg2
      · exact absurd hp hx
      · exact find?_eq_some_unique p hg2 hp
          (fun u hu hpu => hall u (List.mem_cons_of_mem _ hu) hpu)

theorem find_rename {teams : List GitHubTeam} {t : Team} {oldName : String} {g : GitHubTeam}
    (hprev : t.previously = [oldName])
    (hno : ∀ u ∈ teams, ¬ u.name = t.name)
    (hg : g ∈ teams) (hgname : g.name = oldName)
    (huniq : ∀ u ∈ teams, u.name = oldName → u = g) :
    findGitHubTeamFromDesired teams t = some g := by
  show findByNames teams (t.name :: t.previously) = some g
  rw [hprev]
  have h1 : teams.find? (fun u => u.name = t.name) = none := by
    rw [List.find?_eq_none]
    intro u hu
    rw [decide_eq_true_eq]
    exact hno u hu
  have h2 : teams.find? (fun u => u.name = oldName) = some g :=
    find?_eq_some_unique _ hg (by rw [decide_eq_true_eq]; exact hgname)
      (fun u hu hpu => huniq u hu (by rw [decide_eq_true_eq] at hpu; exact hpu))
  rw [findByNames, h1]
  show findByNames teams [oldName] = some g
  rw [findByNames, h2]

theorem nodup_filterMap_eq {α β : Type} (f : α → Option β) : ∀ {l : List α},
    (l.filterMap f).Nodup →
    ∀ {a b : α} {x : β}, a ∈ l → b ∈ l → f a = some x → f b = some x → a = b
  | [], _, _, _, _, ha, _, _, _ => by cases ha
  | c :: l, hnd, a, b, x, ha, hb, hfa, hfb => by
    rcases hfc : f c with _ | y
    · have hnd2 : (l.filterMap f).Nodup := by
        rw [List.filterMap_cons, hfc] at hnd
        exact hnd
      rcases List.mem_cons.mp ha with rfl | ha2
      · rw [hfa] at hfc
        cases hfc
      · rcases List.mem_cons.mp hb with rfl | hb2
        · rw [hfb] at hfc
          cases hfc
        · exact nodup_filterMap_eq f hnd2 ha2 hb2 hfa hfb
    · have hhd : (l.filterMap f).Nodup ∧ ¬ y ∈ l.filterMap f := by
        rw [List.filterMap_cons, hfc] at hnd
        obtain ⟨h1, h2⟩ := List.nodup_cons.mp hnd
        exact ⟨h2, h1⟩
      rcases List.mem_cons.mp ha with rfl | ha2 <;> rcases List.mem_cons.mp hb with rfl | hb2
      · rfl
      · have hyx : y = x := by
          rw [hfa] at hfc
          exact (Option.some.inj hfc).symm
        subst hyx
        exact absurd (List.mem_filterMap.mpr ⟨b, hb2, hfb⟩) hhd.2
      · have hyx : y = x := by
          rw [hfb] at hfc
          exact (Option.some.inj hfc).symm
        subst hyx
        exact absurd (List.mem_filterMap.mpr ⟨a, ha2, hfa⟩) hhd.2
      · exact nodup_filterMap_eq f hhd.1 ha2 hb2 hfa hfb

mutual

theorem processTeam_find_kept (have0 : List GitHubTeam) :
    ∀ (w0 : Team) (parent : Option GitHubTeam) (s : St) (w : Team) (g : GitHubTeam),
      w ∈ flattenTeam w0 → findGitHubTeamFromDesired have0 w = some g →
      ∃ k ∈ (processTeam have0 parent w0 s).1,
        k.team.id = g.id ∧ k.team.name = w.name ∧ k.created = false
  | .mk n d p mt mb r cs, parent, s, w, g, hw, hfind => by
    rcases hf : findGitHubTeamFromDesired have0 (.mk n d p mt mb r cs) with _ | h
    · have hw2 : w = .mk n d p mt mb r cs ∨ w ∈ flattenTeams cs := by
        rw [flattenTeam_eq] at hw
        exact List.mem_cons.mp hw
      rcases hw2 with rfl | hw2
      · rw [hf] at hfind
        cases hfind
      · have heq : (processTeam have0 parent (.mk n d p mt mb r cs) s).1 =
            ⟨(createTeam parent (.mk n d p mt mb r cs) s).1, true⟩ ::
              (processTeams have0 (some (createTeam parent (.mk n d p mt mb r cs) s).1) cs
                (createTeam parent (.mk n d p mt mb r cs) s).2).1 := by
          rw [processTeam, hf]
        rw [heq]
        rcases processTeams_find_kept have0 cs
          (some (createTeam parent (.mk n d p mt mb r cs) s).1)
          (createTeam parent (.mk n d p mt mb r cs) s).2 w g hw2 hfind with ⟨k, hk, hkp⟩
        exact ⟨k, List.mem_cons_of_mem _ hk, hkp⟩
    · have hw2 : w = .mk n d p mt mb r cs ∨ w ∈ flattenTeams cs := by
        rw [flattenTeam_eq] at hw
        exact List.mem_cons.mp hw
      have heq : (processTeam have0 parent (.mk n d p mt mb r cs) s).1 =
          ⟨(updateTeam parent h (.mk n d p mt mb r cs) s).1, false⟩ ::
            (processTeams have0 (some (updateTeam parent h (.mk n d p mt mb r cs) s).1) cs
              (updateTeam parent h (.mk n d p mt mb r cs) s).2).1 := by
        rw [processTeam, hf]
      rw [heq]
      rcases hw2 with rfl | hw2
      · rw [hf] at hfind
        cases hfind
        refine ⟨_, List.mem_cons_self _ _, ?_, ?_, rfl⟩
        · rw [updateTeam_fst]
        · rw [updateTeam_fst]
      · rcases processTeams_find_kept have0 cs
          (some (updateTeam parent h (.mk n d p mt mb r cs) s).1)
          (updateTeam parent h (.mk n d p mt mb r cs) s).2 w g hw2 hfind with ⟨k, hk, hkp⟩
        exact ⟨k, List.mem_cons_of_mem _ hk, hkp⟩

theorem processTeams_find_kept (have0 : List GitHubTeam) :
    ∀ (ws : List Team) (parent : Option GitHubTeam) (s : St) (w : Team) (g : GitHubTeam),
      w ∈ flattenTeams ws → findGitHubTeamFromDesired have0 w = some g →
      ∃ k ∈ (processTeams have0 parent ws s).1,
        k.team.id = g.id ∧ k.team.name = w.name ∧ k.created = false
  | [], parent, s, w, g, hw, _ => by cases hw
  | w0 :: ws, parent, s, w, g, hw, hfind => by
    have heq : (processTeams have0 parent (w0 :: ws) s).1 =
        (processTeam have0 parent w0 s).1 ++
          (processTeams have0 parent ws (processTeam have0 parent w0 s).2).1 := rfl
    rw [heq]
    rcases List.mem_append.mp (by rw [flattenTeams_cons] at hw; exact hw) with hw2 | hw2
    · rcases processTeam_find_kept have0 w0 parent s w g hw2 hfind with ⟨k, hk, hkp⟩
      exact ⟨k, List.mem_append_left _ hk, hkp⟩
    · rcases processTeams_find_kept have0 ws parent (processTeam have0 parent w0 s).2 w g
        hw2 hfind with ⟨k, hk, hkp⟩
      exact ⟨k, List.mem_append_right _ hk, hkp⟩

end

/-- Is this write an update-team call for the team with id X? -/
def isUpdX (X : GitHubTeamID) : WriteOp → Bool
  | .updateTeam u => u.id = X
  | _ => false

theorem filter_append_none {p : WriteOp → Bool} {l1 l2 : List WriteOp}
    (h : ∀ op ∈ l2, p op = false) : (l1 ++ l2).filter p = l1.filter p := by
  rw [List.filter_append]
  have : l2.filter p = [] := by
    rw [List.filter_eq_nil]
    intro a ha
    rw [h a ha]
    intro habs
    cases habs
  rw [this, List.append_nil]

mutual

theorem processTeam_updX (have0 : List GitHubTeam) (X : GitHubTeamID) :
    ∀ (w : Team) (parent : Option GitHubTeam) (s : St),
      (∀ w2 ∈ flattenTeam w, ∀ g, findGitHubTeamFromDesired have0 w2 = some g →
        g.id = X → ¬ g.name = w2.name) →
      ((processTeam have0 parent w s).2.log.filter (isUpdX X)).length =
        (s.log.filter (isUpdX X)).length + (matchedIdsTeam have0 w).count X
  | .mk n d p mt mb r cs, parent, s, hname => by
    have hnamecs : ∀ w2 ∈ flattenTeams cs, ∀ g, findGitHubTeamFromDesired have0 w2 = some g →
        g.id = X → ¬ g.name = w2.name := by
      intro w2 hw2 g hg hgid
      refine hname w2 ?_ g hg hgid
      rw [flattenTeam_eq]
      exact List.mem_cons_of_mem _ hw2
    rcases hf : findGitHubTeamFromDesired have0 (.mk n d p mt mb r cs) with _ | h
    · have hmid : matchedIdsTeam have0 (.mk n d p mt mb r cs) =
          matchedIdsTeams have0 cs := by
        rw [matchedIdsTeam, hf]
        rfl
      have heq : (processTeam have0 parent (.mk n d p mt mb r cs) s).2 =
          (processTeams have0 (some (createTeam parent (.mk n d p mt mb r cs) s).1) cs
            (createTeam parent (.mk n d p mt mb r cs) s).2).2 := by
        rw [processTeam, hf]
      rw [heq, hmid]
      rw [processTeams_updX have0 X cs _ _ hnamecs]
      have hclog : (createTeam parent (.mk n d p mt mb r cs) s).2.log =
          s.log ++ [.createTeam ⟨s.forge.nextId, wantParentID parent, n, d⟩] := rfl
      rw [hclog, filter_append_none (by
        intro op hop
        rcases List.mem_singleton.mp hop with rfl
        rfl)]
    · have hmid : matchedIdsTeam have0 (.mk n d p mt mb r cs) =
          h.id :: matchedIdsTeams have0 cs := by
        rw [matchedIdsTeam, hf]
        rfl
      by_cases hmod : updModified parent h (.mk n d p mt mb r cs) = true
      · have heq : (processTeam have0 parent (.mk n d p mt mb r cs) s).2 =
            (processTeams have0 (some ⟨h.id, wantParentID parent, n, d⟩) cs
              (svcUpdateTeam ⟨h.id, wantParentID parent, n, d⟩ s).2).2 := by
          rw [processTeam, hf]
          show ((processTeams have0 (some (updateTeam parent h (.mk n d p mt mb r cs) s).1) cs
            (updateTeam parent h (.mk n d p mt mb r cs) s).2).2 : St) = _
          rw [updateTeam_fst, updateTeam_snd_mod _ _ _ _ hmod]
          rfl
        rw [heq, hmid]
        rw [processTeams_updX have0 X cs _ _ hnamecs]
        have hulog : (svcUpdateTeam (⟨h.id, wantParentID parent, n, d⟩ : GitHubTeam) s).2.log =
            s.log ++ [.updateTeam ⟨h.id, wantParentID parent, n, d⟩] := rfl
        rw [hulog, List.filter_append, List.length_append, List.count_cons]
        have : (List.filter (isUpdX X) [.updateTeam ⟨h.id, wantParentID parent, n, d⟩]).length =
            if h.id = X then 1 else 0 := by
          by_cases hx : h.id = X
          · rw [if_pos hx]
            show (List.filter (isUpdX X) [.updateTeam ⟨h.id, wantParentID parent, n, d⟩]).length = 1
            rw [List.filter_cons_of_pos]
            · rfl
            · show isUpdX X (.updateTeam ⟨h.id, wantParentID parent, n, d⟩) = true
              show decide ((⟨h.id, wantParentID parent, n, d⟩ : GitHubTeam).id = X) = true
              rw [decide_eq_true_eq]
              exact hx
          · rw [if_neg hx]
            rw [List.filter_cons_of_neg]
            · rfl
            · show ¬ isUpdX X (.updateTeam ⟨h.id, wantParentID parent, n, d⟩) = true
              show ¬ decide ((⟨h.id, wantParentID parent, n, d⟩ : GitHubTeam).id = X) = true
              rw [decide_eq_true_eq]
              exact hx
        rw [this]
        have hconv : (if (h.id == X) = true then 1 else 0 : Nat) =
            if h.id = X then 1 else 0 := by
          by_cases hx : h.id = X
          · rw [if_pos hx, if_pos (by rw [beq_iff_eq]; exact hx)]
          · rw [if_neg hx, if_neg (by
              intro habs
              rw [beq_iff_eq] at habs
              exact hx habs)]
        rw [hconv]
        omega
      · have hne : ¬ h.id = X := by
          intro habs
          have := hname (.mk n d p mt mb r cs) (self_mem_flattenTeam _) h hf habs
          apply hmod
          unfold updModified
          have : decide (¬ h.name = (Team.mk n d p mt mb r cs).name) = true := by
            rw [decide_eq_true_eq]
            exact this
          rw [this]
          rw [Bool.or_true]
        have heq : (processTeam have0 parent (.mk n d p mt mb r cs) s).2 =
            (processTeams have0 (some ⟨h.id, wantParentID parent, n, d⟩) cs s).2 := by
          rw [processTeam, hf]
          show ((processTeams have0 (some (updateTeam parent h (.mk n d p mt mb r cs) s).1) cs
            (updateTeam parent h (.mk n d p mt mb r cs) s).2).2 : St) = _
          rw [updateTeam_fst, updateTeam_snd_unmod _ _ _ _ hmod]
          rfl
        rw [heq, hmid]
        rw [processTeams_updX have0 X cs _ _ hnamecs]
        rw [List.count_cons]
        rw [if_neg (by
          intro habs
          rw [beq_iff_eq] at habs
          exact hne habs)]
        omega

theorem processTeams_updX (have0 : List GitHubTeam) (X : GitHubTeamID) :
    ∀ (ws : List Team) (parent : Option GitHubTeam) (s : St),
      (∀ w2 ∈ flattenTeams ws, ∀ g, findGitHubTeamFromDesired have0 w2 = some g →
        g.id = X → ¬ g.name = w2.name) →
      ((processTeams have0 parent ws s).2.log.filter (isUpdX X)).length =
        (s.log.filter (isUpdX X)).length + (matchedIdsTeams have0 ws).count X
  | [], parent, s, _ => by
    rw [show matchedIdsTeams have0 [] = [] from rfl]
    rfl
  | w :: ws, parent, s, hname => by
    have heq : (processTeams have0 parent (w :: ws) s).2 =
        (processTeams have0 parent ws (processTeam have0 parent w s).2).2 := rfl
    rw [heq]
    rw [processTeams_updX have0 X ws _ _ (fun w2 hw2 => hname w2
      (by rw [flattenTeams_cons]; exact List.mem_append_right _ hw2))]
    rw [processTeam_updX have0 X w parent s (fun w2 hw2 => hname w2
      (by rw [flattenTeams_cons]; exact List.mem_append_left _ hw2))]
    rw [show matchedIdsTeams have0 (w :: ws) =
      matchedIdsTeam have0 w ++ matchedIdsTeams have0 ws from rfl]
    rw [List.count_append]
    omega

end

theorem applyOrg_ok_proj (cp : CompilePat) (forge : Forge) (org : Org)
    (hok : ruleEngineRun cp forge org = .ok)
    (hnone : (configureTeamMemberships
        (promoteAdmins (configureTeams org forge.teams ⟨forge, []⟩).2.forge.admins org)
        (configureTeams org forge.teams ⟨forge, []⟩).1
        (configureTeams org forge.teams ⟨forge, []⟩).2).1 = none) :
    (applyOrg cp forge org).2.1 =
      (configureTeamMemberships
        (promoteAdmins (configureTeams org forge.teams ⟨forge, []⟩).2.forge.admins org)
        (configureTeams org forge.teams ⟨forge, []⟩).1
        (configureTeams org forge.teams ⟨forge, []⟩).2).2.forge ∧
    (applyOrg cp forge org).2.2 =
      (configureTeamMemberships
        (promoteAdmins (configureTeams org forge.teams ⟨forge, []⟩).2.forge.admins org)
        (configureTeams org forge.teams ⟨forge, []⟩).1
        (configureTeams org forge.teams ⟨forge, []⟩).2).2.log ∧
    (∃ res, (applyOrg cp forge org).1 = .ok res) := by
  rcases hm : configureTeamMemberships
      (promoteAdmins (configureTeams org forge.teams ⟨forge, []⟩).2.forge.admins org)
      (configureTeams org forge.teams ⟨forge, []⟩).1
      (configureTeams org forge.teams ⟨forge, []⟩).2 with ⟨err, s3⟩
  rw [hm] at hnone
  dsimp only at hnone
  subst hnone
  unfold applyOrg
  rw [hok]
  dsimp only
  rw [hm]
  exact ⟨rfl, rfl, _, rfl⟩

theorem configureTeams_updX (org : Org) (forge : Forge) (X : GitHubTeamID)
    (hname : ∀ w2 ∈ flattenTeams org.teams, ∀ g,
      findGitHubTeamFromDesired forge.teams w2 = some g → g.id = X → ¬ g.name = w2.name) :
    ((configureTeams org forge.teams ⟨forge, []⟩).2.log.filter (isUpdX X)).length =
      (matchedIdsTeams forge.teams org.teams).count X := by
  have heq : (configureTeams org forge.teams ⟨forge, []⟩).2 =
      forge.teams.foldl
        (fun acc t =>
          if ((processTeams forge.teams none org.teams ⟨forge, []⟩).1.map
              (fun k => k.team.id)).contains t.id then acc
          else svcDeleteTeam t.id acc)
        (processTeams forge.teams none org.teams ⟨forge, []⟩).2 := rfl
  obtain ⟨_, _, _, _, _, _, _, _, d9⟩ := deleteLoop_post
    ((processTeams forge.teams none org.teams ⟨forge, []⟩).1.map (fun k => k.team.id))
    forge.teams (processTeams forge.teams none org.teams ⟨forge, []⟩).2
  rcases d9 with ⟨delOps, hdlog, hdops⟩
  rw [heq, hdlog]
  rw [filter_append_none (by
    intro op hop
    rcases hdops op hop with ⟨i, rfl, _⟩
    rfl)]
  have hcnt := processTeams_updX forge.teams X org.teams none ⟨forge, []⟩ hname
  rw [hcnt]
  simp

/-- C2 (amended): for a well-formed observed forge (distinct team ids,
ids and membership rows below the fresh-id counter) whose matching against
the desired tree is injective, a desired team t with previously =
[oldName], an observed team g named oldName with id X, uniquely so, and no
observed team named t.name: the matcher matches t to g (name first, then
previous names, first hit wins), the apply issues exactly one update-team
call for id X, never deletes team X, never creates a team with id X, and
the final forge still holds team X, now named t.name. -/
theorem rename_preserves_identity_amended (cp : CompilePat) (forge : Forge) (org : Org)
    (hok : ruleEngineRun cp forge org = .ok)
    (hids : (forge.teams.map (fun u => u.id)).Nodup)
    (hlt : ∀ u ∈ forge.teams, u.id < forge.nextId)
    (hmems : ∀ mrow ∈ forge.mems, mrow.1 < forge.nextId)
    (hinj : (matchedIdsTeams forge.teams org.teams).Nodup)
    (t : Team) (ht : t ∈ flattenTeams org.teams)
    (oldName : String) (hprev : t.previously = [oldName])
    (X : GitHubTeamID) (g : GitHubTeam) (hg : g ∈ forge.teams)
    (hgname : g.name = oldName) (hgid : g.id = X)
    (hno : ∀ u ∈ forge.teams, ¬ u.name = t.name)
    (huniq : ∀ u ∈ forge.teams, u.name = oldName → u = g) :
    findGitHubTeamFromDesired forge.teams t = some g ∧
    ((applyOrg cp forge org).2.2.filter (isUpdX X)).length = 1 ∧
    (∀ op ∈ (applyOrg cp forge org).2.2, ¬ op = WriteOp.deleteTeam X) ∧
    (∀ u, WriteOp.createTeam u ∈ (applyOrg cp forge org).2.2 → ¬ u.id = X) ∧
    (∃ k ∈ (applyOrg cp forge org).2.1.teams, k.id = X ∧ k.name = t.name) := by
  have hfind : findGitHubTeamFromDesired forge.teams t = some g :=
    find_rename hprev hno hg hgname huniq
  have hXmem : X ∈ matchedIdsTeams forge.teams org.teams := by
    rw [← hgid]
    exact matchedIds_of_find ht hfind
  have hname : ∀ w2 ∈ flattenTeams org.teams, ∀ g2,
      findGitHubTeamFromDesired forge.teams w2 = some g2 → g2.id = X →
      ¬ g2.name = w2.name := by
    intro w2 hw2 g2 hf2 hid2
    have hg2g : g2 = g := nodup_key_inj (fun u => u.id) hids (find_mem hf2) hg
      (by
        show g2.id = g.id
        rw [hid2, hgid])
    subst hg2g
    have hw2t : w2 = t := by
      have hmeq := matchedIdsTeams_eq forge.teams org.teams
      rw [hmeq] at hinj
      refine @nodup_filterMap_eq Team GitHubTeamID (matchedIdOf forge.teams)
        (flattenTeams org.teams) hinj w2 t X hw2 ht ?_ ?_
      · rw [matchedIdOf, hf2]
        exact congrArg some hid2
      · rw [matchedIdOf, hfind]
        exact congrArg some hgid
    subst hw2t
    rw [hgname]
    intro habs
    exact hno g2 hg (hgname.trans habs)
  have hcount : (matchedIdsTeams forge.teams org.teams).count X = 1 := by
    have hle := List.nodup_iff_count_le_one.mp hinj X
    have hpos : 0 < (matchedIdsTeams forge.teams org.teams).count X :=
      List.count_pos_iff_mem.mpr hXmem
    omega
  have hCT := configureTeams_post org forge hids hlt hinj
  obtain ⟨kt, hkt, hktid, hktname, hktcreated⟩ := processTeams_find_kept forge.teams org.teams
    none ⟨forge, []⟩ t g ht hfind
  have hktmem : kt ∈ (configureTeams org forge.teams ⟨forge, []⟩).1 := hkt
  have hlk : ∀ k ∈ (configureTeams org forge.teams ⟨forge, []⟩).1,
      ∃ w, mapLookup (teamsByName (promoteAdmins
        (configureTeams org forge.teams ⟨forge, []⟩).2.forge.admins org).teams)
        k.team.name = some w := by
    intro k hk
    have := configureTeams_kept_lookup cp forge org
      (configureTeams org forge.teams ⟨forge, []⟩).2.forge.admins k hk
    exact Option.isSome_iff_exists.mp this
  have habsent : ∀ k ∈ (configureTeams org forge.teams ⟨forge, []⟩).1, k.created = true →
      ∀ (role : GitHubTeamRole) (e : String),
        ¬ (k.team.id, role, e) ∈ (configureTeams org forge.teams ⟨forge, []⟩).2.forge.mems := by
    intro k hk hc role e habs
    rw [hCT.frame.1] at habs
    have h1 := hmems _ habs
    rcases hCT.kept_ids k hk with ⟨hcf, _⟩ | ⟨_, hge⟩
    · rw [hc] at hcf
      cases hcf
    · exact absurd h1 (not_lt.mpr hge)
  obtain ⟨A1, A2, A3, A4, A5, A6, Asettled, Aother, Alog⟩ := cmAux_post
    (teamsByName (promoteAdmins
      (configureTeams org forge.teams ⟨forge, []⟩).2.forge.admins org).teams)
    (configureTeams org forge.teams ⟨forge, []⟩).1
    (configureTeams org forge.teams ⟨forge, []⟩).2
    hCT.kept_nodup hlk habsent
  obtain ⟨hforge_eq, hlog_eq, hres⟩ := applyOrg_ok_proj cp forge org hok A1
  rcases Alog with ⟨memOps, hmlog, hmops⟩
  refine ⟨hfind, ?_, ?_, ?_, ?_⟩
  · rw [hlog_eq]
    unfold configureTeamMemberships
    rw [hmlog]
    rw [filter_append_none (by
      intro op hop
      rcases hmops op hop with ⟨i, e2, r2, rfl⟩ | ⟨i, e2, r2, rfl⟩ <;> rfl)]
    rw [configureTeams_updX org forge X hname, hcount]
  · intro op hop habs
    subst habs
    rw [hlog_eq] at hop
    unfold configureTeamMemberships at hop
    rw [hmlog] at hop
    rcases List.mem_append.mp hop with hop | hop
    · rcases hCT.log_kinds _ hop with ⟨u, hu, _⟩ | ⟨u, hu, _⟩ | ⟨i, hi, hik⟩
      · cases hu
      · cases hu
      · have hiX : i = X := by
          cases hi
          rfl
        subst hiX
        exact hik kt hktmem (by rw [hktid, hgid])
    · rcases hmops _ hop with ⟨i, e2, r2, hu⟩ | ⟨i, e2, r2, hu⟩ <;> cases hu
  · intro u hop habs
    rw [hlog_eq] at hop
    unfold configureTeamMemberships at hop
    rw [hmlog] at hop
    rcases List.mem_append.mp hop with hop | hop
    · rcases hCT.log_kinds _ hop with ⟨u2, hu, _⟩ | ⟨u2, hu, hge⟩ | ⟨i, hi, _⟩
      · cases hu
      · have huu : u2 = u := by
          cases hu
          rfl
        subst huu
        rw [habs, ← hgid] at hge
        exact absurd (hlt g hg) (not_lt.mpr hge)
      · cases hi
    · rcases hmops _ hop with ⟨i, e2, r2, hu⟩ | ⟨i, e2, r2, hu⟩ <;> cases hu
  · refine ⟨kt.team, ?_, by rw [hktid, hgid], hktname⟩
    rw [hforge_eq]
    have hteams : (configureTeamMembershipsAux
        (teamsByName (promoteAdmins
          (configureTeams org forge.teams ⟨forge, []⟩).2.forge.admins org).teams)
        (configureTeams org forge.teams ⟨forge, []⟩).1
        (configureTeams org forge.teams ⟨forge, []⟩).2).2.forge.teams =
        (configureTeams org forge.teams ⟨forge, []⟩).2.forge.teams := A2
    show kt.team ∈ (configureTeamMembershipsAux
        (teamsByName (promoteAdmins
          (configureTeams org forge.teams ⟨forge, []⟩).2.forge.admins org).teams)
        (configureTeams org forge.teams ⟨forge, []⟩).1
        (configureTeams org forge.teams ⟨forge, []⟩).2).2.forge.teams
    rw [hteams]
    exact hCT.kept_mem kt hktmem

/-- A desired team renaming a to a2. -/
def c2wT : Team := .mk "a2" "" ["a"] [] [] [] []

/-- The witness org for the amended rename property. -/
def c2wOrg : Org := { name := "o", teams := [c2wT] }

/-- The observed team named a with id 101. -/
def c2wG : GitHubTeam := { id := 101, parentId := 0, name := "a", description := "" }

/-- The witness forge for the amended rename property. -/
def c2wForge : Forge :=
  { teams := [c2wG], mems := [], admins := [], users := [], teamRepos := [], nextId := 102 }

/-- C2 witness: renaming a to a2 against a forge holding only team a with
id 101 issues exactly one update for id 101 and preserves the identity. -/
theorem rename_preserves_identity_witness :
    findGitHubTeamFromDesired c2wForge.teams c2wT = some c2wG ∧
    ((applyOrg cpAll c2wForge c2wOrg).2.2.filter (isUpdX 101)).length = 1 ∧
    (∀ op ∈ (applyOrg cpAll c2wForge c2wOrg).2.2, ¬ op = WriteOp.deleteTeam 101) ∧
    (∀ u, WriteOp.createTeam u ∈ (applyOrg cpAll c2wForge c2wOrg).2.2 → ¬ u.id = 101) ∧
    (∃ k ∈ (applyOrg cpAll c2wForge c2wOrg).2.1.teams, k.id = 101 ∧ k.name = c2wT.name) :=
  rename_preserves_identity_amended cpAll c2wForge c2wOrg (by decide) (by decide) (by decide)
    (by decide) (by decide) c2wT (by decide) "a" rfl 101 c2wG (by decide) rfl rfl
    (by decide) (by decide)

mutual

/-- The forge already realises this desired team under the given parent
id: some observed team carries its name, description and parent, and its
children are realised under that team's id. -/
def Settled (ts1 : List GitHubTeam) (pid : GitHubTeamID) : Team → Prop
  | .mk n d _ _ _ _ cs => ∃ k, k ∈ ts1 ∧ k.name = n ∧ k.description = d ∧
      k.parentId = pid ∧ SettledL ts1 k.id cs

def SettledL (ts1 : List GitHubTeam) (pid : GitHubTeamID) : List Team → Prop
  | [] => True
  | w :: ws => Settled ts1 pid w ∧ SettledL ts1 pid ws

end

mutual

theorem settled_of_keptShape (ts1 : List GitHubTeam) (pid : GitHubTeamID) :
    ∀ (w : Team) (ks : List KeptGitHubTeam), KeptShape pid w ks →
      (∀ k ∈ ks, k.team ∈ ts1) → Settled ts1 pid w
  | .mk n d p mt mb r cs, ks, h, hmem => by
    obtain ⟨k, ks2, rfl, hn, hd, hp, hsh⟩ := h
    exact ⟨k.team, hmem k (List.mem_cons_self _ _), hn, hd, hp,
      settledL_of_keptShapes ts1 k.team.id cs ks2 hsh
        (fun k2 hk2 => hmem k2 (List.mem_cons_of_mem _ hk2))⟩

theorem settledL_of_keptShapes (ts1 : List GitHubTeam) (pid : GitHubTeamID) :
    ∀ (ws : List Team) (ks : List KeptGitHubTeam), KeptShapes pid ws ks →
      (∀ k ∈ ks, k.team ∈ ts1) → SettledL ts1 pid ws
  | [], ks, _, _ => trivial
  | w :: ws, ks, h, hmem => by
    obtain ⟨ks1, ks2, rfl, h1, h2⟩ := h
    exact ⟨settled_of_keptShape ts1 pid w ks1 h1
        (fun k hk => hmem k (List.mem_append_left _ hk)),
      settledL_of_keptShapes ts1 pid ws ks2 h2
        (fun k hk => hmem k (List.mem_append_right _ hk))⟩

end

mutual

theorem keptShape_names (pid : GitHubTeamID) :
    ∀ (w : Team) (ks : List KeptGitHubTeam), KeptShape pid w ks →
      ks.map (fun k => k.team.name) = (flattenTeam w).map Team.name
  | .mk n d p mt mb r cs, ks, h => by
    obtain ⟨k, ks2, rfl, hn, _, _, hsh⟩ := h
    rw [flattenTeam_eq, List.map_cons, List.map_cons]
    rw [keptShapes_names _ cs ks2 hsh]
    rw [hn]
    rfl

theorem keptShapes_names (pid : GitHubTeamID) :
    ∀ (ws : List Team) (ks : List KeptGitHubTeam), KeptShapes pid ws ks →
      ks.map (fun k => k.team.name) = (flattenTeams ws).map Team.name
  | [], ks, h => by
    rw [h]
    rfl
  | w :: ws, ks, h => by
    obtain ⟨ks1, ks2, rfl, h1, h2⟩ := h
    rw [flattenTeams_cons, List.map_append, List.map_append]
    rw [keptShape_names _ w ks1 h1, keptShapes_names _ ws ks2 h2]

end

theorem find_by_name {ts1 : List GitHubTeam} {w : Team} {k : GitHubTeam}
    (hk : k ∈ ts1) (hkn : k.name = w.name)
    (hinj1 : ∀ a ∈ ts1, ∀ b ∈ ts1, a.name = b.name → a = b) :
    findGitHubTeamFromDesired ts1 w = some k := by
  show findByNames ts1 (w.name :: w.previously) = some k
  have h2 : ts1.find? (fun u => u.name = w.name) = some k :=
    find?_eq_some_unique _ hk (by rw [decide_eq_true_eq]; exact hkn)
      (fun u hu hpu => hinj1 u hu k hk (by
        rw [decide_eq_true_eq] at hpu
        rw [hpu, hkn]))
  rw [findByNames, h2]

theorem setDiffSorted_nil {a b : List String} (h : ∀ e ∈ a, e ∈ b) :
    setDiffSorted a b = [] := by
  rw [List.eq_nil_iff_forall_not_mem]
  intro e he
  rw [setDiffSorted_mem] at he
  exact he.2 (h e he.1)

theorem utm_noop (t : GitHubTeam) (haveE wantE : List String) (role : GitHubTeamRole)
    (s : St) (h1 : ∀ e ∈ wantE, e ∈ haveE) (h2 : ∀ e ∈ haveE, e ∈ wantE) :
    updateTeamMemberships t haveE wantE role s = s := by
  unfold updateTeamMemberships
  rw [setDiffSorted_nil h1, setDiffSorted_nil h2]
  rfl

theorem deleteLoop_id (keptIDs : List GitHubTeamID) :
    ∀ (l : List GitHubTeam) (s : St), (∀ t ∈ l, keptIDs.contains t.id = true) →
      l.foldl (fun acc t => if keptIDs.contains t.id then acc else svcDeleteTeam t.id acc)
        s = s
  | [], s, _ => rfl
  | x :: l, s, h => by
    rw [List.foldl_cons, if_pos (h x (List.mem_cons_self _ _))]
    exact deleteLoop_id keptIDs l s (fun t ht => h t (List.mem_cons_of_mem _ ht))

theorem runRulesAux_ok_of_each (org : Org) :
    ∀ (rules : List (Org → RuleRes)), (∀ r ∈ rules, r org = .ok) →
      runRulesAux org rules [] = .ok
  | [], _ => rfl
  | r :: rs, h => by
    rw [runRulesAux, h r (List.mem_cons_self _ _)]
    exact runRulesAux_ok_of_each org rs (fun r2 hr2 => h r2 (List.mem_cons_of_mem _ hr2))

mutual

theorem processTeam_noop (ts1 : List GitHubTeam)
    (hinj1 : ∀ a ∈ ts1, ∀ b ∈ ts1, a.name = b.name → a = b) :
    ∀ (w : Team) (parent : Option GitHubTeam) (s : St), s.forge.teams = ts1 →
      Settled ts1 (wantParentID parent) w →
      (processTeam ts1 parent w s).2 = s ∧
      (∀ k ∈ (processTeam ts1 parent w s).1, k.created = false ∧ k.team ∈ ts1)
  | .mk n d p mt mb r cs, parent, s, hts, hset => by
    obtain ⟨k, hk, hkn, hkd, hkp, hsl⟩ := hset
    have hfind : findGitHubTeamFromDesired ts1 (.mk n d p mt mb r cs) = some k :=
      find_by_name hk hkn hinj1
    have hmod : ¬ updModified parent k (.mk n d p mt mb r cs) = true := by
      unfold updModified
      intro habs
      rw [Bool.or_eq_true, Bool.or_eq_true] at habs
      rcases habs with (habs | habs) | habs
      · rw [decide_eq_true_eq] at habs
        exact habs hkp
      · rw [decide_eq_true_eq] at habs
        exact habs hkd
      · rw [decide_eq_true_eq] at habs
        exact habs hkn
    have ht1 : (updateTeam parent k (.mk n d p mt mb r cs) s).1 = k := by
      rw [updateTeam_fst]
      rw [show (Team.mk n d p mt mb r cs).name = n from rfl,
        show (Team.mk n d p mt mb r cs).description = d from rfl]
      rw [← hkp, ← hkn, ← hkd]
    have heq : processTeam ts1 parent (.mk n d p mt mb r cs) s =
        (⟨k, false⟩ :: (processTeams ts1 (some k) cs s).1,
         (processTeams ts1 (some k) cs s).2) := by
      rw [processTeam, hfind]
      show ((⟨(updateTeam parent k (.mk n d p mt mb r cs) s).1, false⟩ : KeptGitHubTeam) ::
        (processTeams ts1 (some (updateTeam parent k (.mk n d p mt mb r cs) s).1) cs
          (updateTeam parent k (.mk n d p mt mb r cs) s).2).1,
       (processTeams ts1 (some (updateTeam parent k (.mk n d p mt mb r cs) s).1) cs
          (updateTeam parent k (.mk n d p mt mb r cs) s).2).2) = _
      rw [ht1, updateTeam_snd_unmod _ _ _ _ hmod]
    have hchild := processTeams_noop ts1 hinj1 cs (some k) s hts hsl
    rw [heq]
    refine ⟨hchild.1, ?_⟩
    intro k2 hk2
    rcases List.mem_cons.mp hk2 with rfl | hk2
    · exact ⟨rfl, hk⟩
    · exact hchild.2 k2 hk2

theorem processTeams_noop (ts1 : List GitHubTeam)
    (hinj1 : ∀ a ∈ ts1, ∀ b ∈ ts1, a.name = b.name → a = b) :
    ∀ (ws : List Team) (parent : Option GitHubTeam) (s : St), s.forge.teams = ts1 →
      SettledL ts1 (wantParentID parent) ws →
      (processTeams ts1 parent ws s).2 = s ∧
      (∀ k ∈ (processTeams ts1 parent ws s).1, k.created = false ∧ k.team ∈ ts1)
  | [], parent, s, _, _ => ⟨rfl, fun k hk => by cases hk⟩
  | w :: ws, parent, s, hts, hset => by
    obtain ⟨h1, h2⟩ := hset
    have hp1 := processTeam_noop ts1 hinj1 w parent s hts h1
    have hp2 := processTeams_noop ts1 hinj1 ws parent (processTeam ts1 parent w s).2
      (by rw [hp1.1]; exact hts) h2
    have heq : processTeams ts1 parent (w :: ws) s =
        ((processTeam ts1 parent w s).1 ++
          (processTeams ts1 parent ws (processTeam ts1 parent w s).2).1,
         (processTeams ts1 parent ws (processTeam ts1 parent w s).2).2) := rfl
    rw [heq]
    refine ⟨hp2.1.trans hp1.1, ?_⟩
    intro k hk
    rcases List.mem_append.mp hk with hk | hk
    · exact hp1.2 k hk
    · exact hp2.2 k hk

end

theorem cmAux_noop (m : List (String × Team)) :
    ∀ (kept : List KeptGitHubTeam) (s : St),
      (∀ k ∈ kept, k.created = false) →
      (∀ k ∈ kept, ∃ w1, mapLookup m k.team.name = some w1 ∧
        (∀ e, e ∈ w1.maintainers ↔
          (k.team.id, GitHubTeamRole.maintainer, e) ∈ s.forge.mems) ∧
        (∀ e, e ∈ w1.members ↔ (k.team.id, GitHubTeamRole.member, e) ∈ s.forge.mems)) →
      configureTeamMembershipsAux m kept s = (none, s)
  | [], s, _, _ => rfl
  | k :: ks, s, hcf, hrow => by
    obtain ⟨w1, hw1, hmaint, hmemb⟩ := hrow k (List.mem_cons_self _ _)
    have hcreated : k.created = false := hcf k (List.mem_cons_self _ _)
    have hM : (if k.created then [] else listTeamMembers s.forge k.team.id .maintainer) =
        listTeamMembers s.forge k.team.id .maintainer := by
      rw [hcreated]
      rfl
    have hMb : (if k.created then [] else listTeamMembers s.forge k.team.id .member) =
        listTeamMembers s.forge k.team.id .member := by
      rw [hcreated]
      rfl
    have hnoop1 : updateTeamMemberships k.team
        (if k.created then [] else listTeamMembers s.forge k.team.id .maintainer)
        w1.maintainers .maintainer s = s := by
      rw [hM]
      refine utm_noop _ _ _ _ _ ?_ ?_
      · intro e he
        rw [mem_listTeamMembers]
        exact (hmaint e).mp he
      · intro e he
        rw [mem_listTeamMembers] at he
        exact (hmaint e).mpr he
    have hnoop2 : updateTeamMemberships k.team
        (if k.created then [] else listTeamMembers s.forge k.team.id .member)
        w1.members .member s = s := by
      rw [hMb]
      refine utm_noop _ _ _ _ _ ?_ ?_
      · intro e he
        rw [mem_listTeamMembers]
        exact (hmemb e).mp he
      · intro e he
        rw [mem_listTeamMembers] at he
        exact (hmemb e).mpr he
    have heq : configureTeamMembershipsAux m (k :: ks) s =
        configureTeamMembershipsAux m ks s := by
      rw [configureTeamMembershipsAux, hw1]
      show configureTeamMembershipsAux m ks
        (updateTeamMemberships k.team
          (if k.created then [] else listTeamMembers s.forge k.team.id .member)
          w1.members .member
          (updateTeamMemberships k.team
            (if k.created then [] else listTeamMembers s.forge k.team.id .maintainer)
            w1.maintainers .maintainer s)) = configureTeamMembershipsAux m ks s
      rw [hnoop1, hnoop2]
    rw [heq]
    exact cmAux_noop m ks s (fun k2 hk2 => hcf k2 (List.mem_cons_of_mem _ hk2))
      (fun k2 hk2 => hrow k2 (List.mem_cons_of_mem _ hk2))

theorem configureTeams_noop (org : Org) (f1 : Forge)
    (hinj1 : ∀ a ∈ f1.teams, ∀ b ∈ f1.teams, a.name = b.name → a = b)
    (hsl : SettledL f1.teams 0 org.teams)
    (hcov : ∀ tt ∈ f1.teams, ∃ w ∈ flattenTeams org.teams, w.name = tt.name) :
    (configureTeams org f1.teams ⟨f1, []⟩).2 = ⟨f1, []⟩ ∧
    (∀ k ∈ (configureTeams org f1.teams ⟨f1, []⟩).1,
      k.created = false ∧ k.team ∈ f1.teams) := by
  have hph := processTeams_noop f1.teams hinj1 org.teams none ⟨f1, []⟩ rfl hsl
  have hcover : ∀ tt ∈ f1.teams,
      ((processTeams f1.teams none org.teams ⟨f1, []⟩).1.map
        (fun k => k.team.id)).contains tt.id = true := by
    intro tt htt
    obtain ⟨w, hw, hwn⟩ := hcov tt htt
    have hfindw : findGitHubTeamFromDesired f1.teams w = some tt :=
      find_by_name htt hwn.symm hinj1
    obtain ⟨k2, hk2, hid, _, _⟩ := processTeams_find_kept f1.teams org.teams none
      ⟨f1, []⟩ w tt hw hfindw
    exact List.elem_eq_true_of_mem (List.mem_map.mpr ⟨k2, hk2, hid⟩)
  have heq : (configureTeams org f1.teams ⟨f1, []⟩).2 =
      f1.teams.foldl
        (fun acc t =>
          if ((processTeams f1.teams none org.teams ⟨f1, []⟩).1.map
              (fun k => k.team.id)).contains t.id then acc
          else svcDeleteTeam t.id acc)
        (processTeams f1.teams none org.teams ⟨f1, []⟩).2 := rfl
  constructor
  · rw [heq, deleteLoop_id _ _ _ hcover]
    exact hph.1
  · exact hph.2

theorem activeTeamDeletions_ok (org : Org) (f1 : Forge)
    (hmatched : ∀ tt ∈ f1.teams, tt.id ∈ matchedIdsTeams f1.teams org.teams) :
    activeTeamDeletionsRule f1 org = .ok := by
  unfold activeTeamDeletionsRule
  dsimp only
  have hrem : f1.teams.filter
      (fun t => ¬ (matchedIdsTeams f1.teams org.teams).contains t.id) = [] := by
    rw [List.filter_eq_nil]
    intro t ht habs
    rw [decide_eq_true_eq] at habs
    exact habs (List.elem_eq_true_of_mem (hmatched t ht))
  rw [hrem]
  rfl

theorem engine_ok_forge1 (cp : CompilePat) (forge f1 : Forge) (org : Org)
    (hok : ruleEngineRun cp forge org = .ok)
    (husers : f1.users = forge.users)
    (hatd : activeTeamDeletionsRule f1 org = .ok) :
    ruleEngineRun cp f1 org = .ok := by
  have heach := runRules_ok_each org (orgRules cp forge) [] hok
  refine runRulesAux_ok_of_each org (orgRules cp f1) ?_
  intro r hr
  have hr6 : r = unknownUsersRule f1.users ∨ r = teamNamesUniqueRule ∨
      r = usersUniqueWithinTeamRule ∨ r = teamNameLengthRule maxTeamNameLength ∨
      r = activeTeamDeletionsRule f1 ∨ r = crossOrgMembershipsRule cp := by
    unfold orgRules at hr
    rcases List.mem_cons.mp hr with rfl | hr
    · exact Or.inl rfl
    rcases List.mem_cons.mp hr with rfl | hr
    · exact Or.inr (Or.inl rfl)
    rcases List.mem_cons.mp hr with rfl | hr
    · exact Or.inr (Or.inr (Or.inl rfl))
    rcases List.mem_cons.mp hr with rfl | hr
    · exact Or.inr (Or.inr (Or.inr (Or.inl rfl)))
    rcases List.mem_cons.mp hr with rfl | hr
    · exact Or.inr (Or.inr (Or.inr (Or.inr (Or.inl rfl))))
    rcases List.mem_cons.mp hr with rfl | hr
    · exact Or.inr (Or.inr (Or.inr (Or.inr (Or.inr rfl))))
    · cases hr
  rcases hr6 with rfl | rfl | rfl | rfl | rfl | rfl
  · rw [husers]
    exact heach _ (by unfold orgRules; exact List.mem_cons_self _ _)
  · exact heach _ (by
      unfold orgRules
      exact List.mem_cons_of_mem _ (List.mem_cons_self _ _))
  · exact heach _ (by
      unfold orgRules
      exact List.mem_cons_of_mem _ (List.mem_cons_of_mem _ (List.mem_cons_self _ _)))
  · exact heach _ (by
      unfold orgRules
      exact List.mem_cons_of_mem _ (List.mem_cons_of_mem _
        (List.mem_cons_of_mem _ (List.mem_cons_self _ _))))
  · exact hatd
  · exact heach _ (by
      unfold orgRules
      exact List.mem_cons_of_mem _ (List.mem_cons_of_mem _ (List.mem_cons_of_mem _
        (List.mem_cons_of_mem _ (List.mem_cons_of_mem _ (List.mem_cons_self _ _))))))

/-- C1 (amended): for every org accepted by the rule engine against a
well-formed forge (distinct team ids, team ids and membership rows below
the fresh-id counter) whose desired-to-observed matching is injective,
running Apply twice in a row with no external mutation performs zero
write operations on the second run: the second run returns the zero
ApplyOrgResult, the forge state of the first run, and an empty write
trace. -/
theorem apply_idempotent_amended (cp : CompilePat) (forge : Forge) (org : Org)
    (hok : ruleEngineRun cp forge org = .ok)
    (hids : (forge.teams.map (fun u => u.id)).Nodup)
    (hlt : ∀ u ∈ forge.teams, u.id < forge.nextId)
    (hmems : ∀ mrow ∈ forge.mems, mrow.1 < forge.nextId)
    (hinj : (matchedIdsTeams forge.teams org.teams).Nodup) :
    applyOrg cp (applyOrg cp forge org).2.1 org =
      (.ok ApplyOrgResult.zero, (applyOrg cp forge org).2.1, []) := by
  have hCT := configureTeams_post org forge hids hlt hinj
  have hlk : ∀ k ∈ (configureTeams org forge.teams ⟨forge, []⟩).1, ∃ w, mapLookup (teamsByName (promoteAdmins (configureTeams org forge.teams ⟨forge, []⟩).2.forge.admins org).teams) k.team.name = some w := by
    intro k hk
    exact Option.isSome_iff_exists.mp (configureTeams_kept_lookup cp forge org
      (configureTeams org forge.teams ⟨forge, []⟩).2.forge.admins k hk)
  have habsent : ∀ k ∈ (configureTeams org forge.teams ⟨forge, []⟩).1, k.created = true →
      ∀ (role : GitHubTeamRole) (e : String),
        ¬ (k.team.id, role, e) ∈ (configureTeams org forge.teams ⟨forge, []⟩).2.forge.mems := by
    intro k hk hc role e habs
    rw [hCT.frame.1] at habs
    have h1 := hmems _ habs
    rcases hCT.kept_ids k hk with ⟨hcf, _⟩ | ⟨_, hge⟩
    · rw [hc] at hcf
      cases hcf
    · exact absurd h1 (not_lt.mpr hge)
  obtain ⟨A1, A2, A3, A4, A5, A6, Asettled, Aother, Alog⟩ := cmAux_post
    (teamsByName (promoteAdmins (configureTeams org forge.teams ⟨forge, []⟩).2.forge.admins org).teams) (configureTeams org forge.teams ⟨forge, []⟩).1 (configureTeams org forge.teams ⟨forge, []⟩).2 hCT.kept_nodup hlk habsent
  obtain ⟨hforge_eq, hlog_eq, hres⟩ := applyOrg_ok_proj cp forge org hok A1
  have hauxeq : (configureTeamMemberships
      (promoteAdmins (configureTeams org forge.teams ⟨forge, []⟩).2.forge.admins org) (configureTeams org forge.teams ⟨forge, []⟩).1 (configureTeams org forge.teams ⟨forge, []⟩).2).2.forge = (configureTeamMembershipsAux (teamsByName (promoteAdmins (configureTeams org forge.teams ⟨forge, []⟩).2.forge.admins org).teams) (configureTeams org forge.teams ⟨forge, []⟩).1 (configureTeams org forge.teams ⟨forge, []⟩).2).2.forge := rfl
  rw [hforge_eq, hauxeq]
  have hteams1 : (configureTeamMembershipsAux (teamsByName (promoteAdmins (configureTeams org forge.teams ⟨forge, []⟩).2.forge.admins org).teams) (configureTeams org forge.teams ⟨forge, []⟩).1 (configureTeams org forge.teams ⟨forge, []⟩).2).2.forge.teams = (configureTeams org forge.teams ⟨forge, []⟩).2.forge.teams := A2
  have hadmins1 : (configureTeamMembershipsAux (teamsByName (promoteAdmins (configureTeams org forge.teams ⟨forge, []⟩).2.forge.admins org).teams) (configureTeams org forge.teams ⟨forge, []⟩).1 (configureTeams org forge.teams ⟨forge, []⟩).2).2.forge.admins = forge.admins := A3.trans hCT.frame.2.1
  have husers1 : (configureTeamMembershipsAux (teamsByName (promoteAdmins (configureTeams org forge.teams ⟨forge, []⟩).2.forge.admins org).teams) (configureTeams org forge.teams ⟨forge, []⟩).1 (configureTeams org forge.teams ⟨forge, []⟩).2).2.forge.users = forge.users := A4.trans hCT.frame.2.2.1
  have hnames : ((flattenTeams org.teams).map Team.name).Nodup :=
    teamNamesUnique_ok_nodup org (runRules_ok_each org (orgRules cp forge) [] hok
      teamNamesUniqueRule (by
        unfold orgRules
        exact List.mem_cons_of_mem _ (List.mem_cons_self _ _)))
  have hknames : (configureTeams org forge.teams ⟨forge, []⟩).1.map (fun k => k.team.name) =
      (flattenTeams org.teams).map Team.name :=
    keptShapes_names 0 org.teams (configureTeams org forge.teams ⟨forge, []⟩).1 hCT.shape
  have hknodup : ((configureTeams org forge.teams ⟨forge, []⟩).1.map (fun k => k.team.name)).Nodup := by
    rw [hknames]
    exact hnames
  have hinj1 : ∀ a ∈ (configureTeamMembershipsAux (teamsByName (promoteAdmins (configureTeams org forge.teams ⟨forge, []⟩).2.forge.admins org).teams) (configureTeams org forge.teams ⟨forge, []⟩).1 (configureTeams org forge.teams ⟨forge, []⟩).2).2.forge.teams, ∀ b ∈ (configureTeamMembershipsAux (teamsByName (promoteAdmins (configureTeams org forge.teams ⟨forge, []⟩).2.forge.admins org).teams) (configureTeams org forge.teams ⟨forge, []⟩).1 (configureTeams org forge.teams ⟨forge, []⟩).2).2.forge.teams, a.name = b.name → a = b := by
    intro a ha b hb hab
    rw [hteams1] at ha hb
    obtain ⟨k1, hk1, hk1a⟩ := hCT.teams_kept a ha
    obtain ⟨k2, hk2, hk2b⟩ := hCT.teams_kept b hb
    have hkk : k1 = k2 := nodup_key_inj (fun k => k.team.name) hknodup hk1 hk2 (by
      show k1.team.name = k2.team.name
      rw [hk1a, hk2b]
      exact hab)
    rw [← hk1a, ← hk2b, hkk]
  have hkmem1 : ∀ k ∈ (configureTeams org forge.teams ⟨forge, []⟩).1, k.team ∈ (configureTeamMembershipsAux (teamsByName (promoteAdmins (configureTeams org forge.teams ⟨forge, []⟩).2.forge.admins org).teams) (configureTeams org forge.teams ⟨forge, []⟩).1 (configureTeams org forge.teams ⟨forge, []⟩).2).2.forge.teams := by
    intro k hk
    rw [hteams1]
    exact hCT.kept_mem k hk
  have hsl : SettledL (configureTeamMembershipsAux (teamsByName (promoteAdmins (configureTeams org forge.teams ⟨forge, []⟩).2.forge.admins org).teams) (configureTeams org forge.teams ⟨forge, []⟩).1 (configureTeams org forge.teams ⟨forge, []⟩).2).2.forge.teams 0 org.teams :=
    settledL_of_keptShapes (configureTeamMembershipsAux (teamsByName (promoteAdmins (configureTeams org forge.teams ⟨forge, []⟩).2.forge.admins org).teams) (configureTeams org forge.teams ⟨forge, []⟩).1 (configureTeams org forge.teams ⟨forge, []⟩).2).2.forge.teams 0 org.teams (configureTeams org forge.teams ⟨forge, []⟩).1 hCT.shape hkmem1
  have hcov : ∀ tt ∈ (configureTeamMembershipsAux (teamsByName (promoteAdmins (configureTeams org forge.teams ⟨forge, []⟩).2.forge.admins org).teams) (configureTeams org forge.teams ⟨forge, []⟩).1 (configureTeams org forge.teams ⟨forge, []⟩).2).2.forge.teams, ∃ w ∈ flattenTeams org.teams, w.name = tt.name := by
    intro tt htt
    rw [hteams1] at htt
    obtain ⟨k1, hk1, hk1t⟩ := hCT.teams_kept tt htt
    have hmemn : k1.team.name ∈ (flattenTeams org.teams).map Team.name := by
      rw [← hknames]
      exact List.mem_map.mpr ⟨k1, hk1, rfl⟩
    obtain ⟨w, hw, hwn⟩ := List.mem_map.mp hmemn
    exact ⟨w, hw, hwn.trans (congrArg GitHubTeam.name hk1t)⟩
  have hconf2 := configureTeams_noop org (configureTeamMembershipsAux (teamsByName (promoteAdmins (configureTeams org forge.teams ⟨forge, []⟩).2.forge.admins org).teams) (configureTeams org forge.teams ⟨forge, []⟩).1 (configureTeams org forge.teams ⟨forge, []⟩).2).2.forge hinj1 hsl hcov
  have hmatched2 : ∀ tt ∈ (configureTeamMembershipsAux (teamsByName (promoteAdmins (configureTeams org forge.teams ⟨forge, []⟩).2.forge.admins org).teams) (configureTeams org forge.teams ⟨forge, []⟩).1 (configureTeams org forge.teams ⟨forge, []⟩).2).2.forge.teams, tt.id ∈ matchedIdsTeams (configureTeamMembershipsAux (teamsByName (promoteAdmins (configureTeams org forge.teams ⟨forge, []⟩).2.forge.admins org).teams) (configureTeams org forge.teams ⟨forge, []⟩).1 (configureTeams org forge.teams ⟨forge, []⟩).2).2.forge.teams org.teams := by
    intro tt htt
    obtain ⟨w, hw, hwn⟩ := hcov tt htt
    exact matchedIds_of_find hw (find_by_name htt hwn.symm hinj1)
  have hok2 : ruleEngineRun cp (configureTeamMembershipsAux (teamsByName (promoteAdmins (configureTeams org forge.teams ⟨forge, []⟩).2.forge.admins org).teams) (configureTeams org forge.teams ⟨forge, []⟩).1 (configureTeams org forge.teams ⟨forge, []⟩).2).2.forge org = .ok :=
    engine_ok_forge1 cp forge (configureTeamMembershipsAux (teamsByName (promoteAdmins (configureTeams org forge.teams ⟨forge, []⟩).2.forge.admins org).teams) (configureTeams org forge.teams ⟨forge, []⟩).1 (configureTeams org forge.teams ⟨forge, []⟩).2).2.forge org hok husers1
      (activeTeamDeletions_ok org (configureTeamMembershipsAux (teamsByName (promoteAdmins (configureTeams org forge.teams ⟨forge, []⟩).2.forge.admins org).teams) (configureTeams org forge.teams ⟨forge, []⟩).1 (configureTeams org forge.teams ⟨forge, []⟩).2).2.forge hmatched2)
  have hrows2 : ∀ k ∈ (configureTeams org (configureTeamMembershipsAux (teamsByName (promoteAdmins (configureTeams org forge.teams ⟨forge, []⟩).2.forge.admins org).teams) (configureTeams org forge.teams ⟨forge, []⟩).1 (configureTeams org forge.teams ⟨forge, []⟩).2).2.forge.teams ⟨(configureTeamMembershipsAux (teamsByName (promoteAdmins (configureTeams org forge.teams ⟨forge, []⟩).2.forge.admins org).teams) (configureTeams org forge.teams ⟨forge, []⟩).1 (configureTeams org forge.teams ⟨forge, []⟩).2).2.forge, []⟩).1,
      ∃ w1, mapLookup (teamsByName (promoteAdmins (configureTeamMembershipsAux (teamsByName (promoteAdmins (configureTeams org forge.teams ⟨forge, []⟩).2.forge.admins org).teams) (configureTeams org forge.teams ⟨forge, []⟩).1 (configureTeams org forge.teams ⟨forge, []⟩).2).2.forge.admins org).teams)
        k.team.name = some w1 ∧
      (∀ e, e ∈ w1.maintainers ↔
        (k.team.id, GitHubTeamRole.maintainer, e) ∈ (configureTeamMembershipsAux (teamsByName (promoteAdmins (configureTeams org forge.teams ⟨forge, []⟩).2.forge.admins org).teams) (configureTeams org forge.teams ⟨forge, []⟩).1 (configureTeams org forge.teams ⟨forge, []⟩).2).2.forge.mems) ∧
      (∀ e, e ∈ w1.members ↔ (k.team.id, GitHubTeamRole.member, e) ∈ (configureTeamMembershipsAux (teamsByName (promoteAdmins (configureTeams org forge.teams ⟨forge, []⟩).2.forge.admins org).teams) (configureTeams org forge.teams ⟨forge, []⟩).1 (configureTeams org forge.teams ⟨forge, []⟩).2).2.forge.mems) := by
    intro k hk
    have hkt1 : k.team ∈ (configureTeamMembershipsAux (teamsByName (promoteAdmins (configureTeams org forge.teams ⟨forge, []⟩).2.forge.admins org).teams) (configureTeams org forge.teams ⟨forge, []⟩).1 (configureTeams org forge.teams ⟨forge, []⟩).2).2.forge.teams := (hconf2.2 k hk).2
    rw [hteams1] at hkt1
    obtain ⟨k1, hk1, hk1t⟩ := hCT.teams_kept k.team hkt1
    obtain ⟨w1, hw1⟩ := hlk k1 hk1
    have hmapeq : teamsByName (promoteAdmins (configureTeamMembershipsAux (teamsByName (promoteAdmins (configureTeams org forge.teams ⟨forge, []⟩).2.forge.admins org).teams) (configureTeams org forge.teams ⟨forge, []⟩).1 (configureTeams org forge.teams ⟨forge, []⟩).2).2.forge.admins org).teams = (teamsByName (promoteAdmins (configureTeams org forge.teams ⟨forge, []⟩).2.forge.admins org).teams) := by
      rw [hadmins1, hCT.frame.2.1]
    refine ⟨w1, ?_, ?_, ?_⟩
    · rw [hmapeq]
      rw [show k.team.name = k1.team.name from (congrArg GitHubTeam.name hk1t).symm]
      exact hw1
    · intro e
      have hs := (Asettled k1 hk1 w1 hw1).1 e
      rw [show k.team.id = k1.team.id from (congrArg GitHubTeam.id hk1t).symm]
      exact hs.symm
    · intro e
      have hs := (Asettled k1 hk1 w1 hw1).2 e
      rw [show k.team.id = k1.team.id from (congrArg GitHubTeam.id hk1t).symm]
      exact hs.symm
  have hm2 : configureTeamMemberships
      (promoteAdmins (configureTeams org (configureTeamMembershipsAux (teamsByName (promoteAdmins (configureTeams org forge.teams ⟨forge, []⟩).2.forge.admins org).teams) (configureTeams org forge.teams ⟨forge, []⟩).1 (configureTeams org forge.teams ⟨forge, []⟩).2).2.forge.teams ⟨(configureTeamMembershipsAux (teamsByName (promoteAdmins (configureTeams org forge.teams ⟨forge, []⟩).2.forge.admins org).teams) (configureTeams org forge.teams ⟨forge, []⟩).1 (configureTeams org forge.teams ⟨forge, []⟩).2).2.forge, []⟩).2.forge.admins org)
      (configureTeams org (configureTeamMembershipsAux (teamsByName (promoteAdmins (configureTeams org forge.teams ⟨forge, []⟩).2.forge.admins org).teams) (configureTeams org forge.teams ⟨forge, []⟩).1 (configureTeams org forge.teams ⟨forge, []⟩).2).2.forge.teams ⟨(configureTeamMembershipsAux (teamsByName (promoteAdmins (configureTeams org forge.teams ⟨forge, []⟩).2.forge.admins org).teams) (configureTeams org forge.teams ⟨forge, []⟩).1 (configureTeams org forge.teams ⟨forge, []⟩).2).2.forge, []⟩).1
      (configureTeams org (configureTeamMembershipsAux (teamsByName (promoteAdmins (configureTeams org forge.teams ⟨forge, []⟩).2.forge.admins org).teams) (configureTeams org forge.teams ⟨forge, []⟩).1 (configureTeams org forge.teams ⟨forge, []⟩).2).2.forge.teams ⟨(configureTeamMembershipsAux (teamsByName (promoteAdmins (configureTeams org forge.teams ⟨forge, []⟩).2.forge.admins org).teams) (configureTeams org forge.teams ⟨forge, []⟩).1 (configureTeams org forge.teams ⟨forge, []⟩).2).2.forge, []⟩).2 = (none, ⟨(configureTeamMembershipsAux (teamsByName (promoteAdmins (configureTeams org forge.teams ⟨forge, []⟩).2.forge.admins org).teams) (configureTeams org forge.teams ⟨forge, []⟩).1 (configureTeams org forge.teams ⟨forge, []⟩).2).2.forge, []⟩) := by
    show configureTeamMembershipsAux (teamsByName (promoteAdmins
        (configureTeams org (configureTeamMembershipsAux (teamsByName (promoteAdmins (configureTeams org forge.teams ⟨forge, []⟩).2.forge.admins org).teams) (configureTeams org forge.teams ⟨forge, []⟩).1 (configureTeams org forge.teams ⟨forge, []⟩).2).2.forge.teams ⟨(configureTeamMembershipsAux (teamsByName (promoteAdmins (configureTeams org forge.teams ⟨forge, []⟩).2.forge.admins org).teams) (configureTeams org forge.teams ⟨forge, []⟩).1 (configureTeams org forge.teams ⟨forge, []⟩).2).2.forge, []⟩).2.forge.admins org).teams)
      (configureTeams org (configureTeamMembershipsAux (teamsByName (promoteAdmins (configureTeams org forge.teams ⟨forge, []⟩).2.forge.admins org).teams) (configureTeams org forge.teams ⟨forge, []⟩).1 (configureTeams org forge.teams ⟨forge, []⟩).2).2.forge.teams ⟨(configureTeamMembershipsAux (teamsByName (promoteAdmins (configureTeams org forge.teams ⟨forge, []⟩).2.forge.admins org).teams) (configureTeams org forge.teams ⟨forge, []⟩).1 (configureTeams org forge.teams ⟨forge, []⟩).2).2.forge, []⟩).1
      (configureTeams org (configureTeamMembershipsAux (teamsByName (promoteAdmins (configureTeams org forge.teams ⟨forge, []⟩).2.forge.admins org).teams) (configureTeams org forge.teams ⟨forge, []⟩).1 (configureTeams org forge.teams ⟨forge, []⟩).2).2.forge.teams ⟨(configureTeamMembershipsAux (teamsByName (promoteAdmins (configureTeams org forge.teams ⟨forge, []⟩).2.forge.admins org).teams) (configureTeams org forge.teams ⟨forge, []⟩).1 (configureTeams org forge.teams ⟨forge, []⟩).2).2.forge, []⟩).2 = (none, ⟨(configureTeamMembershipsAux (teamsByName (promoteAdmins (configureTeams org forge.teams ⟨forge, []⟩).2.forge.admins org).teams) (configureTeams org forge.teams ⟨forge, []⟩).1 (configureTeams org forge.teams ⟨forge, []⟩).2).2.forge, []⟩)
    rw [hconf2.1]
    exact cmAux_noop _ _ _ (fun k hk => (hconf2.2 k hk).1) (fun k hk => hrows2 k hk)
  unfold applyOrg
  rw [hok2]
  dsimp only
  rw [hm2]
  rfl

/-- A forge with one known user and no teams. -/
def c1wForge : Forge :=
  { teams := [], mems := [], admins := [], users := [{ login := "u", email := "a@x" }],
    teamRepos := [], nextId := 1 }

/-- A two-level desired org with one member. -/
def c1wOrg : Org :=
  { name := "o",
    teams := [.mk "p" "d" [] [] ["a@x"] [".*"] [.mk "c" "" [] [] [] [] []]] }

/-- C1 witness: applying the two-level org twice against the one-user
forge performs no writes on the second run. -/
theorem apply_idempotent_witness :
    ruleEngineRun cpAll c1wForge c1wOrg = .ok ∧
    applyOrg cpAll (applyOrg cpAll c1wForge c1wOrg).2.1 c1wOrg =
      (.ok ApplyOrgResult.zero, (applyOrg cpAll c1wForge c1wOrg).2.1, []) :=
  ⟨by decide, apply_idempotent_amended cpAll c1wForge c1wOrg (by decide) (by decide)
    (by decide) (by decide) (by decide)⟩
